import Mathlib

/-!
# Verification of the concurrent B+ tree (`src/btree.h`)

Shallow embedding of the tree data structure and of the single-threaded
behaviour of `Btree::get` and `Btree::put` from `src/btree.h`.

Modelling conventions:

* A node's fixed-size arrays (`keys[kCapacity]`, `values[kCapacity]`,
  `children[kCapacity]`) together with the `key_count` field are modelled by
  the lists of their *valid* entries.  For a `LeafNode`, `key_count` counts
  stored entries, so a leaf is a list of key/value pairs.  For an `InnerNode`,
  `key_count` counts children (the constructor comment says "Number of
  children") and the valid separators are `keys[0 .. key_count-2]`; an inner
  node is therefore a separator list `ks` and a child list `cs` with
  `cs.length = key_count` and `ks.length = key_count - 1` on all states
  the code constructs.
* Reads of array slots beyond the valid range (garbage that the code copies
  but never consults) are modelled with `List.getD` and a `default` value.
* A write past the end of a `kCapacity`-sized array is undefined behaviour in
  the C++; the corresponding model function returns `none` at exactly those
  points (`leafInsert`, `innerInsertSplit`).  Likewise a `static_cast` to the
  wrong node type during descent is modelled as `none`.
* The comparator `ComparatorT` is required by the spec to be a strict total
  order, modelled by a `LinearOrder` on the key type.
* Locks do not change the single-threaded value semantics; `get` additionally
  returns the number of node read-lock acquisitions it performs, so that the
  lock-free handling of the empty tree is visible in the model.
-/

set_option maxHeartbeats 1000000

/-- A node of the B+ tree: either a `LeafNode` (list of key/value entries) or
an `InnerNode` (the `level` field, the valid separator keys, and the children).
A `LeafNode` is constructed with `level = 0` and the code never writes a leaf's
level, so the model does not store it. -/
inductive BNode (K V : Type) : Type where
  | leaf (entries : List (K × V)) : BNode K V
  | inner (level : ℕ) (keys : List K) (children : List (BNode K V)) : BNode K V

/-- The `level` field: leaves are constructed with level 0 (`Node(0, 0)`),
inner nodes carry their stored field. -/
def levelOf {K V : Type} : BNode K V → ℕ
  | .leaf _ => 0
  | .inner lvl _ _ => lvl

/-- Loop of `InnerNode::lower_bound`: binary search over
`keys[left .. right]`.  `rp1` stands for `right + 1` (so the C++ loop guard
`left <= right` is `left < rp1`, and `right` may start at `-1` i.e. `rp1 = 0`);
`idxF = none` encodes `index_found == -1`.  `fuel` bounds the number of
iterations; every iteration strictly shrinks the window `rp1 - left`, and all
callers pass fuel at least the initial window size, so fuel never runs out. -/
def innerLBLoop {K : Type} [LinearOrder K] (ks : List K) (key : K) (d : K) :
    ℕ → ℕ → ℕ → Option ℕ → Option ℕ
  | 0, _, _, idxF => idxF
  | fuel + 1, left, rp1, idxF =>
    if left < rp1 then
      let mid := (left + rp1 - 1) / 2
      if ks.getD mid d < key then innerLBLoop ks key d fuel (mid + 1) rp1 idxF
      else innerLBLoop ks key d fuel left mid (some mid)
    else idxF

/-- `InnerNode::lower_bound`.  `childCount` is the node's `key_count` field,
which for an inner node counts children; the searched separators are
`keys[0 .. childCount - 2]` and `childCount - 1` is the fallback child index. -/
def innerLowerBound {K : Type} [LinearOrder K] (ks : List K) (childCount : ℕ)
    (key : K) (d : K) : ℕ × Bool :=
  if childCount = 0 then (0, false)
  else
    match innerLBLoop ks key d childCount 0 (childCount - 1) none with
    | none => (childCount - 1, false)
    | some i => (i, true)

/-- Loop of `LeafNode::lower_bound` (same binary search, but `index_found`
starts at `key_count`, encoded as a plain natural). -/
def leafLBLoop {K V : Type} [LinearOrder K] [Inhabited K] [Inhabited V]
    (es : List (K × V)) (key : K) : ℕ → ℕ → ℕ → ℕ → ℕ
  | 0, _, _, idxF => idxF
  | fuel + 1, left, rp1, idxF =>
    if left < rp1 then
      let mid := (left + rp1 - 1) / 2
      if (es.getD mid default).1 < key then leafLBLoop es key fuel (mid + 1) rp1 idxF
      else leafLBLoop es key fuel left mid mid
    else idxF

/-- `LeafNode::lower_bound`: exact-match search; `found` re-checks equality at
the landing index with the two comparator calls of the source. -/
def leafLowerBound {K V : Type} [LinearOrder K] [Inhabited K] [Inhabited V]
    (es : List (K × V)) (key : K) : ℕ × Bool :=
  if es.length = 0 then (0, false)
  else
    let idx := leafLBLoop es key es.length 0 es.length es.length
    let found := decide (idx < es.length) &&
      (!decide ((es.getD idx default).1 < key) && !decide (key < (es.getD idx default).1))
    (idx, found)

/-- `LeafNode::insert`: overwrite in place when found, otherwise shift and
insert.  When the key is new and `key_count` is already `kCapacity`, the C++
shift writes `keys[key_count]`, one past the end of the array: undefined
behaviour, modelled as `none`. -/
def leafInsert {K V : Type} [LinearOrder K] [Inhabited K] [Inhabited V]
    (cap : ℕ) (es : List (K × V)) (key : K) (v : V) : Option (List (K × V)) :=
  let lb := leafLowerBound es key
  if lb.2 then
    some (es.set lb.1 ((es.getD lb.1 default).1, v))
  else if cap ≤ es.length then none
  else some (es.insertIdx lb.1 (key, v))

/-- `LeafNode::split`: `mid_key_index = key_count / 2`, the left half keeps
entries `0 .. mid` (the separator `keys[mid]` stays in the left leaf), the
right sibling receives the rest. -/
def leafSplit {K V : Type} [Inhabited K] [Inhabited V] (es : List (K × V)) :
    List (K × V) × K × List (K × V) :=
  let mid := es.length / 2
  (es.take (mid + 1), (es.getD mid default).1, es.drop (mid + 1))

/-- `InnerNode::insert_split`: place the promoted key at its lower bound and
the new sibling right after it.  With `key_count = 0` the shift loop
underflows, and with `key_count = kCapacity` it writes `children[kCapacity]`;
both are undefined behaviour, modelled as `none`. -/
def innerInsertSplit {K V : Type} [LinearOrder K] [Inhabited K] (cap : ℕ)
    (ks : List K) (cs : List (BNode K V)) (key : K) (splitChild : BNode K V) :
    Option (List K × List (BNode K V)) :=
  if cs.length = 0 ∨ cap ≤ cs.length then none
  else
    let idx := (innerLowerBound ks cs.length key default).1
    some (ks.insertIdx idx key, cs.insertIdx (idx + 1) splitChild)

/-- `InnerNode::split`: `mid_key_index = (key_count - 1) / 2`; the left half
keeps children `0 .. mid` and separators `0 .. mid - 1`, the promoted key is
`keys[mid]`, the right sibling receives children `mid+1 .. key_count-1` and
the separators after `mid`. -/
def innerSplit {K V : Type} [Inhabited K] (ks : List K) (cs : List (BNode K V)) :
    (List K × List (BNode K V)) × K × (List K × List (BNode K V)) :=
  let mid := (cs.length - 1) / 2
  ((ks.take mid, cs.take (mid + 1)), ks.getD mid default,
    (ks.drop (mid + 1), cs.drop (mid + 1)))

/-- Descent of `Btree::get` below the root.  The thread count `locks` records
`lock_read` acquisitions.  `fuel` models the `while (!is_leaf)` loop; on every
tree the code builds, the level field equals the descent depth, and the caller
passes the root's level, so fuel is exact.  `children[pos]` on a childless
inner node dereferences garbage in the C++, modelled as a not-found result. -/
def getNode {K V : Type} [LinearOrder K] [Inhabited K] [Inhabited V] :
    ℕ → BNode K V → K → ℕ → Option V × ℕ
  | _, .leaf es, key, locks =>
    let lb := leafLowerBound es key
    if lb.2 then (some (es.getD lb.1 default).2, locks) else (none, locks)
  | 0, .inner _ _ _, _, locks => (none, locks)
  | fuel + 1, .inner _ ks cs, key, locks =>
    let pos := (innerLowerBound ks cs.length key (default : K)).1
    match cs.get? pos with
    | some c => getNode fuel c key (locks + 1)
    | none => (none, locks)

/-- `Btree::get`: returns the looked-up value together with the number of node
read locks acquired.  An empty tree returns not-found with zero locks. -/
def Btree.get {K V : Type} [LinearOrder K] [Inhabited K] [Inhabited V]
    (t : Option (BNode K V)) (key : K) : Option V × ℕ :=
  match t with
  | none => (none, 0)
  | some root => getNode (levelOf root) root key 1

/-- The lock-coupling descent loop of `Btree::put` (lines 316-368): the
current node is always an inner node; the target child is split preemptively
when full, the promoted separator is absorbed by the current node, and the
descent continues into the half containing the key (strictly greater than the
separator goes right).  `none` marks undefined behaviour (an overflowing
write, a wrong-type cast, or a garbage child pointer). -/
def putDescend {K V : Type} [LinearOrder K] [Inhabited K] [Inhabited V] (cap : ℕ) :
    ℕ → BNode K V → K → V → Option (BNode K V)
  | 0, _, _, _ => none
  | _ + 1, .leaf _, _, _ => none
  | fuel + 1, .inner lvl ks cs, key, v =>
    let pos := (innerLowerBound ks cs.length key default).1
    match cs.get? pos with
    | none => none
    | some child =>
      if lvl = 1 then
        match child with
        | .inner _ _ _ => none
        | .leaf es =>
          if cap ≤ es.length then
            let ls := leafSplit es
            if ls.2.1 < key then
              match leafInsert cap ls.2.2 key v with
              | none => none
              | some es' =>
                match innerInsertSplit cap ks (cs.set pos (.leaf ls.1)) ls.2.1 (.leaf es') with
                | none => none
                | some p => some (.inner lvl p.1 p.2)
            else
              match leafInsert cap ls.1 key v with
              | none => none
              | some es' =>
                match innerInsertSplit cap ks (cs.set pos (.leaf es')) ls.2.1 (.leaf ls.2.2) with
                | none => none
                | some p => some (.inner lvl p.1 p.2)
          else
            match leafInsert cap es key v with
            | none => none
            | some es' => some (.inner lvl ks (cs.set pos (.leaf es')))
      else
        match child with
        | .leaf _ => none
        | .inner clvl cks ccs =>
          if cap ≤ ccs.length then
            let sp := innerSplit cks ccs
            if sp.2.1 < key then
              match putDescend cap fuel (.inner clvl sp.2.2.1 sp.2.2.2) key v with
              | none => none
              | some r =>
                match innerInsertSplit cap ks (cs.set pos (.inner clvl sp.1.1 sp.1.2)) sp.2.1 r with
                | none => none
                | some p => some (.inner lvl p.1 p.2)
            else
              match putDescend cap fuel (.inner clvl sp.1.1 sp.1.2) key v with
              | none => none
              | some r =>
                match innerInsertSplit cap ks (cs.set pos r) sp.2.1 (.inner clvl sp.2.2.1 sp.2.2.2) with
                | none => none
                | some p => some (.inner lvl p.1 p.2)
          else
            match putDescend cap fuel child key v with
            | none => none
            | some c' => some (.inner lvl ks (cs.set pos c'))

/-- `Btree::put`.  Empty tree: new root leaf.  Full root (leaf or inner):
split it, build a fresh root of one separator and two children (via
`key_count := 1; children[0] := root; insert_split(sep, sibling)` in the
source), and continue in the half containing the key.  The C++ installs the
new root before mutating the chosen half through its pointer; the model
applies the descent first and then assembles the root, which yields the same
tree. -/
def Btree.put {K V : Type} [LinearOrder K] [Inhabited K] [Inhabited V] (cap : ℕ)
    (t : Option (BNode K V)) (key : K) (v : V) : Option (Option (BNode K V)) :=
  match t with
  | none =>
    match leafInsert cap [] key v with
    | none => none
    | some es => some (some (.leaf es))
  | some (.leaf es) =>
    if cap ≤ es.length then
      let ls := leafSplit es
      if ls.2.1 < key then
        match leafInsert cap ls.2.2 key v with
        | none => none
        | some es' =>
          match innerInsertSplit cap [] [BNode.leaf ls.1] ls.2.1 (.leaf es') with
          | none => none
          | some p => some (some (.inner 1 p.1 p.2))
      else
        match leafInsert cap ls.1 key v with
        | none => none
        | some es' =>
          match innerInsertSplit cap [] [BNode.leaf es'] ls.2.1 (.leaf ls.2.2) with
          | none => none
          | some p => some (some (.inner 1 p.1 p.2))
    else
      match leafInsert cap es key v with
      | none => none
      | some es' => some (some (.leaf es'))
  | some (.inner lvl ks cs) =>
    if cap ≤ cs.length then
      let sp := innerSplit ks cs
      if sp.2.1 < key then
        match putDescend cap lvl (.inner lvl sp.2.2.1 sp.2.2.2) key v with
        | none => none
        | some r =>
          match innerInsertSplit cap [] [BNode.inner lvl sp.1.1 sp.1.2] sp.2.1 r with
          | none => none
          | some p => some (some (.inner (lvl + 1) p.1 p.2))
      else
        match putDescend cap lvl (.inner lvl sp.1.1 sp.1.2) key v with
        | none => none
        | some r =>
          match innerInsertSplit cap [] [r] sp.2.1 (.inner lvl sp.2.2.1 sp.2.2.2) with
          | none => none
          | some p => some (some (.inner (lvl + 1) p.1 p.2))
    else
      match putDescend cap lvl (.inner lvl ks cs) key v with
      | none => none
      | some r => some (some r)

/-- Running a sequence of `put` operations on a fresh (empty) tree.
`none` means some operation in the sequence hit undefined behaviour. -/
def Btree.putSeq {K V : Type} [LinearOrder K] [Inhabited K] [Inhabited V]
    (cap : ℕ) (ops : List (K × V)) : Option (Option (BNode K V)) :=
  ops.foldlM (fun t p => Btree.put cap t p.1 p.2) none

/-- A tree state is reachable if some single-threaded sequence of `put`
operations on a fresh tree produces it (without undefined behaviour). -/
def Btree.Reachable {K V : Type} [LinearOrder K] [Inhabited K] [Inhabited V]
    (cap : ℕ) (t : Option (BNode K V)) : Prop :=
  ∃ ops : List (K × V), Btree.putSeq cap ops = some t

/-! ## Observation functions on tree states -/

mutual
/-- All key/value entries stored in the subtree, in left-to-right order
(separator keys of inner nodes are routing data, not entries). -/
def treeEntries {K V : Type} : BNode K V → List (K × V)
  | .leaf es => es
  | .inner _ _ cs => treeEntriesL cs
/-- Entries of a list of subtrees, concatenated. -/
def treeEntriesL {K V : Type} : List (BNode K V) → List (K × V)
  | [] => []
  | c :: cs => treeEntries c ++ treeEntriesL cs
end

/-- All keys stored in the subtree. -/
def treeKeys {K V : Type} (n : BNode K V) : List K :=
  (treeEntries n).map Prod.fst

/-- All keys stored under a list of subtrees. -/
def treeKeysL {K V : Type} (cs : List (BNode K V)) : List K :=
  (treeEntriesL cs).map Prod.fst

mutual
/-- All separator keys appearing in inner nodes of the subtree. -/
def sepKeys {K V : Type} : BNode K V → List K
  | .leaf _ => []
  | .inner _ ks cs => ks ++ sepKeysL cs
/-- Separator keys of a list of subtrees. -/
def sepKeysL {K V : Type} : List (BNode K V) → List K
  | [] => []
  | c :: cs => sepKeys c ++ sepKeysL cs
end

/-- Entries of a tree state (`none` = empty tree). -/
def treeEntriesT {K V : Type} : Option (BNode K V) → List (K × V)
  | none => []
  | some n => treeEntries n

/-- Keys of a tree state. -/
def treeKeysT {K V : Type} (t : Option (BNode K V)) : List K :=
  (treeEntriesT t).map Prod.fst

/-- Separator keys of a tree state. -/
def sepKeysT {K V : Type} : Option (BNode K V) → List K
  | none => []
  | some n => sepKeys n

/-- The `key_count` field of a node, under the valid-prefix abstraction: for a
leaf it counts stored entries, for an inner node it counts children (the
field's comment in `Node` reads "Number of children" and all code paths keep
it equal to the number of children). -/
def keyCountField {K V : Type} : BNode K V → ℕ
  | .leaf es => es.length
  | .inner _ _ cs => cs.length

/-- The number of valid keys stored in the node's `keys` array: all
`key_count` slots for a leaf, the separators `keys[0 .. key_count-2]` for an
inner node. -/
def numKeys {K V : Type} : BNode K V → ℕ
  | .leaf es => es.length
  | .inner _ ks _ => ks.length

/-- The entry list of the leaf that the search descent for `key` reaches
(the "containing leaf" of a key). -/
def leafFor {K V : Type} [LinearOrder K] [Inhabited K] :
    ℕ → BNode K V → K → Option (List (K × V))
  | _, .leaf es, _ => some es
  | 0, .inner _ _ _, _ => none
  | fuel + 1, .inner _ ks cs, key =>
    match cs.get? ((innerLowerBound ks cs.length key default).1) with
    | some c => leafFor fuel c key
    | none => none

/-- The containing leaf of a key in a tree state. -/
def treeLeafFor {K V : Type} [LinearOrder K] [Inhabited K]
    (t : Option (BNode K V)) (key : K) : Option (List (K × V)) :=
  match t with
  | none => none
  | some root => leafFor (levelOf root) root key

/-! ## Specification-side functions -/

/-- Index of the first element of `ks` that is not less than `key`
(`ks.length` when every element is less).  This is what both binary searches
compute on sorted data. -/
def firstGe {K : Type} [LinearOrder K] (key : K) : List K → ℕ
  | [] => 0
  | s :: ks => if key ≤ s then 0 else firstGe key ks + 1

/-- Insert-or-update on an association list sorted by key: overwrite the
binding of `key` if present, otherwise insert it in order. -/
def kvUpdate {K V : Type} [LinearOrder K] (l : List (K × V)) (key : K) (v : V) :
    List (K × V) :=
  match l with
  | [] => [(key, v)]
  | p :: t =>
    if key < p.1 then (key, v) :: p :: t
    else if key = p.1 then (key, v) :: t
    else p :: kvUpdate t key v

/-- The value of the most recent `put` for `key` in an operation sequence. -/
def mostRecent {K V : Type} [DecidableEq K] (ops : List (K × V)) (key : K) :
    Option V :=
  ops.foldl (fun acc p => if p.1 = key then some p.2 else acc) none

/-- First binding of `key` in an association list. -/
def entriesLookup {K V : Type} [DecidableEq K] (l : List (K × V)) (key : K) :
    Option V :=
  (l.find? fun p => decide (p.1 = key)).map Prod.snd

/-! ## Invariants -/

/-- `∀ x ∈ lo, x < k`: `k` is above the (optional, exclusive) lower bound. -/
def oLt {K : Type} [LT K] (lo : Option K) (k : K) : Prop := ∀ x ∈ lo, x < k

/-- `∀ x ∈ hi, k ≤ x`: `k` is below the (optional, inclusive) upper bound. -/
def oLe {K : Type} [LE K] (k : K) (hi : Option K) : Prop := ∀ x ∈ hi, k ≤ x

/-- `∀ x ∈ hi, k < x`: `k` is strictly below the optional upper bound. -/
def oLtHi {K : Type} [LT K] (k : K) (hi : Option K) : Prop := ∀ x ∈ hi, k < x

mutual
/-- Well-formedness of a subtree within the key range `(lo, hi]`: leaves are
nonempty, within capacity, strictly sorted and inside the range; inner nodes
have positive level, children one level below, at most `cap` children, and
their separator/child lists alternate correctly (`WfL`).  A child to the left
of a separator covers keys up to and including the separator — the leaf split
keeps the separator key in the left leaf — and each separator key is stored in
its left subtree. -/
inductive Wf {K V : Type} [LinearOrder K] (cap : ℕ) :
    Option K → Option K → BNode K V → Prop where
  | leaf : ∀ lo hi es, 1 ≤ es.length → es.length ≤ cap →
      (es.map Prod.fst).Pairwise (· < ·) →
      (∀ p ∈ es, oLt lo p.1 ∧ oLe p.1 hi) →
      Wf cap lo hi (.leaf es)
  | inner : ∀ lo hi lvl ks cs, 1 ≤ lvl → cs.length ≤ cap →
      (∀ c ∈ cs, levelOf c + 1 = lvl) →
      WfL cap lo hi ks cs →
      Wf cap lo hi (.inner lvl ks cs)
/-- Well-formedness of an alternating separator/child sequence within
`(lo, hi]`: `cs = [c₀, …, cₘ]`, `ks = [s₀, …, sₘ₋₁]`, `cᵢ` covers
`(sᵢ₋₁, sᵢ]` (with `s₋₁ = lo`, `sₘ = hi`), every separator lies strictly
inside `(lo, hi)`, and `sᵢ` is a key stored in `cᵢ`. -/
inductive WfL {K V : Type} [LinearOrder K] (cap : ℕ) :
    Option K → Option K → List K → List (BNode K V) → Prop where
  | single : ∀ lo hi c, Wf cap lo hi c → WfL cap lo hi [] [c]
  | cons : ∀ lo hi s ks c cs, oLt lo s → oLtHi s hi → s ∈ treeKeys c →
      Wf cap lo (some s) c → WfL cap (some s) hi ks cs →
      WfL cap lo hi (s :: ks) (c :: cs)
end

/-- Well-formedness of a tree state. -/
def WfT {K V : Type} [LinearOrder K] (cap : ℕ) : Option (BNode K V) → Prop
  | none => True
  | some n => Wf cap none none n

/-- The level/shape invariant that holds on every reachable state for every
capacity: key counts within capacity, inner `key_count` = number of children
= number of separators + 1, levels positive on inner nodes and decreasing by
exactly one towards the children. -/
inductive Shape {K V : Type} (cap : ℕ) : BNode K V → Prop where
  | leaf : ∀ es, es.length ≤ cap → Shape cap (.leaf es)
  | inner : ∀ lvl ks cs, 1 ≤ lvl → cs.length ≤ cap → cs.length = ks.length + 1 →
      (∀ c ∈ cs, levelOf c + 1 = lvl) → (∀ c ∈ cs, Shape cap c) →
      Shape cap (.inner lvl ks cs)

/-- Level part of the invariant, as claimed by the spec: `level = 0` exactly
on leaves (a leaf is constructed with level 0 and never relabelled, an inner
node has level ≥ 1), and every child's level is exactly one less than its
parent's. -/
inductive LevelInv {K V : Type} : BNode K V → Prop where
  | leaf : ∀ es, LevelInv (.leaf es)
  | inner : ∀ lvl ks cs, 1 ≤ lvl → (∀ c ∈ cs, levelOf c + 1 = lvl) →
      (∀ c ∈ cs, LevelInv c) → LevelInv (.inner lvl ks cs)

/-- Per-node sortedness, as claimed by the spec: every leaf's keys strictly
ascending, every inner node's separator keys strictly ascending. -/
inductive SortedNodes {K V : Type} [LinearOrder K] : BNode K V → Prop where
  | leaf : ∀ es, (es.map Prod.fst).Pairwise (· < ·) → SortedNodes (.leaf es)
  | inner : ∀ lvl ks cs, ks.Pairwise (· < ·) → (∀ c ∈ cs, SortedNodes c) →
      SortedNodes (.inner lvl ks cs)

/-- `LevelInv` on a tree state. -/
def LevelInvT {K V : Type} : Option (BNode K V) → Prop
  | none => True
  | some n => LevelInv n

/-- `Shape` on a tree state. -/
def ShapeT {K V : Type} (cap : ℕ) : Option (BNode K V) → Prop
  | none => True
  | some n => Shape cap n

/-- `SortedNodes` on a tree state. -/
def SortedNodesT {K V : Type} [LinearOrder K] : Option (BNode K V) → Prop
  | none => True
  | some n => SortedNodes n

/-! ## Characterisation of the binary searches -/

theorem firstGe_le_length {K : Type} [LinearOrder K] (key : K) (ks : List K) :
    firstGe key ks ≤ ks.length := by
  induction ks with
  | nil => simp [firstGe]
  | cons s t ih =>
    simp only [firstGe, List.length_cons]
    split
    · omega
    · omega

theorem getD_lt_of_lt_firstGe {K : Type} [LinearOrder K] {key : K} {ks : List K}
    {i : ℕ} (d : K) (h : i < firstGe key ks) : ks.getD i d < key := by
  induction ks generalizing i with
  | nil => simp [firstGe] at h
  | cons s t ih =>
    simp only [firstGe] at h
    by_cases hc : key ≤ s
    · simp [hc] at h
    · simp only [hc, if_false] at h
      cases i with
      | zero => simpa using lt_of_not_le hc
      | succ j => exact ih (by omega)

theorem le_getD_firstGe {K : Type} [LinearOrder K] {key : K} {ks : List K}
    (d : K) (h : firstGe key ks < ks.length) : key ≤ ks.getD (firstGe key ks) d := by
  induction ks with
  | nil => simp at h
  | cons s t ih =>
    simp only [firstGe] at h ⊢
    by_cases hc : key ≤ s
    · simpa [hc]
    · simp only [hc, if_false] at h ⊢
      simpa using ih (by simpa using h)

theorem firstGe_le_of_le {K : Type} [LinearOrder K] {key : K} {ks : List K}
    {i : ℕ} (d : K) (hi : i < ks.length) (h : key ≤ ks.getD i d) :
    firstGe key ks ≤ i := by
  induction ks generalizing i with
  | nil => simp at hi
  | cons s t ih =>
    simp only [firstGe]
    by_cases hc : key ≤ s
    · simp [hc]
    · simp only [hc, if_false]
      cases i with
      | zero => simp at h; exact absurd h hc
      | succ j => simpa using ih (by simpa using hi) (by simpa using h)

theorem firstGe_eq_of {K : Type} [LinearOrder K] {key : K} {ks : List K}
    {pos : ℕ} (d : K) (hle : pos ≤ ks.length)
    (hlt : ∀ s ∈ ks.take pos, s < key)
    (hge : pos < ks.length → key ≤ ks.getD pos d) :
    firstGe key ks = pos := by
  induction ks generalizing pos with
  | nil => simp at hle; simp [firstGe, hle]
  | cons s t ih =>
    cases pos with
    | zero =>
      have h0 := hge (by simp)
      rw [List.getD_cons_zero] at h0
      simp [firstGe, h0]
    | succ j =>
      have hs : s < key := hlt s (by simp [List.take_succ_cons])
      simp only [firstGe, not_le.mpr hs, if_false]
      have := @ih j (by simpa using hle)
        (fun x hx => hlt x (by simp [List.take_succ_cons, hx]))
        (fun hj => by simpa using hge (by simpa using hj))
      omega

/-- Elements of `ks` strictly before the `firstGe` position are less than the key. -/
theorem mem_take_firstGe_lt {K : Type} [LinearOrder K] {key : K} {ks : List K}
    {pos : ℕ} (hpos : pos ≤ firstGe key ks) {s : K} (hs : s ∈ ks.take pos) :
    s < key := by
  obtain ⟨i, hi, hei⟩ := List.getElem_of_mem hs
  have hilen : i < ks.length := lt_of_lt_of_le hi (by simp [List.length_take])
  have hipos : i < pos := lt_of_lt_of_le hi (by simp [List.length_take])
  have hlt : ks.getD i s < key :=
    getD_lt_of_lt_firstGe s (lt_of_lt_of_le hipos hpos)
  rw [List.getElem_take] at hei
  rwa [List.getD_eq_getElem _ _ hilen, hei] at hlt

theorem pairwise_getD_le {K : Type} [LinearOrder K] {ks : List K}
    (hs : ks.Pairwise (· < ·)) {i j : ℕ} (d : K) (hij : i ≤ j) (hj : j < ks.length) :
    ks.getD i d ≤ ks.getD j d := by
  rcases eq_or_lt_of_le hij with rfl | hlt
  · rfl
  · have h := List.pairwise_iff_getElem.mp hs i j (lt_of_le_of_lt hij hj) hj hlt
    rw [List.getD_eq_getElem _ _ (lt_of_le_of_lt hij hj), List.getD_eq_getElem _ _ hj]
    exact le_of_lt h

theorem innerLBLoop_eq {K : Type} [LinearOrder K] {ks : List K} {key : K} (d : K)
    (hs : ks.Pairwise (· < ·)) :
    ∀ (fuel left rp1 : ℕ) (idxF : Option ℕ),
      rp1 ≤ fuel + left → left ≤ firstGe key ks → rp1 ≤ ks.length →
      innerLBLoop ks key d fuel left rp1 idxF =
        if firstGe key ks < rp1 then some (firstGe key ks) else idxF := by
  intro fuel
  induction fuel with
  | zero =>
    intro left rp1 idxF hf hl hr
    simp only [innerLBLoop]
    have hn : ¬ firstGe key ks < rp1 := by omega
    simp [hn]
  | succ f ih =>
    intro left rp1 idxF hf hl hr
    simp only [innerLBLoop]
    by_cases hlr : left < rp1
    · rw [if_pos hlr]
      set mid := (left + rp1 - 1) / 2 with hmid
      have hmid1 : left ≤ mid := by omega
      have hmid2 : mid < rp1 := by omega
      by_cases hcmp : ks.getD mid d < key
      · rw [if_pos hcmp]
        have hmlt : mid + 1 ≤ firstGe key ks := by
          by_contra hcon
          push_neg at hcon
          have h1 : key ≤ ks.getD (firstGe key ks) d := le_getD_firstGe d (by omega)
          have h2 : ks.getD (firstGe key ks) d ≤ ks.getD mid d :=
            pairwise_getD_le hs d (by omega) (by omega)
          exact absurd hcmp (not_lt.mpr (le_trans h1 h2))
        exact ih (mid + 1) rp1 idxF (by omega) hmlt hr
      · rw [if_neg hcmp]
        have hge : firstGe key ks ≤ mid := firstGe_le_of_le d (by omega) (not_lt.mp hcmp)
        rw [ih left mid (some mid) (by omega) hl (by omega)]
        by_cases hfm : firstGe key ks < mid
        · simp [hfm, show firstGe key ks < rp1 from by omega]
        · have heq : firstGe key ks = mid := by omega
          simp [heq, hmid2]
    · rw [if_neg hlr]
      have hn : ¬ firstGe key ks < rp1 := by omega
      simp [hn]

theorem innerLowerBound_fst {K : Type} [LinearOrder K] {ks : List K} {key : K} (d : K)
    (hs : ks.Pairwise (· < ·)) :
    (innerLowerBound ks (ks.length + 1) key d).1 = firstGe key ks := by
  simp only [innerLowerBound]
  rw [if_neg (by omega)]
  rw [show ks.length + 1 - 1 = ks.length from by omega]
  rw [innerLBLoop_eq d hs (ks.length + 1) 0 ks.length none (by omega) (by omega) le_rfl]
  by_cases h : firstGe key ks < ks.length
  · simp [h]
  · have heq : firstGe key ks = ks.length := by
      have := firstGe_le_length key ks; omega
    simp [h, heq]

theorem getD_fst {K V : Type} [Inhabited K] [Inhabited V] (es : List (K × V)) (i : ℕ)
    (d : K) (h : i < es.length) :
    (es.getD i default).1 = (es.map Prod.fst).getD i d := by
  rw [List.getD_eq_getElem _ _ h, List.getD_eq_getElem _ _ (by simpa using h),
    List.getElem_map]

theorem leafLBLoop_eq {K V : Type} [LinearOrder K] [Inhabited K] [Inhabited V]
    {es : List (K × V)} {key : K} (hs : (es.map Prod.fst).Pairwise (· < ·)) :
    ∀ (fuel left rp1 idxF : ℕ),
      rp1 ≤ fuel + left → left ≤ firstGe key (es.map Prod.fst) → rp1 ≤ es.length →
      leafLBLoop es key fuel left rp1 idxF =
        if firstGe key (es.map Prod.fst) < rp1 then firstGe key (es.map Prod.fst)
        else idxF := by
  intro fuel
  induction fuel with
  | zero =>
    intro left rp1 idxF hf hl hr
    simp only [leafLBLoop]
    have hn : ¬ firstGe key (es.map Prod.fst) < rp1 := by omega
    simp [hn]
  | succ f ih =>
    intro left rp1 idxF hf hl hr
    simp only [leafLBLoop]
    by_cases hlr : left < rp1
    · rw [if_pos hlr]
      set mid := (left + rp1 - 1) / 2 with hmid
      have hmid1 : left ≤ mid := by omega
      have hmid2 : mid < rp1 := by omega
      rw [getD_fst es mid default (by omega)]
      by_cases hcmp : (es.map Prod.fst).getD mid default < key
      · rw [if_pos hcmp]
        have hmlt : mid + 1 ≤ firstGe key (es.map Prod.fst) := by
          by_contra hcon
          push_neg at hcon
          have h1 : key ≤ (es.map Prod.fst).getD (firstGe key (es.map Prod.fst)) default :=
            le_getD_firstGe default (by simp; omega)
          have h2 : (es.map Prod.fst).getD (firstGe key (es.map Prod.fst)) default ≤
              (es.map Prod.fst).getD mid default :=
            pairwise_getD_le hs default (by omega) (by simp; omega)
          exact absurd hcmp (not_lt.mpr (le_trans h1 h2))
        exact ih (mid + 1) rp1 idxF (by omega) hmlt hr
      · rw [if_neg hcmp]
        have hge : firstGe key (es.map Prod.fst) ≤ mid :=
          firstGe_le_of_le default (by simp; omega) (not_lt.mp hcmp)
        rw [ih left mid mid (by omega) hl (by omega)]
        by_cases hfm : firstGe key (es.map Prod.fst) < mid
        · simp [hfm, show firstGe key (es.map Prod.fst) < rp1 from by omega]
        · have heq : firstGe key (es.map Prod.fst) = mid := by omega
          simp [heq, hmid2]
    · rw [if_neg hlr]
      have hn : ¬ firstGe key (es.map Prod.fst) < rp1 := by omega
      simp [hn]

theorem leafLowerBound_fst {K V : Type} [LinearOrder K] [Inhabited K] [Inhabited V]
    {es : List (K × V)} {key : K} (hs : (es.map Prod.fst).Pairwise (· < ·)) :
    (leafLowerBound es key).1 = firstGe key (es.map Prod.fst) := by
  simp only [leafLowerBound]
  by_cases h0 : es.length = 0
  · rw [if_pos h0]
    have : es = [] := List.length_eq_zero.mp h0
    simp [this, firstGe]
  · rw [if_neg h0]
    rw [leafLBLoop_eq hs es.length 0 es.length es.length (by omega) (by omega) le_rfl]
    by_cases h : firstGe key (es.map Prod.fst) < es.length
    · simp [h]
    · have heq : firstGe key (es.map Prod.fst) = es.length := by
        have := firstGe_le_length key (es.map Prod.fst); simp at this; omega
      simp [h, heq]

theorem leafLowerBound_snd {K V : Type} [LinearOrder K] [Inhabited K] [Inhabited V]
    {es : List (K × V)} {key : K} (hs : (es.map Prod.fst).Pairwise (· < ·)) :
    (leafLowerBound es key).2 = true ↔ key ∈ es.map Prod.fst := by
  constructor
  · intro h
    simp only [leafLowerBound] at h
    by_cases h0 : es.length = 0
    · simp [h0] at h
    · rw [if_neg h0] at h
      simp only [Bool.and_eq_true, decide_eq_true_eq, Bool.not_eq_true',
        decide_eq_false_iff_not] at h
      obtain ⟨hlt, hge, hle⟩ := h
      have heq : (es.getD (leafLBLoop es key es.length 0 es.length es.length) default).1
          = key := le_antisymm (not_lt.mp hle) (not_lt.mp hge)
      rw [← heq]
      rw [getD_fst es _ default hlt]
      rw [List.getD_eq_getElem _ _ (by simpa using hlt)]
      exact List.getElem_mem _
  · intro h
    obtain ⟨i, hi, hei⟩ := List.getElem_of_mem h
    have hf : firstGe key (es.map Prod.fst) ≤ i :=
      firstGe_le_of_le default hi (by rw [List.getD_eq_getElem _ _ hi, hei])
    have hflen : firstGe key (es.map Prod.fst) < es.length := by
      simp at hi; omega
    have h1 : key ≤ (es.map Prod.fst).getD (firstGe key (es.map Prod.fst)) default :=
      le_getD_firstGe default (by simpa using hflen)
    have h2 : (es.map Prod.fst).getD (firstGe key (es.map Prod.fst)) default ≤
        (es.map Prod.fst).getD i default := pairwise_getD_le hs default hf hi
    rw [List.getD_eq_getElem _ _ hi, hei] at h2
    have heq : (es.map Prod.fst).getD (firstGe key (es.map Prod.fst)) default = key :=
      le_antisymm h2 h1
    simp only [leafLowerBound]
    rw [if_neg (by omega)]
    simp only [Bool.and_eq_true, decide_eq_true_eq, Bool.not_eq_true',
      decide_eq_false_iff_not]
    rw [leafLBLoop_eq hs es.length 0 es.length es.length (by omega) (by omega) le_rfl,
      if_pos hflen]
    refine ⟨hflen, ?_, ?_⟩
    · rw [getD_fst es _ default hflen, heq]; exact lt_irrefl key
    · rw [getD_fst es _ default hflen, heq]; exact lt_irrefl key

/-- Without any sortedness hypothesis: a found result points at an entry whose
key equals the searched key (the code re-checks equality explicitly). -/
theorem leafLowerBound_found {K V : Type} [LinearOrder K] [Inhabited K] [Inhabited V]
    {es : List (K × V)} {key : K} (h : (leafLowerBound es key).2 = true) :
    (leafLowerBound es key).1 < es.length ∧
      (es.getD (leafLowerBound es key).1 default).1 = key := by
  simp only [leafLowerBound] at h ⊢
  by_cases h0 : es.length = 0
  · simp [h0] at h
  · rw [if_neg h0] at h ⊢
    simp only [Bool.and_eq_true, decide_eq_true_eq, Bool.not_eq_true',
      decide_eq_false_iff_not] at h
    exact ⟨h.1, le_antisymm (not_lt.mp h.2.2) (not_lt.mp h.2.1)⟩

/-! ## Lemmas about the specification-side map update and lookup -/

theorem kvUpdate_ne_nil {K V : Type} [LinearOrder K] (l : List (K × V)) (key : K) (v : V) :
    kvUpdate l key v ≠ [] := by
  cases l with
  | nil => simp [kvUpdate]
  | cons p t =>
    simp only [kvUpdate]
    split
    · simp
    · split <;> simp

theorem mem_of_mem_kvUpdate {K V : Type} [LinearOrder K] {l : List (K × V)} {key : K}
    {v : V} {p : K × V} (h : p ∈ kvUpdate l key v) : p ∈ l ∨ p = (key, v) := by
  induction l with
  | nil => simp [kvUpdate] at h; simp [h]
  | cons q t ih =>
    simp only [kvUpdate] at h
    split at h
    · simp only [List.mem_cons] at h
      rcases h with h | h | h
      · right; exact h
      · left; simp [h]
      · left; simp [h]
    · split at h
      · simp only [List.mem_cons] at h
        rcases h with h | h
        · right; exact h
        · left; simp [h]
      · simp only [List.mem_cons] at h
        rcases h with h | h
        · left; simp [h]
        · rcases ih h with h' | h'
          · left; simp [h']
          · right; exact h'

theorem mem_map_fst_kvUpdate {K V : Type} [LinearOrder K] {l : List (K × V)} {key : K}
    {v : V} {x : K} :
    x ∈ (kvUpdate l key v).map Prod.fst ↔ x = key ∨ x ∈ l.map Prod.fst := by
  induction l with
  | nil => simp [kvUpdate]
  | cons q t ih =>
    simp only [kvUpdate]
    split
    · simp only [List.map_cons, List.mem_cons]
    · rename_i hlt
      split
      · rename_i heq
        simp only [List.map_cons, List.mem_cons]
        constructor
        · rintro (h | h)
          · exact Or.inl h
          · exact Or.inr (Or.inr h)
        · rintro (h | h | h)
          · exact Or.inl h
          · exact Or.inl (heq ▸ h)
          · exact Or.inr h
      · simp only [List.map_cons, List.mem_cons, ih]
        tauto

theorem pairwise_kvUpdate {K V : Type} [LinearOrder K] {l : List (K × V)} {key : K}
    {v : V} (hs : (l.map Prod.fst).Pairwise (· < ·)) :
    ((kvUpdate l key v).map Prod.fst).Pairwise (· < ·) := by
  induction l with
  | nil => simp [kvUpdate]
  | cons q t ih =>
    simp only [List.map_cons, List.pairwise_cons] at hs
    obtain ⟨hq, ht⟩ := hs
    simp only [kvUpdate]
    split
    · rename_i hlt
      simp only [List.map_cons, List.pairwise_cons, List.mem_cons]
      refine ⟨?_, hq, ht⟩
      rintro x (rfl | hx)
      · exact hlt
      · exact lt_trans hlt (hq x hx)
    · rename_i hlt
      split
      · rename_i heq
        simp only [List.map_cons, List.pairwise_cons]
        exact ⟨fun x hx => heq ▸ hq x hx, ht⟩
      · rename_i hne
        have hkq : q.1 < key := lt_of_le_of_ne (not_lt.mp hlt) fun h => hne h.symm
        simp only [List.map_cons, List.pairwise_cons]
        refine ⟨?_, ih ht⟩
        intro x hx
        rcases mem_map_fst_kvUpdate.mp hx with rfl | hx
        · exact hkq
        · exact hq x hx

theorem length_kvUpdate {K V : Type} [LinearOrder K] {l : List (K × V)} {key : K}
    {v : V} (hs : (l.map Prod.fst).Pairwise (· < ·)) :
    (kvUpdate l key v).length =
      if key ∈ l.map Prod.fst then l.length else l.length + 1 := by
  induction l with
  | nil => simp [kvUpdate]
  | cons q t ih =>
    simp only [List.map_cons, List.pairwise_cons] at hs
    obtain ⟨hq, ht⟩ := hs
    simp only [kvUpdate]
    split
    · rename_i hlt
      have hnot : ¬ (key = q.1 ∨ key ∈ t.map Prod.fst) := by
        rintro (rfl | h)
        · exact lt_irrefl _ hlt
        · exact absurd (hq key h) (not_lt.mpr (le_of_lt hlt))
      simp only [List.length_cons, List.map_cons, List.mem_cons]
      rw [if_neg hnot]
    · split
      · rename_i heq
        have hmem : key ∈ q.1 :: t.map Prod.fst := by simp [heq]
        simp [hmem]
      · rename_i hlt hne
        have hkq : q.1 < key := lt_of_le_of_ne (not_lt.mp hlt) (fun h => hne h.symm)
        simp only [List.length_cons, List.map_cons, List.mem_cons, ih ht]
        have hne' : ¬ key = q.1 := fun h => hne h
        by_cases hm : key ∈ t.map Prod.fst
        · simp [hm, hne']
        · simp [hm, hne']

theorem count_map_fst_kvUpdate {K V : Type} [LinearOrder K] {l : List (K × V)} {key : K}
    {v : V} (hs : (l.map Prod.fst).Pairwise (· < ·)) :
    ((kvUpdate l key v).map Prod.fst).count key = 1 := by
  induction l with
  | nil => simp [kvUpdate]
  | cons q t ih =>
    simp only [List.map_cons, List.pairwise_cons] at hs
    obtain ⟨hq, ht⟩ := hs
    simp only [kvUpdate]
    split
    · rename_i hlt
      have h1 : (q.1 :: t.map Prod.fst).count key = 0 := by
        rw [List.count_eq_zero]
        intro hmem
        rcases List.mem_cons.mp hmem with heq | h
        · exact absurd hlt (by rw [heq]; exact lt_irrefl _)
        · exact absurd (hq key h) (not_lt.mpr (le_of_lt hlt))
      have h2 : ((key, v) :: q :: t).map Prod.fst = key :: q.1 :: t.map Prod.fst := by simp
      rw [h2, List.count_cons, h1]
      simp
    · split
      · rename_i heq
        have h1 : (t.map Prod.fst).count key = 0 := by
          rw [List.count_eq_zero]
          intro hmem
          exact absurd (hq key hmem) (by rw [← heq]; exact lt_irrefl key)
        have h2 : ((key, v) :: t).map Prod.fst = key :: t.map Prod.fst := by simp
        rw [h2, List.count_cons, h1]
        simp
      · rename_i hlt hne
        have hkq : q.1 < key := lt_of_le_of_ne (not_lt.mp hlt) (fun h => hne h.symm)
        have h2 : (q :: kvUpdate t key v).map Prod.fst
            = q.1 :: (kvUpdate t key v).map Prod.fst := by simp
        rw [h2, List.count_cons, ih ht]
        simp [ne_of_lt hkq, ne_of_gt hkq]

theorem kvUpdate_append_right {K V : Type} [LinearOrder K] {a b : List (K × V)}
    {key : K} {v : V} (h : ∀ x ∈ a.map Prod.fst, x < key) :
    kvUpdate (a ++ b) key v = a ++ kvUpdate b key v := by
  induction a with
  | nil => simp
  | cons q t ih =>
    have hq : q.1 < key := h q.1 (by simp)
    have h1 : ¬ key < q.1 := not_lt.mpr (le_of_lt hq)
    have h2 : ¬ key = q.1 := ne_of_gt hq
    simp [kvUpdate, h1, h2, ih (fun x hx => h x (by simp [hx]))]

theorem kvUpdate_append_left {K V : Type} [LinearOrder K] {a b : List (K × V)}
    {key : K} {v : V} (h : ∀ x ∈ b.map Prod.fst, key < x) :
    kvUpdate (a ++ b) key v = kvUpdate a key v ++ b := by
  induction a with
  | nil =>
    simp only [List.nil_append, kvUpdate]
    cases b with
    | nil => simp [kvUpdate]
    | cons p t =>
      have hp : key < p.1 := h p.1 (by simp)
      simp [kvUpdate, hp]
  | cons q t ih =>
    by_cases h1 : key < q.1
    · simp [kvUpdate, h1]
    · by_cases h2 : key = q.1
      · simp [kvUpdate, h1, h2]
      · simp [kvUpdate, h1, h2, ih]

theorem entriesLookup_cons_ne {K V : Type} [DecidableEq K] (q : K × V)
    (t : List (K × V)) {key : K} (h : q.1 ≠ key) :
    entriesLookup (q :: t) key = entriesLookup t key := by
  simp only [entriesLookup]
  rw [List.find?_cons_of_neg]
  simp [h]

theorem entriesLookup_cons_self {K V : Type} [DecidableEq K] (q : K × V)
    (t : List (K × V)) {key : K} (h : q.1 = key) :
    entriesLookup (q :: t) key = some q.2 := by
  simp only [entriesLookup]
  rw [List.find?_cons_of_pos]
  · rfl
  · simp [h]

theorem entriesLookup_eq_none {K V : Type} [DecidableEq K] {l : List (K × V)} {key : K}
    (h : key ∉ l.map Prod.fst) : entriesLookup l key = none := by
  have hf : List.find? (fun p => decide (p.1 = key)) l = none := by
    rw [List.find?_eq_none]
    intro p hp
    simp only [decide_eq_true_eq]
    intro hpk
    exact h (by rw [← hpk]; exact List.mem_map_of_mem Prod.fst hp)
  simp [entriesLookup, hf]

theorem entriesLookup_of_mem_sorted {K V : Type} [LinearOrder K] {l : List (K × V)}
    {key : K} {p : K × V} (hs : (l.map Prod.fst).Pairwise (· < ·)) (hp : p ∈ l)
    (hk : p.1 = key) : entriesLookup l key = some p.2 := by
  induction l with
  | nil => simp at hp
  | cons q t ih =>
    simp only [List.map_cons, List.pairwise_cons] at hs
    obtain ⟨hq, ht⟩ := hs
    rcases List.mem_cons.mp hp with rfl | hp'
    · rw [entriesLookup_cons_self p t hk]
    · have hqk : q.1 ≠ key := by
        intro h
        have := hq p.1 (List.mem_map_of_mem Prod.fst hp')
        rw [h, hk] at this
        exact lt_irrefl _ this
      rw [entriesLookup_cons_ne q t hqk]
      exact ih ht hp'

theorem entriesLookup_append {K V : Type} [DecidableEq K] (a b : List (K × V)) (key : K) :
    entriesLookup (a ++ b) key = (entriesLookup a key).or (entriesLookup b key) := by
  simp only [entriesLookup, List.find?_append]
  cases List.find? (fun p => decide (p.1 = key)) a <;> simp

theorem entriesLookup_kvUpdate_self {K V : Type} [LinearOrder K] (l : List (K × V))
    (key : K) (v : V) : entriesLookup (kvUpdate l key v) key = some v := by
  induction l with
  | nil => rw [show kvUpdate ([] : List (K × V)) key v = [(key, v)] from rfl,
      entriesLookup_cons_self (key, v) [] rfl]
  | cons q t ih =>
    simp only [kvUpdate]
    split
    · rw [entriesLookup_cons_self (key, v) _ rfl]
    · split
      · rw [entriesLookup_cons_self (key, v) _ rfl]
      · rename_i hlt hne
        rw [entriesLookup_cons_ne q _ (fun h => hne h.symm)]
        exact ih

theorem entriesLookup_kvUpdate_ne {K V : Type} [LinearOrder K] (l : List (K × V))
    (key : K) (v : V) {q : K} (hq : q ≠ key) :
    entriesLookup (kvUpdate l key v) q = entriesLookup l q := by
  induction l with
  | nil =>
    rw [show kvUpdate ([] : List (K × V)) key v = [(key, v)] from rfl,
      entriesLookup_cons_ne (key, v) [] (Ne.symm hq)]
  | cons p t ih =>
    simp only [kvUpdate]
    split
    · rw [entriesLookup_cons_ne (key, v) _ (Ne.symm hq)]
    · split
      · rename_i heq
        rw [entriesLookup_cons_ne (key, v) _ (Ne.symm hq),
          entriesLookup_cons_ne p t (by rw [← heq]; exact Ne.symm hq)]
      · by_cases hpq : p.1 = q
        · rw [entriesLookup_cons_self p _ hpq, entriesLookup_cons_self p t hpq]
        · rw [entriesLookup_cons_ne p _ hpq, entriesLookup_cons_ne p t hpq]
          exact ih

/-! ## `LeafNode::insert` realises the sorted insert-or-update -/

theorem set_firstGe_eq_kvUpdate {K V : Type} [LinearOrder K] [Inhabited K] [Inhabited V]
    {es : List (K × V)} {key : K} (v : V)
    (hs : (es.map Prod.fst).Pairwise (· < ·)) (hmem : key ∈ es.map Prod.fst) :
    es.set (firstGe key (es.map Prod.fst))
      ((es.getD (firstGe key (es.map Prod.fst)) default).1, v) = kvUpdate es key v := by
  induction es with
  | nil => simp at hmem
  | cons p t ih =>
    simp only [List.map_cons, List.pairwise_cons] at hs
    obtain ⟨hp, ht⟩ := hs
    simp only [List.map_cons, firstGe]
    by_cases hc : key ≤ p.1
    · have hkp : key = p.1 := by
        rcases List.mem_cons.mp hmem with h | h
        · exact h
        · exact absurd (hp key h) (not_lt.mpr hc)
      simp only [hc, if_true, List.set_cons_zero, List.getD_cons_zero, kvUpdate]
      rw [if_neg (by rw [hkp]; exact lt_irrefl _), if_pos hkp, hkp]
    · have hmem' : key ∈ t.map Prod.fst := by
        rcases List.mem_cons.mp hmem with h | h
        · exact absurd (le_of_eq h) hc
        · exact h
      simp only [hc, if_false, List.set_cons_succ, List.getD_cons_succ, kvUpdate]
      rw [if_neg (fun h => hc (le_of_lt h)), if_neg (fun h => hc (le_of_eq h))]
      rw [ih ht hmem']

theorem insertIdx_firstGe_eq_kvUpdate {K V : Type} [LinearOrder K]
    {es : List (K × V)} {key : K} (v : V) (hmem : key ∉ es.map Prod.fst) :
    es.insertIdx (firstGe key (es.map Prod.fst)) (key, v) = kvUpdate es key v := by
  induction es with
  | nil => simp [firstGe, kvUpdate, List.insertIdx]
  | cons p t ih =>
    simp only [List.map_cons, List.mem_cons, not_or] at hmem
    obtain ⟨hne, hmem'⟩ := hmem
    simp only [List.map_cons, firstGe]
    by_cases hc : key ≤ p.1
    · have hkp : key < p.1 := lt_of_le_of_ne hc hne
      simp only [hc, if_true, kvUpdate]
      rw [if_pos hkp]
      rfl
    · simp only [hc, if_false, List.insertIdx_succ_cons, kvUpdate]
      rw [if_neg (fun h => hc (le_of_lt h)), if_neg (fun h => hc (le_of_eq h))]
      rw [ih hmem']

theorem leafInsert_eq_kvUpdate {K V : Type} [LinearOrder K] [Inhabited K] [Inhabited V]
    {cap : ℕ} {es : List (K × V)} {key : K} (v : V)
    (hs : (es.map Prod.fst).Pairwise (· < ·))
    (h : es.length < cap ∨ key ∈ es.map Prod.fst) :
    leafInsert cap es key v = some (kvUpdate es key v) := by
  by_cases hf : (leafLowerBound es key).2 = true
  · have hmem : key ∈ es.map Prod.fst := (leafLowerBound_snd hs).mp hf
    simp only [leafInsert, hf, if_true]
    rw [leafLowerBound_fst hs, set_firstGe_eq_kvUpdate v hs hmem]
  · have hmem : key ∉ es.map Prod.fst := fun h' => hf ((leafLowerBound_snd hs).mpr h')
    have hlen : es.length < cap := by
      rcases h with h | h
      · exact h
      · exact absurd h hmem
    simp only [leafInsert, Bool.not_eq_true] at hf ⊢
    rw [hf]
    simp only [Bool.false_eq_true, if_false, not_le.mpr hlen, if_neg (not_le.mpr hlen)]
    rw [leafLowerBound_fst hs, insertIdx_firstGe_eq_kvUpdate v hmem]

/-! ## List identities used for node surgery -/

theorem list_eq_take_cons_drop {α : Type _} {l : List α} {i : ℕ} {x : α}
    (h : l.get? i = some x) : l = l.take i ++ x :: l.drop (i + 1) := by
  have hi : i < l.length := by
    rcases List.get?_eq_some.mp h with ⟨hh, _⟩
    exact hh
  have hx : l[i] = x := by
    rcases List.get?_eq_some.mp h with ⟨hh, he⟩
    simpa using he
  conv_lhs => rw [← List.take_append_drop i l]
  rw [List.drop_eq_getElem_cons hi, hx]

theorem set_eq_take_cons_drop {α : Type _} {l : List α} {i : ℕ}
    (h : i < l.length) (y : α) : l.set i y = l.take i ++ y :: l.drop (i + 1) := by
  rw [List.set_eq_take_append_cons_drop, if_pos h]

theorem insertIdx_after {α : Type _} (A : List α) (x y : α) (B : List α) :
    (A ++ x :: B).insertIdx (A.length + 1) y = A ++ x :: y :: B := by
  induction A with
  | nil => rfl
  | cons a t ih => simpa [List.insertIdx_succ_cons] using ih

theorem treeEntriesL_append {K V : Type} (a b : List (BNode K V)) :
    treeEntriesL (a ++ b) = treeEntriesL a ++ treeEntriesL b := by
  induction a with
  | nil => simp [treeEntriesL]
  | cons c t ih => simp [treeEntriesL, ih]

theorem treeKeysL_append {K V : Type} (a b : List (BNode K V)) :
    treeKeysL (a ++ b) = treeKeysL a ++ treeKeysL b := by
  simp [treeKeysL, treeEntriesL_append]

theorem treeKeysL_cons {K V : Type} (c : BNode K V) (t : List (BNode K V)) :
    treeKeysL (c :: t) = treeKeys c ++ treeKeysL t := by
  simp [treeKeysL, treeKeys, treeEntriesL]

theorem treeKeys_inner {K V : Type} (lvl : ℕ) (ks : List K) (cs : List (BNode K V)) :
    treeKeys (.inner lvl ks cs) = treeKeysL cs := by
  simp [treeKeys, treeKeysL, treeEntries]

theorem mem_treeKeysL_of_mem {K V : Type} {c : BNode K V} {cs : List (BNode K V)}
    (hc : c ∈ cs) {x : K} (hx : x ∈ treeKeys c) : x ∈ treeKeysL cs := by
  induction cs with
  | nil => simp at hc
  | cons d t ih =>
    rw [treeKeysL_cons]
    rcases List.mem_cons.mp hc with rfl | hc'
    · exact List.mem_append_left _ hx
    · exact List.mem_append_right _ (ih hc')

/-! ## Child bounds inside an inner node -/

/-- The exclusive lower bound applying to the child at index `pos` of an inner
node with separators `ks` and outer lower bound `lo`. -/
def lbound {K : Type} : Option K → List K → ℕ → Option K
  | lo, _, 0 => lo
  | lo, [], _ + 1 => lo
  | _, s :: ks, pos + 1 => lbound (some s) ks pos

/-- The inclusive upper bound applying to the child at index `pos`. -/
def ubound {K : Type} : Option K → List K → ℕ → Option K
  | hi, [], _ => hi
  | _, s :: _, 0 => some s
  | hi, _ :: ks, pos + 1 => ubound hi ks pos

theorem lbound_take {K : Type} (lo : Option K) (ks : List K) (pos : ℕ) :
    lbound lo (ks.take pos) pos = lbound lo ks pos := by
  induction ks generalizing lo pos with
  | nil => cases pos <;> simp [lbound]
  | cons s t ih =>
    cases pos with
    | zero => simp [lbound]
    | succ p => simp only [List.take_succ_cons, lbound]; exact ih (some s) p

theorem ubound_eq_getD {K : Type} (hi : Option K) {ks : List K} {pos : ℕ} (d : K)
    (h : pos < ks.length) : ubound hi ks pos = some (ks.getD pos d) := by
  induction ks generalizing pos with
  | nil => simp at h
  | cons s t ih =>
    cases pos with
    | zero => simp [ubound]
    | succ p => simpa [ubound] using ih (by simpa using h)

theorem ubound_eq_hi {K : Type} (hi : Option K) {ks : List K} {pos : ℕ}
    (h : ks.length ≤ pos) : ubound hi ks pos = hi := by
  induction ks generalizing pos with
  | nil => cases pos <;> simp [ubound]
  | cons s t ih =>
    cases pos with
    | zero => simp at h
    | succ p => simpa [ubound] using ih (by simpa using h)

/-! ## Basic consequences of well-formedness -/

theorem WfL.length_eq {K V : Type} [LinearOrder K] {cap : ℕ} {lo hi : Option K}
    {ks : List K} {cs : List (BNode K V)} (h : WfL cap lo hi ks cs) :
    cs.length = ks.length + 1 := by
  induction ks generalizing cs lo with
  | nil => cases h; simp
  | cons s t ih =>
    cases h with
    | cons _ _ _ _ _ _ hlo hhi hmem hwf hrest => simpa using ih hrest

theorem WfL.sep_lo {K V : Type} [LinearOrder K] {cap : ℕ} {lo hi : Option K}
    {ks : List K} {cs : List (BNode K V)} (h : WfL cap lo hi ks cs) :
    ∀ s ∈ ks, oLt lo s := by
  induction ks generalizing cs lo with
  | nil => simp
  | cons s t ih =>
    cases h with
    | cons _ _ _ _ _ _ hlo hhi hmem hwf hrest =>
      intro x hx
      rcases List.mem_cons.mp hx with rfl | hx'
      · exact hlo
      · intro y hy
        exact lt_trans (hlo y hy) (ih hrest x hx' s rfl)

theorem WfL.sep_hi {K V : Type} [LinearOrder K] {cap : ℕ} {lo hi : Option K}
    {ks : List K} {cs : List (BNode K V)} (h : WfL cap lo hi ks cs) :
    ∀ s ∈ ks, oLtHi s hi := by
  induction ks generalizing cs lo with
  | nil => simp
  | cons s t ih =>
    cases h with
    | cons _ _ _ _ _ _ hlo hhi hmem hwf hrest =>
      intro x hx
      rcases List.mem_cons.mp hx with rfl | hx'
      · exact hhi
      · exact ih hrest x hx'

theorem WfL.sep_pairwise {K V : Type} [LinearOrder K] {cap : ℕ} {lo hi : Option K}
    {ks : List K} {cs : List (BNode K V)} (h : WfL cap lo hi ks cs) :
    ks.Pairwise (· < ·) := by
  induction ks generalizing cs lo with
  | nil => simp
  | cons s t ih =>
    cases h with
    | cons _ _ _ _ _ _ hlo hhi hmem hwf hrest =>
      rw [List.pairwise_cons]
      exact ⟨fun x hx => hrest.sep_lo x hx s rfl, ih hrest⟩

theorem WfL.mem_wf {K V : Type} [LinearOrder K] {cap : ℕ} {lo hi : Option K}
    {ks : List K} {cs : List (BNode K V)} (h : WfL cap lo hi ks cs) :
    ∀ c ∈ cs, ∃ lo' hi', Wf cap lo' hi' c := by
  induction ks generalizing cs lo with
  | nil =>
    cases h with
    | single _ _ c hc =>
      intro d hd
      rcases List.mem_cons.mp hd with rfl | hd'
      · exact ⟨_, _, hc⟩
      · simp at hd'
  | cons s t ih =>
    cases h with
    | cons _ _ _ _ _ _ hlo hhi hmem hwf hrest =>
      intro d hd
      rcases List.mem_cons.mp hd with rfl | hd'
      · exact ⟨_, _, hwf⟩
      · exact ih hrest d hd'

/-- The child at index `pos` together with the bounds that apply to it, and
the fact that the separator at index `pos` (when it exists) is stored in that
child. -/
theorem WfL.child {K V : Type} [LinearOrder K] {cap : ℕ} {lo hi : Option K}
    {ks : List K} {cs : List (BNode K V)} (h : WfL cap lo hi ks cs) (d : K) :
    ∀ pos, pos ≤ ks.length →
      ∃ c, cs.get? pos = some c ∧ Wf cap (lbound lo ks pos) (ubound hi ks pos) c ∧
        (pos < ks.length → ks.getD pos d ∈ treeKeys c) := by
  induction ks generalizing cs lo with
  | nil =>
    cases h with
    | single _ _ c hc =>
      intro pos hpos
      simp only [List.length_nil, Nat.le_zero] at hpos
      subst hpos
      exact ⟨c, rfl, hc, by simp⟩
  | cons s t ih =>
    cases h with
    | cons _ _ _ _ c cs' hlo hhi hmem hwf hrest =>
      intro pos hpos
      cases pos with
      | zero =>
        refine ⟨c, rfl, hwf, fun _ => ?_⟩
        simpa [lbound, ubound] using hmem
      | succ p =>
        obtain ⟨c', hget, hwf', hsep⟩ := ih hrest p (by simpa using hpos)
        refine ⟨c', by simpa using hget, by simpa [lbound, ubound] using hwf', fun hp => ?_⟩
        simpa using hsep (by simpa using hp)

theorem WfL.keys_bounds_aux {K V : Type} [LinearOrder K] {cap : ℕ} {lo hi : Option K}
    {ks : List K} {cs : List (BNode K V)} (h : WfL cap lo hi ks cs)
    (hrec : ∀ c ∈ cs, ∀ lo' hi', Wf cap lo' hi' c →
      ∀ x ∈ treeKeys c, oLt lo' x ∧ oLe x hi') :
    ∀ x ∈ treeKeysL cs, oLt lo x ∧ oLe x hi := by
  induction ks generalizing cs lo with
  | nil =>
    cases h with
    | single _ _ c hc =>
      intro x hx
      rw [treeKeysL_cons] at hx
      rcases List.mem_append.mp hx with hx' | hx'
      · exact hrec c (by simp) _ _ hc x hx'
      · simp [treeKeysL, treeEntriesL] at hx'
  | cons s t ih =>
    cases h with
    | cons _ _ _ _ c cs' hlo hhi hmem hwf hrest =>
      intro x hx
      rw [treeKeysL_cons] at hx
      rcases List.mem_append.mp hx with hx' | hx'
      · obtain ⟨h1, h2⟩ := hrec c (by simp) _ _ hwf x hx'
        refine ⟨h1, ?_⟩
        intro y hy
        exact le_trans (h2 s rfl) (le_of_lt (hhi y hy))
      · obtain ⟨h1, h2⟩ := ih hrest (fun c' hc' => hrec c' (by simp [hc'])) x hx'
        refine ⟨?_, h2⟩
        intro y hy
        exact lt_trans (hlo y hy) (h1 s rfl)

theorem wf_keys_bounds_aux {K V : Type} [LinearOrder K] {cap : ℕ} :
    ∀ (N : ℕ) (n : BNode K V), sizeOf n < N → ∀ lo hi, Wf cap lo hi n →
      ∀ x ∈ treeKeys n, oLt lo x ∧ oLe x hi := by
  intro N
  induction N with
  | zero => intro n h; omega
  | succ N ih =>
    intro n hn lo hi hwf x hx
    cases hwf with
    | leaf lo hi es h1 h2 h3 h4 =>
      simp only [treeKeys, treeEntries] at hx
      obtain ⟨p, hp, rfl⟩ := List.mem_map.mp hx
      exact h4 p hp
    | inner lo hi lvl ks cs h1 h2 h3 h4 =>
      rw [treeKeys_inner] at hx
      refine WfL.keys_bounds_aux h4 ?_ x hx
      intro c hc lo' hi' hwf' y hy
      have hsz : sizeOf c < sizeOf (BNode.inner lvl ks cs) := by
        have h5 := List.sizeOf_lt_of_mem hc
        simp only [BNode.inner.sizeOf_spec]
        omega
      exact ih c (by omega) lo' hi' hwf' y hy

theorem Wf.keys_bounds {K V : Type} [LinearOrder K] {cap : ℕ} {lo hi : Option K}
    {n : BNode K V} (h : Wf cap lo hi n) :
    ∀ x ∈ treeKeys n, oLt lo x ∧ oLe x hi :=
  wf_keys_bounds_aux (sizeOf n + 1) n (by omega) lo hi h

theorem WfL.keysL_bounds {K V : Type} [LinearOrder K] {cap : ℕ} {lo hi : Option K}
    {ks : List K} {cs : List (BNode K V)} (h : WfL cap lo hi ks cs) :
    ∀ x ∈ treeKeysL cs, oLt lo x ∧ oLe x hi :=
  h.keys_bounds_aux fun c _ lo' hi' hwf => hwf.keys_bounds

theorem WfL.keys_pairwise_aux {K V : Type} [LinearOrder K] {cap : ℕ} {lo hi : Option K}
    {ks : List K} {cs : List (BNode K V)} (h : WfL cap lo hi ks cs)
    (hrec : ∀ c ∈ cs, (treeKeys c).Pairwise (· < ·)) :
    (treeKeysL cs).Pairwise (· < ·) := by
  induction ks generalizing cs lo with
  | nil =>
    cases h with
    | single _ _ c hc =>
      rw [treeKeysL_cons]
      rw [List.pairwise_append]
      refine ⟨hrec c (by simp), by simp [treeKeysL, treeEntriesL], ?_⟩
      simp [treeKeysL, treeEntriesL]
  | cons s t ih =>
    cases h with
    | cons _ _ _ _ c cs' hlo hhi hmem hwf hrest =>
      rw [treeKeysL_cons, List.pairwise_append]
      refine ⟨hrec c (by simp), ih hrest (fun c' hc' => hrec c' (by simp [hc'])), ?_⟩
      intro a ha b hb
      have h1 : a ≤ s := (hwf.keys_bounds a ha).2 s rfl
      have h2 : s < b := (hrest.keysL_bounds b hb).1 s rfl
      exact lt_of_le_of_lt h1 h2

theorem wf_keys_pairwise_aux {K V : Type} [LinearOrder K] {cap : ℕ} :
    ∀ (N : ℕ) (n : BNode K V), sizeOf n < N → ∀ lo hi, Wf cap lo hi n →
      (treeKeys n).Pairwise (· < ·) := by
  intro N
  induction N with
  | zero => intro n h; omega
  | succ N ih =>
    intro n hn lo hi hwf
    cases hwf with
    | leaf lo hi es h1 h2 h3 h4 => simpa [treeKeys, treeEntries] using h3
    | inner lo hi lvl ks cs h1 h2 h3 h4 =>
      rw [treeKeys_inner]
      refine WfL.keys_pairwise_aux h4 ?_
      intro c hc
      obtain ⟨lo', hi', hwf'⟩ := h4.mem_wf c hc
      have hsz : sizeOf c < sizeOf (BNode.inner lvl ks cs) := by
        have h5 := List.sizeOf_lt_of_mem hc
        simp only [BNode.inner.sizeOf_spec]
        omega
      exact ih c (by omega) lo' hi' hwf'

theorem Wf.keys_pairwise {K V : Type} [LinearOrder K] {cap : ℕ} {lo hi : Option K}
    {n : BNode K V} (h : Wf cap lo hi n) : (treeKeys n).Pairwise (· < ·) :=
  wf_keys_pairwise_aux (sizeOf n + 1) n (by omega) lo hi h

theorem wf_sortedNodes_aux {K V : Type} [LinearOrder K] {cap : ℕ} :
    ∀ (N : ℕ) (n : BNode K V), sizeOf n < N → ∀ lo hi, Wf cap lo hi n →
      SortedNodes n := by
  intro N
  induction N with
  | zero => intro n h; omega
  | succ N ih =>
    intro n hn lo hi hwf
    cases hwf with
    | leaf lo hi es h1 h2 h3 h4 => exact SortedNodes.leaf es h3
    | inner lo hi lvl ks cs h1 h2 h3 h4 =>
      refine SortedNodes.inner lvl ks cs h4.sep_pairwise ?_
      intro c hc
      obtain ⟨lo', hi', hwf'⟩ := h4.mem_wf c hc
      have hsz : sizeOf c < sizeOf (BNode.inner lvl ks cs) := by
        have h5 := List.sizeOf_lt_of_mem hc
        simp only [BNode.inner.sizeOf_spec]
        omega
      exact ih c (by omega) lo' hi' hwf'

theorem Wf.sortedNodes {K V : Type} [LinearOrder K] {cap : ℕ} {lo hi : Option K}
    {n : BNode K V} (h : Wf cap lo hi n) : SortedNodes n :=
  wf_sortedNodes_aux (sizeOf n + 1) n (by omega) lo hi h

theorem WfL.seps_sub_aux {K V : Type} [LinearOrder K] {cap : ℕ} {lo hi : Option K}
    {ks : List K} {cs : List (BNode K V)} (h : WfL cap lo hi ks cs)
    (hrec : ∀ c ∈ cs, ∀ x ∈ sepKeys c, x ∈ treeKeys c) :
    (∀ x ∈ ks, x ∈ treeKeysL cs) ∧ (∀ x ∈ sepKeysL cs, x ∈ treeKeysL cs) := by
  induction ks generalizing cs lo with
  | nil =>
    cases h with
    | single _ _ c hc =>
      refine ⟨by simp, ?_⟩
      intro x hx
      simp only [sepKeysL] at hx
      rw [treeKeysL_cons]
      rcases List.mem_append.mp hx with hx' | hx'
      · exact List.mem_append_left _ (hrec c (by simp) x hx')
      · simp [sepKeysL] at hx'
  | cons s t ih =>
    cases h with
    | cons _ _ _ _ c cs' hlo hhi hmem hwf hrest =>
      obtain ⟨ih1, ih2⟩ := ih hrest (fun c' hc' => hrec c' (by simp [hc']))
      constructor
      · intro x hx
        rw [treeKeysL_cons]
        rcases List.mem_cons.mp hx with rfl | hx'
        · exact List.mem_append_left _ hmem
        · exact List.mem_append_right _ (ih1 x hx')
      · intro x hx
        simp only [sepKeysL] at hx
        rw [treeKeysL_cons]
        rcases List.mem_append.mp hx with hx' | hx'
        · exact List.mem_append_left _ (hrec c (by simp) x hx')
        · exact List.mem_append_right _ (ih2 x hx')

theorem wf_seps_sub_aux {K V : Type} [LinearOrder K] {cap : ℕ} :
    ∀ (N : ℕ) (n : BNode K V), sizeOf n < N → ∀ lo hi, Wf cap lo hi n →
      ∀ x ∈ sepKeys n, x ∈ treeKeys n := by
  intro N
  induction N with
  | zero => intro n h; omega
  | succ N ih =>
    intro n hn lo hi hwf x hx
    cases hwf with
    | leaf lo hi es h1 h2 h3 h4 => simp [sepKeys] at hx
    | inner lo hi lvl ks cs h1 h2 h3 h4 =>
      rw [treeKeys_inner]
      simp only [sepKeys] at hx
      have hrec : ∀ c ∈ cs, ∀ y ∈ sepKeys c, y ∈ treeKeys c := by
        intro c hc y hy
        obtain ⟨lo', hi', hwf'⟩ := h4.mem_wf c hc
        have hsz : sizeOf c < sizeOf (BNode.inner lvl ks cs) := by
          have h5 := List.sizeOf_lt_of_mem hc
          simp only [BNode.inner.sizeOf_spec]
          omega
        exact ih c (by omega) lo' hi' hwf' y hy
      obtain ⟨hs1, hs2⟩ := h4.seps_sub_aux hrec
      rcases List.mem_append.mp hx with hx' | hx'
      · exact hs1 x hx'
      · exact hs2 x hx'

theorem Wf.seps_sub {K V : Type} [LinearOrder K] {cap : ℕ} {lo hi : Option K}
    {n : BNode K V} (h : Wf cap lo hi n) : ∀ x ∈ sepKeys n, x ∈ treeKeys n :=
  wf_seps_sub_aux (sizeOf n + 1) n (by omega) lo hi h

theorem oLt_some {K : Type} [LT K] {s x : K} : oLt (some s) x ↔ s < x := by
  simp [oLt]

theorem oLtHi_some {K : Type} [LT K] {x s : K} : oLtHi x (some s) ↔ x < s := by
  simp [oLtHi]

theorem oLe_some {K : Type} [LE K] {x s : K} : oLe x (some s) ↔ x ≤ s := by
  simp [oLe]

theorem oLt_none {K : Type} [LT K] (x : K) : oLt none x := by simp [oLt]

theorem oLtHi_none {K : Type} [LT K] (x : K) : oLtHi x none := by simp [oLtHi]

theorem oLe_none {K : Type} [LE K] (x : K) : oLe x none := by simp [oLe]

theorem insertIdx_eq_take_cons_drop {α : Type _} {l : List α} {i : ℕ}
    (h : i ≤ l.length) (x : α) : l.insertIdx i x = l.take i ++ x :: l.drop i := by
  induction l generalizing i with
  | nil =>
    simp only [List.length_nil, Nat.le_zero] at h
    subst h
    rfl
  | cons a t ih =>
    cases i with
    | zero => rfl
    | succ j =>
      rw [List.insertIdx_succ_cons, ih (by simpa using h)]
      simp

/-- Splitting a well-formed separator/child sequence at the separator `s`
(the child `c` sits directly left of `s`). -/
theorem WfL_split3 {K V : Type} [LinearOrder K] {cap : ℕ} {lo hi : Option K} {s : K}
    {ks₁ ks₂ : List K} {cs₁ cs₂ : List (BNode K V)} {c : BNode K V}
    (h : WfL cap lo hi (ks₁ ++ s :: ks₂) (cs₁ ++ c :: cs₂))
    (hlen : cs₁.length = ks₁.length) :
    WfL cap lo (some s) ks₁ (cs₁ ++ [c]) ∧ oLt lo s ∧ oLtHi s hi ∧ s ∈ treeKeys c ∧
      WfL cap (some s) hi ks₂ cs₂ := by
  induction ks₁ generalizing cs₁ lo with
  | nil =>
    have hnil : cs₁ = [] := List.length_eq_zero.mp (by simpa using hlen)
    subst hnil
    simp only [List.nil_append] at h ⊢
    cases h with
    | cons _ _ _ _ _ _ hlo hhi hmem hwf hrest =>
      exact ⟨WfL.single _ _ _ hwf, hlo, hhi, hmem, hrest⟩
  | cons a t ih =>
    cases cs₁ with
    | nil => simp at hlen
    | cons c₀ cs₁' =>
      simp only [List.cons_append] at h ⊢
      cases h with
      | cons _ _ _ _ _ _ hlo hhi hmem hwf hrest =>
        obtain ⟨hL, hlos, hhis, hmems, hR⟩ := ih hrest (by simpa using hlen)
        have has : a < s := oLt_some.mp hlos
        refine ⟨?_, ?_, hhis, hmems, hR⟩
        · exact WfL.cons _ _ _ _ _ _ hlo (oLtHi_some.mpr has) hmem hwf hL
        · intro y hy
          exact lt_trans (hlo y hy) has

/-- The last child of a well-formed sequence. -/
theorem WfL_last {K V : Type} [LinearOrder K] {cap : ℕ} {lo hi : Option K}
    {ks : List K} {cs' : List (BNode K V)} {c : BNode K V}
    (h : WfL cap lo hi ks (cs' ++ [c])) (hlen : cs'.length = ks.length) :
    Wf cap (lbound lo ks ks.length) hi c := by
  induction ks generalizing cs' lo with
  | nil =>
    have hnil : cs' = [] := List.length_eq_zero.mp (by simpa using hlen)
    subst hnil
    cases h with
    | single _ _ _ hc => simpa [lbound] using hc
  | cons a t ih =>
    cases cs' with
    | nil => simp at hlen
    | cons c₀ cs₁' =>
      simp only [List.cons_append] at h
      cases h with
      | cons _ _ _ _ _ _ hlo hhi hmem hwf hrest =>
        simpa [lbound] using ih hrest (by simpa using hlen)

/-- Gluing two well-formed sequences around a separator `s` stored in the last
child of the left sequence. -/
theorem WfL_glue {K V : Type} [LinearOrder K] {cap : ℕ} {lo hi : Option K} {s : K}
    {ks₁ ks₂ : List K} {cs₁' cs₂ : List (BNode K V)} {cl : BNode K V}
    (hleft : WfL cap lo (some s) ks₁ (cs₁' ++ [cl])) (hlen : cs₁'.length = ks₁.length)
    (hmem : s ∈ treeKeys cl) (hshi : oLtHi s hi)
    (hright : WfL cap (some s) hi ks₂ cs₂) :
    WfL cap lo hi (ks₁ ++ s :: ks₂) (cs₁' ++ cl :: cs₂) := by
  induction ks₁ generalizing cs₁' lo with
  | nil =>
    have hnil : cs₁' = [] := List.length_eq_zero.mp (by simpa using hlen)
    subst hnil
    simp only [List.nil_append] at hleft ⊢
    cases hleft with
    | single _ _ _ hc =>
      exact WfL.cons _ _ _ _ _ _ (hc.keys_bounds s hmem).1 hshi hmem hc hright
  | cons a t ih =>
    cases cs₁' with
    | nil => simp at hlen
    | cons c₀ cs₁'' =>
      simp only [List.cons_append] at hleft ⊢
      cases hleft with
      | cons _ _ _ _ _ _ hlo hhi hmem₀ hwf₀ hrest =>
        have has : a < s := oLtHi_some.mp hhi
        refine WfL.cons _ _ _ _ _ _ hlo ?_ hmem₀ hwf₀ (ih hrest (by simpa using hlen))
        intro y hy
        exact lt_trans has (hshi y hy)

/-- Replacing the last child of a well-formed sequence, possibly relaxing the
upper bound. -/
theorem WfL_relast {K V : Type} [LinearOrder K] {cap : ℕ} {lo hi₀ : Option K}
    {ks : List K} {cs' : List (BNode K V)} {c : BNode K V}
    (h : WfL cap lo hi₀ ks (cs' ++ [c])) (hlen : cs'.length = ks.length)
    {c' : BNode K V} {hi₁ : Option K}
    (hc' : Wf cap (lbound lo ks ks.length) hi₁ c')
    (hsep : ∀ s ∈ ks, oLtHi s hi₁) :
    WfL cap lo hi₁ ks (cs' ++ [c']) := by
  induction ks generalizing cs' lo with
  | nil =>
    have hnil : cs' = [] := List.length_eq_zero.mp (by simpa using hlen)
    subst hnil
    exact WfL.single _ _ _ (by simpa [lbound] using hc')
  | cons a t ih =>
    cases cs' with
    | nil => simp at hlen
    | cons c₀ cs₁' =>
      simp only [List.cons_append] at h ⊢
      cases h with
      | cons _ _ _ _ _ _ hlo hhi hmem₀ hwf₀ hrest =>
        refine WfL.cons _ _ _ _ _ _ hlo (hsep a (by simp)) hmem₀ hwf₀ ?_
        exact ih hrest (by simpa using hlen) (by simpa [lbound] using hc')
          (fun x hx => hsep x (by simp [hx]))

/-- Every separator is smaller than anything above the bound of the last child. -/
theorem WfL.sep_lt_of_lbound_lt {K V : Type} [LinearOrder K] {cap : ℕ}
    {lo hi : Option K} {ks : List K} {cs : List (BNode K V)}
    (h : WfL cap lo hi ks cs) {x : K} (hx : oLt (lbound lo ks ks.length) x) :
    ∀ s ∈ ks, s < x := by
  induction ks generalizing cs lo with
  | nil => simp
  | cons a t ih =>
    cases h with
    | cons _ _ _ _ c cs' hlo hhi hmem hwf hrest =>
      have hx' : oLt (lbound (some a) t t.length) x := by simpa [lbound] using hx
      have iht := ih hrest hx'
      intro s hs
      rcases List.mem_cons.mp hs with rfl | hs'
      · cases t with
        | nil =>
          cases hrest with
          | single => simpa [lbound, oLt] using hx'
        | cons b t' =>
          exact lt_trans (hrest.sep_lo b (by simp) s rfl) (iht b (by simp))
      · exact iht s hs'

/-- Keys stored under the children before the last one are bounded by some
separator. -/
theorem WfL.init_keys {K V : Type} [LinearOrder K] {cap : ℕ} {lo hi : Option K}
    {ks : List K} {cs' : List (BNode K V)} {c : BNode K V}
    (h : WfL cap lo hi ks (cs' ++ [c])) (hlen : cs'.length = ks.length) :
    ∀ x ∈ treeKeysL cs', ∃ s ∈ ks, x ≤ s := by
  induction ks generalizing cs' lo with
  | nil =>
    have hnil : cs' = [] := List.length_eq_zero.mp (by simpa using hlen)
    subst hnil
    simp [treeKeysL, treeEntriesL]
  | cons a t ih =>
    cases cs' with
    | nil => simp at hlen
    | cons c₀ cs₁' =>
      simp only [List.cons_append] at h
      cases h with
      | cons _ _ _ _ _ _ hlo hhi hmem₀ hwf₀ hrest =>
        intro x hx
        rw [treeKeysL_cons] at hx
        rcases List.mem_append.mp hx with hx' | hx'
        · exact ⟨a, by simp, oLe_some.mp (hwf₀.keys_bounds x hx').2⟩
        · obtain ⟨s, hs, hxs⟩ := ih hrest (by simpa using hlen) x hx'
          exact ⟨s, by simp [hs], hxs⟩

theorem treeEntriesL_decomp {K V : Type} {cs : List (BNode K V)} {pos : ℕ}
    {c : BNode K V} (h : cs.get? pos = some c) :
    treeEntriesL cs =
      treeEntriesL (cs.take pos) ++ treeEntries c ++ treeEntriesL (cs.drop (pos + 1)) := by
  conv_lhs => rw [list_eq_take_cons_drop h]
  rw [treeEntriesL_append]
  simp [treeEntriesL, List.append_assoc]

theorem treeEntriesL_set {K V : Type} {cs : List (BNode K V)} {pos : ℕ}
    {c : BNode K V} (h : cs.get? pos = some c) (c' : BNode K V) :
    treeEntriesL (cs.set pos c') =
      treeEntriesL (cs.take pos) ++ treeEntries c' ++ treeEntriesL (cs.drop (pos + 1)) := by
  have hlt : pos < cs.length := by
    rcases List.get?_eq_some.mp h with ⟨hh, _⟩
    exact hh
  rw [set_eq_take_cons_drop hlt c', treeEntriesL_append]
  simp [treeEntriesL, List.append_assoc]

theorem treeEntriesL_set_insert {K V : Type} {cs : List (BNode K V)} {pos : ℕ}
    {c : BNode K V} (h : cs.get? pos = some c) (cl cr : BNode K V) :
    treeEntriesL ((cs.set pos cl).insertIdx (pos + 1) cr) =
      treeEntriesL (cs.take pos) ++ (treeEntries cl ++ treeEntries cr) ++
        treeEntriesL (cs.drop (pos + 1)) := by
  have hlt : pos < cs.length := by
    rcases List.get?_eq_some.mp h with ⟨hh, _⟩
    exact hh
  rw [set_eq_take_cons_drop hlt cl]
  have hlen : (cs.take pos).length = pos := by
    simp [List.length_take]
    omega
  rw [show pos + 1 = (cs.take pos).length + 1 from by rw [hlen], insertIdx_after,
    treeEntriesL_append]
  simp [treeEntriesL, List.append_assoc]

theorem get?_eq_some_getD {α : Type _} {l : List α} {i : ℕ} (d : α)
    (h : i < l.length) : l.get? i = some (l.getD i d) := by
  rw [List.getD_eq_getElem _ _ h]
  simp [List.get?_eq_getElem?, List.getElem?_eq_getElem h]

theorem drop_eq_getD_cons {α : Type _} {l : List α} {i : ℕ} (d : α)
    (h : i < l.length) : l.drop i = l.getD i d :: l.drop (i + 1) := by
  rw [List.getD_eq_getElem _ _ h]
  exact List.drop_eq_getElem_cons h

/-- Replacing the child at index `pos` of a well-formed sequence by a node
that is well-formed for the same bounds and whose keys include the old
child's keys. -/
theorem WfL_update_child {K V : Type} [LinearOrder K] {cap : ℕ} {lo hi : Option K}
    {ks : List K} {cs : List (BNode K V)} (h : WfL cap lo hi ks cs) (d : K)
    {pos : ℕ} (hpos : pos ≤ ks.length) {c : BNode K V} (hc : cs.get? pos = some c)
    {c' : BNode K V}
    (hc' : Wf cap (lbound lo ks pos) (ubound hi ks pos) c')
    (hkeys : ∀ x ∈ treeKeys c, x ∈ treeKeys c') :
    WfL cap lo hi ks (cs.set pos c') := by
  have hlencs : cs.length = ks.length + 1 := h.length_eq
  have hposcs : pos < cs.length := by omega
  have hlen1 : (cs.take pos).length = pos := by simp [List.length_take]; omega
  have hlen2 : (ks.take pos).length = pos := by simp [List.length_take]; omega
  rcases lt_or_eq_of_le hpos with hlt | heq
  · have hks : ks = ks.take pos ++ ks.getD pos d :: ks.drop (pos + 1) :=
      list_eq_take_cons_drop (get?_eq_some_getD d hlt)
    have hcs : cs = cs.take pos ++ c :: cs.drop (pos + 1) := list_eq_take_cons_drop hc
    have hdec : WfL cap lo hi (ks.take pos ++ ks.getD pos d :: ks.drop (pos + 1))
        (cs.take pos ++ c :: cs.drop (pos + 1)) := by rw [← hks, ← hcs]; exact h
    obtain ⟨hL, hlos, hhis, hmems, hR⟩ := WfL_split3 hdec (by omega)
    have hub : ubound hi ks pos = some (ks.getD pos d) := ubound_eq_getD hi d hlt
    have hL' : WfL cap lo (some (ks.getD pos d)) (ks.take pos) (cs.take pos ++ [c']) := by
      refine WfL_relast hL (by omega) ?_ (fun s' hs' => hL.sep_hi s' hs')
      rw [hlen2, lbound_take, ← hub]
      exact hc'
    have hglue := WfL_glue hL' (by omega) (hkeys _ hmems) hhis hR
    rw [← hks] at hglue
    rw [set_eq_take_cons_drop hposcs c']
    exact hglue
  · have hdrop : cs.drop (pos + 1) = [] := List.drop_eq_nil_of_le (by omega)
    have hcs : cs = cs.take pos ++ [c] := by
      conv_lhs => rw [list_eq_take_cons_drop hc]
      rw [hdrop]
    have hup : ubound hi ks pos = hi := ubound_eq_hi hi (by omega)
    rw [hcs] at h
    have hc'' : Wf cap (lbound lo ks ks.length) hi c' := by
      rw [hup] at hc'
      exact heq ▸ hc'
    have hres : WfL cap lo hi ks (cs.take pos ++ [c']) :=
      WfL_relast h (by omega) hc'' (fun s' hs' => h.sep_hi s' hs')
    rw [set_eq_take_cons_drop hposcs c', hdrop]
    exact hres

/-- Splitting the child at index `pos` into `cl`, a promoted separator `sn`
and `cr`, exactly as `insert_split` places them. -/
theorem WfL_split_child {K V : Type} [LinearOrder K] {cap : ℕ} {lo hi : Option K}
    {ks : List K} {cs : List (BNode K V)} (h : WfL cap lo hi ks cs) (d : K)
    {pos : ℕ} (hpos : pos ≤ ks.length) {c : BNode K V} (hc : cs.get? pos = some c)
    {cl cr : BNode K V} {sn : K}
    (hcl : Wf cap (lbound lo ks pos) (some sn) cl)
    (hcr : Wf cap (some sn) (ubound hi ks pos) cr)
    (hs1 : oLt (lbound lo ks pos) sn)
    (hs2 : oLtHi sn (ubound hi ks pos))
    (hmemL : sn ∈ treeKeys cl)
    (htrans : ∀ x ∈ treeKeys c, sn < x → x ∈ treeKeys cr) :
    WfL cap lo hi (ks.insertIdx pos sn) ((cs.set pos cl).insertIdx (pos + 1) cr) := by
  have hlencs : cs.length = ks.length + 1 := h.length_eq
  have hposcs : pos < cs.length := by omega
  have hlen1 : (cs.take pos).length = pos := by simp [List.length_take]; omega
  have hlen2 : (ks.take pos).length = pos := by simp [List.length_take]; omega
  have hcseq : (cs.set pos cl).insertIdx (pos + 1) cr
      = cs.take pos ++ cl :: cr :: cs.drop (pos + 1) := by
    rw [set_eq_take_cons_drop hposcs cl,
      show pos + 1 = (cs.take pos).length + 1 from by rw [hlen1], insertIdx_after]
  have hkseq : ks.insertIdx pos sn = ks.take pos ++ sn :: ks.drop pos :=
    insertIdx_eq_take_cons_drop hpos sn
  rw [hcseq, hkseq]
  rcases lt_or_eq_of_le hpos with hlt | heq
  · have hks : ks = ks.take pos ++ ks.getD pos d :: ks.drop (pos + 1) :=
      list_eq_take_cons_drop (get?_eq_some_getD d hlt)
    have hcs : cs = cs.take pos ++ c :: cs.drop (pos + 1) := list_eq_take_cons_drop hc
    have hdec : WfL cap lo hi (ks.take pos ++ ks.getD pos d :: ks.drop (pos + 1))
        (cs.take pos ++ c :: cs.drop (pos + 1)) := by rw [← hks, ← hcs]; exact h
    obtain ⟨hL, hlos, hhis, hmems, hR⟩ := WfL_split3 hdec (by omega)
    have hub : ubound hi ks pos = some (ks.getD pos d) := ubound_eq_getD hi d hlt
    have hsns : sn < ks.getD pos d := by
      have h2 := hs2
      rw [hub] at h2
      exact oLtHi_some.mp h2
    have hcr' : Wf cap (some sn) (some (ks.getD pos d)) cr := by
      rw [hub] at hcr
      exact hcr
    have hR' : WfL cap (some sn) hi (ks.getD pos d :: ks.drop (pos + 1))
        (cr :: cs.drop (pos + 1)) :=
      WfL.cons _ _ _ _ _ _ (oLt_some.mpr hsns) hhis (htrans _ hmems hsns) hcr' hR
    have hlb : lbound lo (ks.take pos) (ks.take pos).length = lbound lo ks pos := by
      rw [hlen2, lbound_take]
    have hx : oLt (lbound lo (ks.take pos) (ks.take pos).length) sn := by
      rw [hlb]
      exact hs1
    have hsep' : ∀ s' ∈ ks.take pos, oLtHi s' (some sn) :=
      fun s' hs' => oLtHi_some.mpr (hL.sep_lt_of_lbound_lt hx s' hs')
    have hcl' : Wf cap (lbound lo (ks.take pos) (ks.take pos).length) (some sn) cl := by
      rw [hlb]
      exact hcl
    have hL' : WfL cap lo (some sn) (ks.take pos) (cs.take pos ++ [cl]) :=
      WfL_relast hL (by omega) hcl' hsep'
    have hsnhi : oLtHi sn hi := fun y hy => lt_trans hsns (hhis y hy)
    have hglue := WfL_glue hL' (by omega) hmemL hsnhi hR'
    rw [drop_eq_getD_cons d hlt]
    exact hglue
  · have hdrop : cs.drop (pos + 1) = [] := List.drop_eq_nil_of_le (by omega)
    have hdropks : ks.drop pos = [] := List.drop_eq_nil_of_le (by omega)
    have hup : ubound hi ks pos = hi := ubound_eq_hi hi (by omega)
    have hcs : cs = cs.take pos ++ [c] := by
      conv_lhs => rw [list_eq_take_cons_drop hc]
      rw [hdrop]
    rw [hcs] at h
    have hsep' : ∀ s' ∈ ks, oLtHi s' (some sn) :=
      fun s' hs' => oLtHi_some.mpr (h.sep_lt_of_lbound_lt (heq ▸ hs1) s' hs')
    have hcl' : Wf cap (lbound lo ks ks.length) (some sn) cl := heq ▸ hcl
    have hL' : WfL cap lo (some sn) ks (cs.take pos ++ [cl]) :=
      WfL_relast h (by omega) hcl' hsep'
    have hcr' : Wf cap (some sn) hi cr := by
      rw [hup] at hcr
      exact hcr
    have hsnhi : oLtHi sn hi := by
      rw [hup] at hs2
      exact hs2
    have hglue := WfL_glue hL' (by omega) hmemL hsnhi (WfL.single _ _ _ hcr')
    rw [hdrop, hdropks, show ks.take pos = ks from by rw [heq]; exact List.take_length ks]
    exact hglue

theorem getD_mem_take {α : Type _} {l : List α} {m : ℕ} (hm : m < l.length) (d : α) :
    l.getD m d ∈ l.take (m + 1) := by
  rw [List.getD_eq_getElem _ _ hm]
  have hmt : m < (l.take (m + 1)).length := by simp [List.length_take]; omega
  have : (l.take (m + 1))[m] = l[m] := List.getElem_take _
  rw [← this]
  exact List.getElem_mem _

theorem sorted_take_le {K : Type} [LinearOrder K] {ks : List K}
    (hs : ks.Pairwise (· < ·)) {m : ℕ} (hm : m < ks.length) (d : K) :
    ∀ x ∈ ks.take (m + 1), x ≤ ks.getD m d := by
  intro x hx
  obtain ⟨i, hi, hei⟩ := List.getElem_of_mem hx
  rw [List.getElem_take] at hei
  have hile : i ≤ m := by simp [List.length_take] at hi; omega
  have hilen : i < ks.length := by simp [List.length_take] at hi; omega
  have := @pairwise_getD_le K _ ks hs i m d hile hm
  rwa [List.getD_eq_getElem _ _ hilen, hei] at this

theorem sorted_drop_gt {K : Type} [LinearOrder K] {ks : List K}
    (hs : ks.Pairwise (· < ·)) {m : ℕ} (hm : m < ks.length) (d : K) :
    ∀ x ∈ ks.drop (m + 1), ks.getD m d < x := by
  intro x hx
  obtain ⟨i, hi, hei⟩ := List.getElem_of_mem hx
  rw [List.getElem_drop] at hei
  have hilen : m + 1 + i < ks.length := by simp [List.length_drop] at hi; omega
  have hlt := List.pairwise_iff_getElem.mp hs m (m + 1 + i) hm hilen (by omega)
  rw [hei] at hlt
  rwa [List.getD_eq_getElem _ _ hm]

/-- Keys stored under the first `pos` children are bounded by one of the
first `pos` separators. -/
theorem WfL_take_keys {K V : Type} [LinearOrder K] {cap : ℕ} {lo hi : Option K}
    {ks : List K} {cs : List (BNode K V)} (h : WfL cap lo hi ks cs) :
    ∀ pos ≤ ks.length, ∀ x ∈ treeKeysL (cs.take pos), ∃ s ∈ ks.take pos, x ≤ s := by
  induction ks generalizing cs lo with
  | nil =>
    intro pos hpos
    simp only [List.length_nil, Nat.le_zero] at hpos
    subst hpos
    simp [treeKeysL, treeEntriesL]
  | cons a t ih =>
    cases h with
    | cons _ _ _ _ c cs' hlo hhi hmem hwf hrest =>
      intro pos hpos
      cases pos with
      | zero => simp [treeKeysL, treeEntriesL]
      | succ p =>
        intro x hx
        rw [List.take_succ_cons, treeKeysL_cons] at hx
        rcases List.mem_append.mp hx with hx' | hx'
        · exact ⟨a, by simp, oLe_some.mp (hwf.keys_bounds x hx').2⟩
        · obtain ⟨s, hs, hxs⟩ := ih hrest p (by simpa using hpos) x hx'
          refine ⟨s, ?_, hxs⟩
          rw [List.take_succ_cons]
          exact List.mem_cons_of_mem a hs

/-- Full decomposition of a well-formed sequence at separator index `pos`. -/
theorem WfL_decomp_at {K V : Type} [LinearOrder K] {cap : ℕ} {lo hi : Option K}
    {ks : List K} {cs : List (BNode K V)} (h : WfL cap lo hi ks cs) (d : K)
    {pos : ℕ} (hlt : pos < ks.length) :
    ∃ c, cs.get? pos = some c ∧
      WfL cap lo (some (ks.getD pos d)) (ks.take pos) (cs.take pos ++ [c]) ∧
      oLt lo (ks.getD pos d) ∧ oLtHi (ks.getD pos d) hi ∧
      ks.getD pos d ∈ treeKeys c ∧
      WfL cap (some (ks.getD pos d)) hi (ks.drop (pos + 1)) (cs.drop (pos + 1)) := by
  have hlencs : cs.length = ks.length + 1 := h.length_eq
  have hposcs : pos < cs.length := by omega
  obtain ⟨c, hc⟩ : ∃ c, cs.get? pos = some c := by
    rw [List.get?_eq_getElem?]
    exact ⟨_, List.getElem?_eq_getElem hposcs⟩
  have hks : ks = ks.take pos ++ ks.getD pos d :: ks.drop (pos + 1) :=
    list_eq_take_cons_drop (get?_eq_some_getD d hlt)
  have hcs : cs = cs.take pos ++ c :: cs.drop (pos + 1) := list_eq_take_cons_drop hc
  have hdec : WfL cap lo hi (ks.take pos ++ ks.getD pos d :: ks.drop (pos + 1))
      (cs.take pos ++ c :: cs.drop (pos + 1)) := by rw [← hks, ← hcs]; exact h
  obtain ⟨hL, hlos, hhis, hmems, hR⟩ := WfL_split3 hdec (by simp [List.length_take]; omega)
  exact ⟨c, hc, hL, hlos, hhis, hmems, hR⟩

theorem entriesLookup_append_left_none {K V : Type} [DecidableEq K]
    {a rest : List (K × V)} {key : K} (h : key ∉ a.map Prod.fst) :
    entriesLookup (a ++ rest) key = entriesLookup rest key := by
  rw [entriesLookup_append, entriesLookup_eq_none h]
  rfl

/-! ## `Btree::get` computes the association-list lookup -/

theorem getNode_fst {K V : Type} [LinearOrder K] [Inhabited K] [Inhabited V] {cap : ℕ} :
    ∀ (fuel : ℕ) (n : BNode K V) (lo hi : Option K) (key : K) (locks : ℕ),
      Wf cap lo hi n → levelOf n ≤ fuel →
      (getNode fuel n key locks).1 = entriesLookup (treeEntries n) key := by
  intro fuel
  induction fuel with
  | zero =>
    intro n lo hi key locks hwf hlvl
    cases n with
    | leaf es =>
      cases hwf with
      | leaf _ _ _ h1 h2 h3 h4 =>
        simp only [getNode, treeEntries]
        by_cases hf : (leafLowerBound es key).2 = true
        · rw [if_pos hf]
          obtain ⟨hflen, hfeq⟩ := leafLowerBound_found hf
          simp only
          rw [entriesLookup_of_mem_sorted h3 (List.getD_eq_getElem _ _ hflen ▸
            List.getElem_mem _) hfeq]
        · rw [if_neg hf]
          have hmem : key ∉ es.map Prod.fst := fun hm => hf ((leafLowerBound_snd h3).mpr hm)
          rw [entriesLookup_eq_none hmem]
    | inner lvl ks cs =>
      cases hwf with
      | inner _ _ _ _ _ h1 h2 h3 h4 => simp [levelOf] at hlvl; omega
  | succ fuel ih =>
    intro n lo hi key locks hwf hlvl
    cases n with
    | leaf es =>
      cases hwf with
      | leaf _ _ _ h1 h2 h3 h4 =>
        simp only [getNode, treeEntries]
        by_cases hf : (leafLowerBound es key).2 = true
        · rw [if_pos hf]
          obtain ⟨hflen, hfeq⟩ := leafLowerBound_found hf
          simp only
          rw [entriesLookup_of_mem_sorted h3 (List.getD_eq_getElem _ _ hflen ▸
            List.getElem_mem _) hfeq]
        · rw [if_neg hf]
          have hmem : key ∉ es.map Prod.fst := fun hm => hf ((leafLowerBound_snd h3).mpr hm)
          rw [entriesLookup_eq_none hmem]
    | inner lvl ks cs =>
      cases hwf with
      | inner _ _ _ _ _ h1 h2 h3 h4 =>
        have hlen : cs.length = ks.length + 1 := h4.length_eq
        have hpos : (innerLowerBound ks cs.length key (default : K)).1 = firstGe key ks := by
          rw [hlen]
          exact innerLowerBound_fst (default : K) h4.sep_pairwise
        have hfle : firstGe key ks ≤ ks.length := firstGe_le_length key ks
        simp only [getNode]
        rw [hpos]
        obtain ⟨c, hc, hcwf, hcsep⟩ := h4.child (default : K) (firstGe key ks) hfle
        rw [hc]
        have hcm : c ∈ cs := List.get?_mem hc
        have hclvl : levelOf c + 1 = lvl := h3 c hcm
        have hrec := ih c (lbound lo ks (firstGe key ks)) (ubound hi ks (firstGe key ks))
          key (locks + 1) hcwf (by simp [levelOf] at hlvl; omega)
        rw [hrec]
        -- entries of the inner node decompose around the chosen child
        rw [show treeEntries (BNode.inner lvl ks cs) = treeEntriesL cs from rfl,
          treeEntriesL_decomp hc]
        -- keys left of the chosen child are below the key
        have hprefix : key ∉ (treeEntriesL (cs.take (firstGe key ks))).map Prod.fst := by
          intro hmem
          obtain ⟨s, hs, hks⟩ := WfL_take_keys h4 (firstGe key ks) hfle key hmem
          exact absurd (mem_take_firstGe_lt le_rfl hs) (not_lt.mpr hks)
        rw [List.append_assoc, entriesLookup_append_left_none hprefix,
          entriesLookup_append]
        cases hec : entriesLookup (treeEntries c) key with
        | some v => rfl
        | none =>
          rcases lt_or_eq_of_le hfle with hflt | hfeq
          · obtain ⟨c', hc', hL', hlo', hhi', hmem', hR'⟩ := WfL_decomp_at h4 default hflt
            rw [hc'] at hc
            cases hc
            have hsuffix : key ∉ (treeEntriesL (cs.drop (firstGe key ks + 1))).map Prod.fst := by
              intro hmem
              have h5 := (hR'.keysL_bounds key hmem).1 _ rfl
              have h6 : key ≤ ks.getD (firstGe key ks) default := le_getD_firstGe default hflt
              exact absurd h5 (not_lt.mpr h6)
            rw [entriesLookup_eq_none hsuffix]
            rfl
          · have hdrop : cs.drop (firstGe key ks + 1) = [] :=
              List.drop_eq_nil_of_le (by omega)
            rw [hdrop]
            simp [treeEntriesL, entriesLookup, List.find?]

theorem Btree.get_fst {K V : Type} [LinearOrder K] [Inhabited K] [Inhabited V] {cap : ℕ}
    {t : Option (BNode K V)} (h : WfT cap t) (key : K) :
    (Btree.get t key).1 = entriesLookup (treeEntriesT t) key := by
  cases t with
  | none => simp [Btree.get, treeEntriesT, entriesLookup, List.find?]
  | some root => exact getNode_fst (levelOf root) root none none key 1 h le_rfl

theorem oLt_lbound_firstGe {K : Type} [LinearOrder K] {key : K} {ks : List K}
    {lo : Option K} (hlo : oLt lo key) : oLt (lbound lo ks (firstGe key ks)) key := by
  induction ks generalizing lo with
  | nil => simpa [firstGe, lbound]
  | cons s t ih =>
    simp only [firstGe]
    by_cases hc : key ≤ s
    · simpa [hc, lbound]
    · simp only [hc, if_false]
      exact ih (oLt_some.mpr (lt_of_not_le hc))

theorem oLe_ubound_firstGe {K : Type} [LinearOrder K] {key : K} {ks : List K}
    {hi : Option K} (hhi : oLe key hi) : oLe key (ubound hi ks (firstGe key ks)) := by
  induction ks with
  | nil => simpa [firstGe, ubound]
  | cons s t ih =>
    simp only [firstGe]
    by_cases hc : key ≤ s
    · simpa [hc, ubound] using oLe_some.mpr hc
    · simp only [hc, if_false]
      simpa [ubound] using ih

theorem WfL_take_sep_lt {K V : Type} [LinearOrder K] {cap : ℕ} {lo hi : Option K}
    {ks : List K} {cs : List (BNode K V)} (h : WfL cap lo hi ks cs)
    {pos : ℕ} (hpos : pos ≤ ks.length) {x : K} (hx : oLt (lbound lo ks pos) x) :
    ∀ s ∈ ks.take pos, s < x := by
  induction ks generalizing cs lo pos with
  | nil =>
    simp only [List.length_nil, Nat.le_zero] at hpos
    subst hpos
    simp
  | cons a t ih =>
    cases pos with
    | zero => simp
    | succ p =>
      cases h with
      | cons _ _ _ _ c cs' hlo hhi hmem hwf hrest =>
        have hx' : oLt (lbound (some a) t p) x := by simpa [lbound] using hx
        have iht := ih hrest (by simpa using hpos) hx'
        intro s hs
        rw [List.take_succ_cons] at hs
        rcases List.mem_cons.mp hs with rfl | hs'
        · cases p with
          | zero => simpa [lbound, oLt] using hx'
          | succ p' =>
            cases t with
            | nil => simp at hpos
            | cons b t' =>
              refine lt_trans (hrest.sep_lo b (by simp) s rfl) (iht b ?_)
              rw [List.take_succ_cons]
              simp
        · exact iht s hs'

/-- The position at which `insert_split` places a key that belongs to the
range of the child at `pos`. -/
theorem firstGe_sep_eq_pos {K V : Type} [LinearOrder K] {cap : ℕ} {lo hi : Option K}
    {ks : List K} {cs : List (BNode K V)} (h : WfL cap lo hi ks cs) (d : K)
    {pos : ℕ} (hpos : pos ≤ ks.length) {sn : K}
    (hs1 : oLt (lbound lo ks pos) sn)
    (hs2 : oLtHi sn (ubound hi ks pos)) :
    firstGe sn ks = pos := by
  refine firstGe_eq_of d hpos (WfL_take_sep_lt h hpos hs1) ?_
  intro hlt
  have h2 := hs2
  rw [ubound_eq_getD hi d hlt] at h2
  exact le_of_lt (oLtHi_some.mp h2)

theorem treeKeys_leaf {K V : Type} (es : List (K × V)) :
    treeKeys (.leaf es) = es.map Prod.fst := rfl

/-- The right-insert case of a full leaf split: the new key is strictly above
the promoted separator and goes to the fresh right sibling. -/
theorem leafSplit_step_right {K V : Type} [LinearOrder K] [Inhabited K] [Inhabited V]
    {cap : ℕ} (hcap : 3 ≤ cap) {es : List (K × V)} {lo hi : Option K} {key : K} (v : V)
    (hwf : Wf cap lo hi (.leaf es)) (hfull : cap ≤ es.length)
    (hklo : oLt lo key) (hkhi : oLe key hi)
    (hsep : (leafSplit es).2.1 < key) :
    leafInsert cap (leafSplit es).2.2 key v = some (kvUpdate (leafSplit es).2.2 key v) ∧
    Wf cap lo (some (leafSplit es).2.1) (.leaf (leafSplit es).1) ∧
    Wf cap (some (leafSplit es).2.1) hi (.leaf (kvUpdate (leafSplit es).2.2 key v)) ∧
    oLt lo (leafSplit es).2.1 ∧ oLtHi (leafSplit es).2.1 hi ∧
    (leafSplit es).2.1 ∈ treeKeys (.leaf (leafSplit es).1) ∧
    (∀ x ∈ treeKeys (.leaf es), (leafSplit es).2.1 < x →
      x ∈ treeKeys (.leaf (kvUpdate (leafSplit es).2.2 key v))) ∧
    (leafSplit es).1 ++ kvUpdate (leafSplit es).2.2 key v = kvUpdate es key v := by
  cases hwf with
  | leaf _ _ _ h1 h2 h3 h4 =>
    have hlen : es.length = cap := le_antisymm h2 hfull
    set mid := es.length / 2 with hmid
    have hmlt : mid < es.length := by omega
    have hLdef : (leafSplit es).1 = es.take (mid + 1) := rfl
    have hRdef : (leafSplit es).2.2 = es.drop (mid + 1) := rfl
    have hsdef : (leafSplit es).2.1 = (es.getD mid default).1 := rfl
    have hfst : (es.getD mid default).1 = (es.map Prod.fst).getD mid default :=
      getD_fst es mid default hmlt
    have hmaplen : (es.map Prod.fst).length = es.length := by simp
    -- key bounds of the two halves
    have hLkeys : (leafSplit es).1.map Prod.fst = (es.map Prod.fst).take (mid + 1) := by
      rw [hLdef, List.map_take]
    have hRkeys : (leafSplit es).2.2.map Prod.fst = (es.map Prod.fst).drop (mid + 1) := by
      rw [hRdef, List.map_drop]
    have hLle : ∀ x ∈ (leafSplit es).1.map Prod.fst, x ≤ (leafSplit es).2.1 := by
      rw [hLkeys, hsdef, hfst]
      exact sorted_take_le h3 (by omega) default
    have hRgt : ∀ x ∈ (leafSplit es).2.2.map Prod.fst, (leafSplit es).2.1 < x := by
      rw [hRkeys, hsdef, hfst]
      exact sorted_drop_gt h3 (by omega) default
    have hsepmem : (leafSplit es).2.1 ∈ (leafSplit es).1.map Prod.fst := by
      rw [hLkeys, hsdef, hfst]
      exact getD_mem_take (by omega) default
    have hsepes : (leafSplit es).2.1 ∈ es.map Prod.fst :=
      List.mem_of_mem_take (hLkeys ▸ hsepmem)
    have hRlen : (leafSplit es).2.2.length = es.length - (mid + 1) := by
      rw [hRdef]; simp
    have hLlen : (leafSplit es).1.length = mid + 1 := by
      rw [hLdef]; simp [List.length_take]; omega
    have hRnil : 1 ≤ (leafSplit es).2.2.length := by rw [hRlen]; omega
    have hLsorted : ((leafSplit es).1.map Prod.fst).Pairwise (· < ·) := by
      rw [hLkeys]; exact List.Pairwise.sublist (List.take_sublist _ _) h3
    have hRsorted : ((leafSplit es).2.2.map Prod.fst).Pairwise (· < ·) := by
      rw [hRkeys]; exact List.Pairwise.sublist (List.drop_sublist _ _) h3
    have hsplit : es = (leafSplit es).1 ++ (leafSplit es).2.2 := by
      rw [hLdef, hRdef, List.take_append_drop]
    have hs1 : oLt lo (leafSplit es).2.1 := by
      obtain ⟨p, hp, hpe⟩ := List.mem_map.mp hsepes
      have hb := (h4 p hp).1
      rwa [hpe] at hb
    have hs2 : oLtHi (leafSplit es).2.1 hi := by
      obtain ⟨q, hq⟩ := List.exists_mem_of_ne_nil _
        (List.ne_nil_of_length_pos (lt_of_lt_of_le zero_lt_one hRnil))
      have hql : (leafSplit es).2.1 < q.1 := hRgt q.1 (List.mem_map_of_mem Prod.fst hq)
      have hqe : q ∈ es := hsplit.symm ▸ List.mem_append_right _ hq
      intro x hx
      exact lt_of_lt_of_le hql ((h4 q hqe).2 x hx)
    have hRltcap : (leafSplit es).2.2.length < cap := by rw [hRlen]; omega
    have hins : leafInsert cap (leafSplit es).2.2 key v
        = some (kvUpdate (leafSplit es).2.2 key v) :=
      leafInsert_eq_kvUpdate v hRsorted (Or.inl hRltcap)
    have hclwf : Wf cap lo (some (leafSplit es).2.1) (BNode.leaf (leafSplit es).1) := by
      refine Wf.leaf _ _ _ (by rw [hLlen]; omega) (by rw [hLlen]; omega) hLsorted ?_
      intro p hp
      have hpe : p ∈ es := hsplit.symm ▸ List.mem_append_left _ hp
      exact ⟨(h4 p hpe).1, oLe_some.mpr (hLle p.1 (List.mem_map_of_mem Prod.fst hp))⟩
    have hcrwf : Wf cap (some (leafSplit es).2.1) hi
        (BNode.leaf (kvUpdate (leafSplit es).2.2 key v)) := by
      refine Wf.leaf _ _ _ ?_ ?_ (pairwise_kvUpdate hRsorted) ?_
      · exact List.length_pos.mpr (kvUpdate_ne_nil _ _ _)
      · rw [length_kvUpdate hRsorted]
        split <;> omega
      · intro p hp
        rcases mem_of_mem_kvUpdate hp with hp' | hpeq
        · have hpe : p ∈ es := hsplit.symm ▸ List.mem_append_right _ hp'
          exact ⟨oLt_some.mpr (hRgt p.1 (List.mem_map_of_mem Prod.fst hp')), (h4 p hpe).2⟩
        · subst hpeq
          exact ⟨oLt_some.mpr hsep, hkhi⟩
    have hmemL : (leafSplit es).2.1 ∈ treeKeys (BNode.leaf (leafSplit es).1) := by
      rw [treeKeys_leaf]
      exact hsepmem
    have htrans : ∀ x ∈ treeKeys (BNode.leaf es), (leafSplit es).2.1 < x →
        x ∈ treeKeys (BNode.leaf (kvUpdate (leafSplit es).2.2 key v)) := by
      intro x hx hlt
      rw [treeKeys_leaf] at hx ⊢
      refine mem_map_fst_kvUpdate.mpr (Or.inr ?_)
      have hkeq : es.map Prod.fst
          = (leafSplit es).1.map Prod.fst ++ (leafSplit es).2.2.map Prod.fst := by
        conv_lhs => rw [hsplit]
        simp
      rw [hkeq] at hx
      rcases List.mem_append.mp hx with hx' | hx'
      · exact absurd hlt (not_lt.mpr (hLle x hx'))
      · exact hx'
    have hentries : (leafSplit es).1 ++ kvUpdate (leafSplit es).2.2 key v
        = kvUpdate es key v := by
      conv_rhs => rw [hsplit]
      rw [kvUpdate_append_right]
      intro x hx
      exact lt_of_le_of_lt (hLle x hx) hsep
    exact ⟨hins, hclwf, hcrwf, hs1, hs2, hmemL, htrans, hentries⟩

/-- The left-insert case of a full leaf split: the new key is at most the
promoted separator and goes to the left half (which keeps the separator). -/
theorem leafSplit_step_left {K V : Type} [LinearOrder K] [Inhabited K] [Inhabited V]
    {cap : ℕ} (hcap : 3 ≤ cap) {es : List (K × V)} {lo hi : Option K} {key : K} (v : V)
    (hwf : Wf cap lo hi (.leaf es)) (hfull : cap ≤ es.length)
    (hklo : oLt lo key) (hkhi : oLe key hi)
    (hsep : ¬ (leafSplit es).2.1 < key) :
    leafInsert cap (leafSplit es).1 key v = some (kvUpdate (leafSplit es).1 key v) ∧
    Wf cap lo (some (leafSplit es).2.1) (.leaf (kvUpdate (leafSplit es).1 key v)) ∧
    Wf cap (some (leafSplit es).2.1) hi (.leaf (leafSplit es).2.2) ∧
    oLt lo (leafSplit es).2.1 ∧ oLtHi (leafSplit es).2.1 hi ∧
    (leafSplit es).2.1 ∈ treeKeys (.leaf (kvUpdate (leafSplit es).1 key v)) ∧
    (∀ x ∈ treeKeys (.leaf es), (leafSplit es).2.1 < x →
      x ∈ treeKeys (.leaf (leafSplit es).2.2)) ∧
    kvUpdate (leafSplit es).1 key v ++ (leafSplit es).2.2 = kvUpdate es key v := by
  have hkey : key ≤ (leafSplit es).2.1 := not_lt.mp hsep
  cases hwf with
  | leaf _ _ _ h1 h2 h3 h4 =>
    have hlen : es.length = cap := le_antisymm h2 hfull
    set mid := es.length / 2 with hmid
    have hmlt : mid < es.length := by omega
    have hLdef : (leafSplit es).1 = es.take (mid + 1) := rfl
    have hRdef : (leafSplit es).2.2 = es.drop (mid + 1) := rfl
    have hsdef : (leafSplit es).2.1 = (es.getD mid default).1 := rfl
    have hfst : (es.getD mid default).1 = (es.map Prod.fst).getD mid default :=
      getD_fst es mid default hmlt
    have hmaplen : (es.map Prod.fst).length = es.length := by simp
    have hLkeys : (leafSplit es).1.map Prod.fst = (es.map Prod.fst).take (mid + 1) := by
      rw [hLdef, List.map_take]
    have hRkeys : (leafSplit es).2.2.map Prod.fst = (es.map Prod.fst).drop (mid + 1) := by
      rw [hRdef, List.map_drop]
    have hLle : ∀ x ∈ (leafSplit es).1.map Prod.fst, x ≤ (leafSplit es).2.1 := by
      rw [hLkeys, hsdef, hfst]
      exact sorted_take_le h3 (by omega) default
    have hRgt : ∀ x ∈ (leafSplit es).2.2.map Prod.fst, (leafSplit es).2.1 < x := by
      rw [hRkeys, hsdef, hfst]
      exact sorted_drop_gt h3 (by omega) default
    have hsepmem : (leafSplit es).2.1 ∈ (leafSplit es).1.map Prod.fst := by
      rw [hLkeys, hsdef, hfst]
      exact getD_mem_take (by omega) default
    have hsepes : (leafSplit es).2.1 ∈ es.map Prod.fst :=
      List.mem_of_mem_take (hLkeys ▸ hsepmem)
    have hRlen : (leafSplit es).2.2.length = es.length - (mid + 1) := by
      rw [hRdef]; simp
    have hLlen : (leafSplit es).1.length = mid + 1 := by
      rw [hLdef]; simp [List.length_take]; omega
    have hRnil : 1 ≤ (leafSplit es).2.2.length := by rw [hRlen]; omega
    have hLsorted : ((leafSplit es).1.map Prod.fst).Pairwise (· < ·) := by
      rw [hLkeys]; exact List.Pairwise.sublist (List.take_sublist _ _) h3
    have hRsorted : ((leafSplit es).2.2.map Prod.fst).Pairwise (· < ·) := by
      rw [hRkeys]; exact List.Pairwise.sublist (List.drop_sublist _ _) h3
    have hsplit : es = (leafSplit es).1 ++ (leafSplit es).2.2 := by
      rw [hLdef, hRdef, List.take_append_drop]
    have hs1 : oLt lo (leafSplit es).2.1 := by
      obtain ⟨p, hp, hpe⟩ := List.mem_map.mp hsepes
      have hb := (h4 p hp).1
      rwa [hpe] at hb
    have hs2 : oLtHi (leafSplit es).2.1 hi := by
      obtain ⟨q, hq⟩ := List.exists_mem_of_ne_nil _
        (List.ne_nil_of_length_pos (lt_of_lt_of_le zero_lt_one hRnil))
      have hql : (leafSplit es).2.1 < q.1 := hRgt q.1 (List.mem_map_of_mem Prod.fst hq)
      have hqe : q ∈ es := hsplit.symm ▸ List.mem_append_right _ hq
      intro x hx
      exact lt_of_lt_of_le hql ((h4 q hqe).2 x hx)
    have hLltcap : (leafSplit es).1.length < cap := by rw [hLlen]; omega
    have hins : leafInsert cap (leafSplit es).1 key v
        = some (kvUpdate (leafSplit es).1 key v) :=
      leafInsert_eq_kvUpdate v hLsorted (Or.inl hLltcap)
    have hclwf : Wf cap lo (some (leafSplit es).2.1)
        (BNode.leaf (kvUpdate (leafSplit es).1 key v)) := by
      refine Wf.leaf _ _ _ ?_ ?_ (pairwise_kvUpdate hLsorted) ?_
      · exact List.length_pos.mpr (kvUpdate_ne_nil _ _ _)
      · rw [length_kvUpdate hLsorted]
        split <;> omega
      · intro p hp
        rcases mem_of_mem_kvUpdate hp with hp' | hpeq
        · have hpe : p ∈ es := hsplit.symm ▸ List.mem_append_left _ hp'
          exact ⟨(h4 p hpe).1,
            oLe_some.mpr (hLle p.1 (List.mem_map_of_mem Prod.fst hp'))⟩
        · subst hpeq
          exact ⟨hklo, oLe_some.mpr hkey⟩
    have hcrwf : Wf cap (some (leafSplit es).2.1) hi (BNode.leaf (leafSplit es).2.2) := by
      refine Wf.leaf _ _ _ hRnil (by rw [hRlen]; omega) hRsorted ?_
      intro p hp
      have hpe : p ∈ es := hsplit.symm ▸ List.mem_append_right _ hp
      exact ⟨oLt_some.mpr (hRgt p.1 (List.mem_map_of_mem Prod.fst hp)), (h4 p hpe).2⟩
    have hmemL : (leafSplit es).2.1 ∈ treeKeys (BNode.leaf (kvUpdate (leafSplit es).1 key v)) := by
      rw [treeKeys_leaf]
      exact mem_map_fst_kvUpdate.mpr (Or.inr hsepmem)
    have htrans : ∀ x ∈ treeKeys (BNode.leaf es), (leafSplit es).2.1 < x →
        x ∈ treeKeys (BNode.leaf (leafSplit es).2.2) := by
      intro x hx hlt
      rw [treeKeys_leaf] at hx ⊢
      have hkeq : es.map Prod.fst
          = (leafSplit es).1.map Prod.fst ++ (leafSplit es).2.2.map Prod.fst := by
        conv_lhs => rw [hsplit]
        simp
      rw [hkeq] at hx
      rcases List.mem_append.mp hx with hx' | hx'
      · exact absurd hlt (not_lt.mpr (hLle x hx'))
      · exact hx'
    have hentries : kvUpdate (leafSplit es).1 key v ++ (leafSplit es).2.2
        = kvUpdate es key v := by
      conv_rhs => rw [hsplit]
      rw [kvUpdate_append_left]
      intro x hx
      exact lt_of_le_of_lt hkey (hRgt x hx)
    exact ⟨hins, hclwf, hcrwf, hs1, hs2, hmemL, htrans, hentries⟩

/-- Splitting a full inner node: both halves are well formed around the
promoted separator, strictly smaller than the capacity, and the entries are
partitioned. -/
theorem innerSplit_step {K V : Type} [LinearOrder K] [Inhabited K] [Inhabited V]
    {cap : ℕ} (hcap : 3 ≤ cap) {clvl : ℕ} {cks : List K} {ccs : List (BNode K V)}
    {lo hi : Option K}
    (hwf : Wf cap lo hi (.inner clvl cks ccs)) (hfull : cap ≤ ccs.length) :
    Wf cap lo (some (innerSplit cks ccs).2.1)
      (.inner clvl (innerSplit cks ccs).1.1 (innerSplit cks ccs).1.2) ∧
    Wf cap (some (innerSplit cks ccs).2.1) hi
      (.inner clvl (innerSplit cks ccs).2.2.1 (innerSplit cks ccs).2.2.2) ∧
    oLt lo (innerSplit cks ccs).2.1 ∧ oLtHi (innerSplit cks ccs).2.1 hi ∧
    (innerSplit cks ccs).2.1 ∈
      treeKeys (.inner clvl (innerSplit cks ccs).1.1 (innerSplit cks ccs).1.2) ∧
    (innerSplit cks ccs).1.2.length < cap ∧
    (innerSplit cks ccs).2.2.2.length < cap ∧
    treeEntriesL ccs =
      treeEntriesL (innerSplit cks ccs).1.2 ++ treeEntriesL (innerSplit cks ccs).2.2.2 ∧
    (∀ x ∈ treeKeysL (innerSplit cks ccs).1.2, x ≤ (innerSplit cks ccs).2.1) ∧
    (∀ x ∈ treeKeysL (innerSplit cks ccs).2.2.2, (innerSplit cks ccs).2.1 < x) := by
  cases hwf with
  | inner _ _ _ _ _ h1 h2 h3 h4 =>
    have hlen : ccs.length = cks.length + 1 := h4.length_eq
    have hccs : ccs.length = cap := le_antisymm h2 hfull
    set mid := (ccs.length - 1) / 2 with hmiddef
    have hmidlt : mid < cks.length := by omega
    have hLksdef : (innerSplit cks ccs).1.1 = cks.take mid := rfl
    have hLcsdef : (innerSplit cks ccs).1.2 = ccs.take (mid + 1) := rfl
    have hsdef : (innerSplit cks ccs).2.1 = cks.getD mid default := rfl
    have hRksdef : (innerSplit cks ccs).2.2.1 = cks.drop (mid + 1) := rfl
    have hRcsdef : (innerSplit cks ccs).2.2.2 = ccs.drop (mid + 1) := rfl
    obtain ⟨cmid, hcmid, hLc, hlo', hhi', hmem', hRc⟩ := WfL_decomp_at h4 default hmidlt
    have htake1 : ccs.take (mid + 1) = ccs.take mid ++ [cmid] := by
      rw [List.take_succ, ← List.get?_eq_getElem?, hcmid]
      rfl
    have hL : Wf cap lo (some (innerSplit cks ccs).2.1)
        (.inner clvl (innerSplit cks ccs).1.1 (innerSplit cks ccs).1.2) := by
      rw [hLksdef, hLcsdef, hsdef]
      refine Wf.inner _ _ _ _ _ h1 ?_ ?_ ?_
      · simp [List.length_take]; omega
      · intro c hc
        exact h3 c (List.mem_of_mem_take hc)
      · rw [htake1]
        exact hLc
    have hR : Wf cap (some (innerSplit cks ccs).2.1) hi
        (.inner clvl (innerSplit cks ccs).2.2.1 (innerSplit cks ccs).2.2.2) := by
      rw [hRksdef, hRcsdef, hsdef]
      refine Wf.inner _ _ _ _ _ h1 ?_ ?_ hRc
      · simp [List.length_drop]; omega
      · intro c hc
        exact h3 c (List.mem_of_mem_drop hc)
    have hmemL : (innerSplit cks ccs).2.1 ∈
        treeKeys (.inner clvl (innerSplit cks ccs).1.1 (innerSplit cks ccs).1.2) := by
      rw [treeKeys_inner, hLcsdef, htake1]
      exact mem_treeKeysL_of_mem (by simp) hmem'
    have hLlt : (innerSplit cks ccs).1.2.length < cap := by
      rw [hLcsdef]; simp [List.length_take]; omega
    have hRlt : (innerSplit cks ccs).2.2.2.length < cap := by
      rw [hRcsdef]; simp [List.length_drop]; omega
    have hentries : treeEntriesL ccs =
        treeEntriesL (innerSplit cks ccs).1.2 ++ treeEntriesL (innerSplit cks ccs).2.2.2 := by
      rw [hLcsdef, hRcsdef, ← treeEntriesL_append, List.take_append_drop]
    have hkL : ∀ x ∈ treeKeysL (innerSplit cks ccs).1.2, x ≤ (innerSplit cks ccs).2.1 := by
      rw [hLcsdef, htake1, hsdef]
      intro x hx
      exact oLe_some.mp (hLc.keysL_bounds x hx).2
    have hkR : ∀ x ∈ treeKeysL (innerSplit cks ccs).2.2.2,
        (innerSplit cks ccs).2.1 < x := by
      rw [hRcsdef, hsdef]
      intro x hx
      exact oLt_some.mp (hRc.keysL_bounds x hx).1
    exact ⟨hL, hR, hlo', hhi', hmemL, hLlt, hRlt, hentries, hkL, hkR⟩

theorem mem_of_mem_insertIdx {α : Type _} {l : List α} {i : ℕ} (hi : i ≤ l.length)
    {a b : α} (h : a ∈ l.insertIdx i b) : a = b ∨ a ∈ l := by
  rw [insertIdx_eq_take_cons_drop hi] at h
  rcases List.mem_append.mp h with h' | h'
  · exact Or.inr (List.mem_of_mem_take h')
  · rcases List.mem_cons.mp h' with h'' | h''
    · exact Or.inl h''
    · exact Or.inr (List.mem_of_mem_drop h'')

theorem length_insertIdx_of_le {α : Type _} {l : List α} {i : ℕ} (h : i ≤ l.length)
    (x : α) : (l.insertIdx i x).length = l.length + 1 := by
  rw [insertIdx_eq_take_cons_drop h]
  simp [List.length_take]
  omega

theorem kvUpdate_entriesL_at {K V : Type} [LinearOrder K] {cap : ℕ} {lo hi : Option K}
    {ks : List K} {cs : List (BNode K V)} (h : WfL cap lo hi ks cs) (d : K)
    {key : K} (v : V) (hfle : firstGe key ks ≤ ks.length) {c : BNode K V}
    (hc : cs.get? (firstGe key ks) = some c) :
    kvUpdate (treeEntriesL cs) key v =
      treeEntriesL (cs.take (firstGe key ks)) ++ kvUpdate (treeEntries c) key v ++
        treeEntriesL (cs.drop (firstGe key ks + 1)) := by
  have hlencs : cs.length = ks.length + 1 := h.length_eq
  have hpre : ∀ x ∈ (treeEntriesL (cs.take (firstGe key ks))).map Prod.fst, x < key := by
    intro x hx
    obtain ⟨s, hs, hxs⟩ := WfL_take_keys h (firstGe key ks) hfle x hx
    exact lt_of_le_of_lt hxs (mem_take_firstGe_lt le_rfl hs)
  have hsuf : ∀ x ∈ (treeEntriesL (cs.drop (firstGe key ks + 1))).map Prod.fst,
      key < x := by
    intro x hx
    rcases lt_or_eq_of_le hfle with hflt | hfeq
    · obtain ⟨c', hc', hL', hlo', hhi', hmem', hR'⟩ := WfL_decomp_at h d hflt
      have h5 := (hR'.keysL_bounds x hx).1 _ rfl
      exact lt_of_le_of_lt (le_getD_firstGe d hflt) h5
    · rw [List.drop_eq_nil_of_le (by omega)] at hx
      simp [treeEntriesL] at hx
  rw [treeEntriesL_decomp hc, List.append_assoc, kvUpdate_append_right hpre,
    kvUpdate_append_left hsuf, ← List.append_assoc]

/-- Main lemma: on a well-formed, non-full inner node whose range contains the
key, the descent loop of `Btree::put` succeeds, keeps the node well formed at
the same level, grows it by at most one child, and performs exactly the sorted
insert-or-update on the stored entries. -/
theorem putDescend_spec {K V : Type} [LinearOrder K] [Inhabited K] [Inhabited V]
    {cap : ℕ} (hcap : 3 ≤ cap) :
    ∀ (fuel lvl : ℕ) (ks : List K) (cs : List (BNode K V)) (lo hi : Option K)
      (key : K) (v : V),
      Wf cap lo hi (.inner lvl ks cs) → cs.length < cap →
      oLt lo key → oLe key hi → lvl ≤ fuel →
      ∃ ks' cs', putDescend cap fuel (.inner lvl ks cs) key v = some (.inner lvl ks' cs') ∧
        Wf cap lo hi (.inner lvl ks' cs') ∧ cs'.length ≤ cs.length + 1 ∧
        treeEntriesL cs' = kvUpdate (treeEntriesL cs) key v := by
  intro fuel
  induction fuel with
  | zero =>
    intro lvl ks cs lo hi key v hwf hlt hklo hkhi hfuel
    cases hwf with
    | inner _ _ _ _ _ h1 h2 h3 h4 => omega
  | succ fuel ih =>
    intro lvl ks cs lo hi key v hwf hlt hklo hkhi hfuel
    cases hwf with
    | inner _ _ _ _ _ h1 h2 h3 h4 =>
      have hlen : cs.length = ks.length + 1 := h4.length_eq
      have hposq : (innerLowerBound ks cs.length key (default : K)).1 = firstGe key ks := by
        rw [hlen]
        exact innerLowerBound_fst (default : K) h4.sep_pairwise
      have hfle : firstGe key ks ≤ ks.length := firstGe_le_length key ks
      obtain ⟨c, hc, hcwf, hcsep⟩ := h4.child (default : K) (firstGe key ks) hfle
      have hcm : c ∈ cs := List.get?_mem hc
      have hclvl : levelOf c + 1 = lvl := h3 c hcm
      have hklo' : oLt (lbound lo ks (firstGe key ks)) key := oLt_lbound_firstGe hklo
      have hkhi' : oLe key (ubound hi ks (firstGe key ks)) := oLe_ubound_firstGe hkhi
      have hipos : firstGe key ks + 1 ≤ cs.length := by omega
      have hrhsent := kvUpdate_entriesL_at h4 (default : K) v hfle hc
      simp only [putDescend, hposq, hc]
      by_cases hlvl1 : lvl = 1
      · rw [if_pos hlvl1]
        cases c with
        | inner clvl cks ccs =>
          exfalso
          cases hcwf with
          | inner _ _ _ _ _ hc1 _ _ _ =>
            simp only [levelOf] at hclvl
            omega
        | leaf es =>
          by_cases hfull : cap ≤ es.length
          · simp only [if_pos hfull]
            by_cases hbr : (leafSplit es).2.1 < key
            · obtain ⟨hins, hclwf, hcrwf, hs1, hs2, hmemL, htrans, hentries⟩ :=
                leafSplit_step_right hcap v hcwf hfull hklo' hkhi' hbr
              rw [if_pos hbr]
              simp only [hins]
              have hidx : firstGe (leafSplit es).2.1 ks = firstGe key ks :=
                firstGe_sep_eq_pos h4 (default : K) hfle hs1 hs2
              have hinner : innerInsertSplit cap ks
                  (cs.set (firstGe key ks) (BNode.leaf (leafSplit es).1))
                  (leafSplit es).2.1
                  (BNode.leaf (kvUpdate (leafSplit es).2.2 key v)) =
                  some (ks.insertIdx (firstGe key ks) (leafSplit es).2.1,
                    (cs.set (firstGe key ks) (BNode.leaf (leafSplit es).1)).insertIdx
                      (firstGe key ks + 1)
                      (BNode.leaf (kvUpdate (leafSplit es).2.2 key v))) := by
                simp only [innerInsertSplit]
                rw [if_neg (by rw [List.length_set]; omega), List.length_set, hlen,
                  innerLowerBound_fst (default : K) h4.sep_pairwise, hidx]
              simp only [hinner]
              refine ⟨_, _, rfl, ?_, ?_, ?_⟩
              · refine Wf.inner _ _ _ _ _ h1 ?_ ?_ ?_
                · rw [length_insertIdx_of_le (by rw [List.length_set]; omega) _,
                    List.length_set]
                  omega
                · intro cc hcc
                  rcases mem_of_mem_insertIdx (by rw [List.length_set]; omega) hcc
                    with rfl | hcc'
                  · simp [levelOf, hlvl1]
                  · rcases List.mem_or_eq_of_mem_set hcc' with hcc'' | rfl
                    · exact h3 cc hcc''
                    · simp [levelOf, hlvl1]
                · exact WfL_split_child h4 (default : K) hfle hc hclwf hcrwf hs1 hs2
                    hmemL htrans
              · rw [length_insertIdx_of_le (by rw [List.length_set]; omega) _,
                  List.length_set]
              · rw [treeEntriesL_set_insert hc, hrhsent]
                have hmid : treeEntries (BNode.leaf (leafSplit es).1) ++
                    treeEntries (BNode.leaf (kvUpdate (leafSplit es).2.2 key v)) =
                    kvUpdate (treeEntries (BNode.leaf es)) key v := hentries
                rw [hmid]
            · obtain ⟨hins, hclwf, hcrwf, hs1, hs2, hmemL, htrans, hentries⟩ :=
                leafSplit_step_left hcap v hcwf hfull hklo' hkhi' hbr
              rw [if_neg hbr]
              simp only [hins]
              have hidx : firstGe (leafSplit es).2.1 ks = firstGe key ks :=
                firstGe_sep_eq_pos h4 (default : K) hfle hs1 hs2
              have hinner : innerInsertSplit cap ks
                  (cs.set (firstGe key ks) (BNode.leaf (kvUpdate (leafSplit es).1 key v)))
                  (leafSplit es).2.1 (BNode.leaf (leafSplit es).2.2) =
                  some (ks.insertIdx (firstGe key ks) (leafSplit es).2.1,
                    (cs.set (firstGe key ks)
                      (BNode.leaf (kvUpdate (leafSplit es).1 key v))).insertIdx
                      (firstGe key ks + 1) (BNode.leaf (leafSplit es).2.2)) := by
                simp only [innerInsertSplit]
                rw [if_neg (by rw [List.length_set]; omega), List.length_set, hlen,
                  innerLowerBound_fst (default : K) h4.sep_pairwise, hidx]
              simp only [hinner]
              refine ⟨_, _, rfl, ?_, ?_, ?_⟩
              · refine Wf.inner _ _ _ _ _ h1 ?_ ?_ ?_
                · rw [length_insertIdx_of_le (by rw [List.length_set]; omega) _,
                    List.length_set]
                  omega
                · intro cc hcc
                  rcases mem_of_mem_insertIdx (by rw [List.length_set]; omega) hcc
                    with rfl | hcc'
                  · simp [levelOf, hlvl1]
                  · rcases List.mem_or_eq_of_mem_set hcc' with hcc'' | rfl
                    · exact h3 cc hcc''
                    · simp [levelOf, hlvl1]
                · exact WfL_split_child h4 (default : K) hfle hc hclwf hcrwf hs1 hs2
                    hmemL htrans
              · rw [length_insertIdx_of_le (by rw [List.length_set]; omega) _,
                  List.length_set]
              · rw [treeEntriesL_set_insert hc, hrhsent]
                have hmid : treeEntries (BNode.leaf (kvUpdate (leafSplit es).1 key v)) ++
                    treeEntries (BNode.leaf (leafSplit es).2.2) =
                    kvUpdate (treeEntries (BNode.leaf es)) key v := hentries
                rw [hmid]
          · simp only [if_neg hfull]
            cases hcwf with
            | leaf _ _ _ hl1 hl2 hl3 hl4 =>
              have hins : leafInsert cap es key v = some (kvUpdate es key v) :=
                leafInsert_eq_kvUpdate v hl3 (Or.inl (by omega))
              simp only [hins]
              refine ⟨_, _, rfl, ?_, ?_, ?_⟩
              · refine Wf.inner _ _ _ _ _ h1 (by rw [List.length_set]; omega) ?_ ?_
                · intro cc hcc
                  rcases List.mem_or_eq_of_mem_set hcc with hcc' | rfl
                  · exact h3 cc hcc'
                  · simp [levelOf, hlvl1]
                · refine WfL_update_child h4 (default : K) hfle hc ?_ ?_
                  · refine Wf.leaf _ _ _ ?_ ?_ (pairwise_kvUpdate hl3) ?_
                    · exact List.length_pos.mpr (kvUpdate_ne_nil _ _ _)
                    · rw [length_kvUpdate hl3]
                      split <;> omega
                    · intro p hp
                      rcases mem_of_mem_kvUpdate hp with hp' | hpeq
                      · exact hl4 p hp'
                      · subst hpeq
                        exact ⟨hklo', hkhi'⟩
                  · intro x hx
                    rw [treeKeys_leaf] at hx ⊢
                    exact mem_map_fst_kvUpdate.mpr (Or.inr hx)
              · rw [List.length_set]
                omega
              · rw [treeEntriesL_set hc, hrhsent]
                rfl
      · rw [if_neg hlvl1]
        cases c with
        | leaf es =>
          exfalso
          simp only [levelOf] at hclvl
          omega
        | inner clvl cks ccs =>
          have hclvl' : clvl + 1 = lvl := by simpa [levelOf] using hclvl
          by_cases hfull : cap ≤ ccs.length
          · simp only [if_pos hfull]
            obtain ⟨hLwf, hRwf, hs1, hs2, hmemL, hLlt, hRlt, hentsplit, hkL, hkR⟩ :=
              innerSplit_step hcap hcwf hfull
            by_cases hbr : (innerSplit cks ccs).2.1 < key
            · rw [if_pos hbr]
              obtain ⟨rks, rcs, hreq, hrwf, hrlen, hrent⟩ := ih clvl
                (innerSplit cks ccs).2.2.1 (innerSplit cks ccs).2.2.2
                (some (innerSplit cks ccs).2.1) (ubound hi ks (firstGe key ks)) key v
                hRwf hRlt (oLt_some.mpr hbr) hkhi' (by omega)
              simp only [hreq]
              have hidx : firstGe (innerSplit cks ccs).2.1 ks = firstGe key ks :=
                firstGe_sep_eq_pos h4 (default : K) hfle hs1 hs2
              have hinner : innerInsertSplit cap ks
                  (cs.set (firstGe key ks)
                    (BNode.inner clvl (innerSplit cks ccs).1.1 (innerSplit cks ccs).1.2))
                  (innerSplit cks ccs).2.1 (BNode.inner clvl rks rcs) =
                  some (ks.insertIdx (firstGe key ks) (innerSplit cks ccs).2.1,
                    (cs.set (firstGe key ks)
                      (BNode.inner clvl (innerSplit cks ccs).1.1
                        (innerSplit cks ccs).1.2)).insertIdx
                      (firstGe key ks + 1) (BNode.inner clvl rks rcs)) := by
                simp only [innerInsertSplit]
                rw [if_neg (by rw [List.length_set]; omega), List.length_set, hlen,
                  innerLowerBound_fst (default : K) h4.sep_pairwise, hidx]
              simp only [hinner]
              refine ⟨_, _, rfl, ?_, ?_, ?_⟩
              · refine Wf.inner _ _ _ _ _ h1 ?_ ?_ ?_
                · rw [length_insertIdx_of_le (by rw [List.length_set]; omega) _,
                    List.length_set]
                  omega
                · intro cc hcc
                  rcases mem_of_mem_insertIdx (by rw [List.length_set]; omega) hcc
                    with rfl | hcc'
                  · simpa [levelOf] using hclvl'
                  · rcases List.mem_or_eq_of_mem_set hcc' with hcc'' | rfl
                    · exact h3 cc hcc''
                    · simpa [levelOf] using hclvl'
                · refine WfL_split_child h4 (default : K) hfle hc hLwf hrwf hs1 hs2
                    hmemL ?_
                  intro x hx hlt'
                  rw [treeKeys_inner] at hx ⊢
                  have hsplitk : treeKeysL ccs = treeKeysL (innerSplit cks ccs).1.2 ++
                      treeKeysL (innerSplit cks ccs).2.2.2 := by
                    simp [treeKeysL, hentsplit]
                  rw [hsplitk] at hx
                  have hxk : x ∈ treeKeysL (innerSplit cks ccs).2.2.2 := by
                    rcases List.mem_append.mp hx with hxL | hxR
                    · exact absurd hlt' (not_lt.mpr (hkL x hxL))
                    · exact hxR
                  show x ∈ treeKeysL rcs
                  simp only [treeKeysL, hrent]
                  exact mem_map_fst_kvUpdate.mpr (Or.inr hxk)
              · rw [length_insertIdx_of_le (by rw [List.length_set]; omega) _,
                  List.length_set]
              · have hLkey : ∀ x ∈ (treeEntriesL (innerSplit cks ccs).1.2).map Prod.fst,
                    x < key := fun x hx => lt_of_le_of_lt (hkL x hx) hbr
                rw [treeEntriesL_set_insert hc, hrhsent]
                have hmid : treeEntries (BNode.inner clvl (innerSplit cks ccs).1.1
                      (innerSplit cks ccs).1.2) ++ treeEntries (BNode.inner clvl rks rcs) =
                    kvUpdate (treeEntries (BNode.inner clvl cks ccs)) key v := by
                  show treeEntriesL (innerSplit cks ccs).1.2 ++ treeEntriesL rcs =
                    kvUpdate (treeEntriesL ccs) key v
                  rw [hrent, hentsplit, kvUpdate_append_right hLkey]
                rw [hmid]
            · rw [if_neg hbr]
              obtain ⟨rks, rcs, hreq, hrwf, hrlen, hrent⟩ := ih clvl
                (innerSplit cks ccs).1.1 (innerSplit cks ccs).1.2
                (lbound lo ks (firstGe key ks)) (some (innerSplit cks ccs).2.1) key v
                hLwf hLlt hklo' (oLe_some.mpr (not_lt.mp hbr)) (by omega)
              simp only [hreq]
              have hidx : firstGe (innerSplit cks ccs).2.1 ks = firstGe key ks :=
                firstGe_sep_eq_pos h4 (default : K) hfle hs1 hs2
              have hinner : innerInsertSplit cap ks
                  (cs.set (firstGe key ks) (BNode.inner clvl rks rcs))
                  (innerSplit cks ccs).2.1
                  (BNode.inner clvl (innerSplit cks ccs).2.2.1 (innerSplit cks ccs).2.2.2) =
                  some (ks.insertIdx (firstGe key ks) (innerSplit cks ccs).2.1,
                    (cs.set (firstGe key ks) (BNode.inner clvl rks rcs)).insertIdx
                      (firstGe key ks + 1)
                      (BNode.inner clvl (innerSplit cks ccs).2.2.1
                        (innerSplit cks ccs).2.2.2)) := by
                simp only [innerInsertSplit]
                rw [if_neg (by rw [List.length_set]; omega), List.length_set, hlen,
                  innerLowerBound_fst (default : K) h4.sep_pairwise, hidx]
              simp only [hinner]
              refine ⟨_, _, rfl, ?_, ?_, ?_⟩
              · refine Wf.inner _ _ _ _ _ h1 ?_ ?_ ?_
                · rw [length_insertIdx_of_le (by rw [List.length_set]; omega) _,
                    List.length_set]
                  omega
                · intro cc hcc
                  rcases mem_of_mem_insertIdx (by rw [List.length_set]; omega) hcc
                    with rfl | hcc'
                  · simpa [levelOf] using hclvl'
                  · rcases List.mem_or_eq_of_mem_set hcc' with hcc'' | rfl
                    · exact h3 cc hcc''
                    · simpa [levelOf] using hclvl'
                · refine WfL_split_child h4 (default : K) hfle hc hrwf hRwf hs1 hs2 ?_ ?_
                  · rw [treeKeys_inner] at hmemL ⊢
                    have hmemL' : (innerSplit cks ccs).2.1 ∈
                        treeKeysL (innerSplit cks ccs).1.2 := hmemL
                    show (innerSplit cks ccs).2.1 ∈ treeKeysL rcs
                    simp only [treeKeysL, hrent]
                    exact mem_map_fst_kvUpdate.mpr (Or.inr hmemL')
                  · intro x hx hlt'
                    rw [treeKeys_inner] at hx ⊢
                    have hsplitk : treeKeysL ccs = treeKeysL (innerSplit cks ccs).1.2 ++
                        treeKeysL (innerSplit cks ccs).2.2.2 := by
                      simp [treeKeysL, hentsplit]
                    rw [hsplitk] at hx
                    rcases List.mem_append.mp hx with hxL | hxR
                    · exact absurd hlt' (not_lt.mpr (hkL x hxL))
                    · exact hxR
              · rw [length_insertIdx_of_le (by rw [List.length_set]; omega) _,
                  List.length_set]
              · have hRkey : ∀ x ∈ (treeEntriesL (innerSplit cks ccs).2.2.2).map Prod.fst,
                    key < x := fun x hx => lt_of_le_of_lt (not_lt.mp hbr) (hkR x hx)
                rw [treeEntriesL_set_insert hc, hrhsent]
                have hmid : treeEntries (BNode.inner clvl rks rcs) ++
                      treeEntries (BNode.inner clvl (innerSplit cks ccs).2.2.1
                        (innerSplit cks ccs).2.2.2) =
                    kvUpdate (treeEntries (BNode.inner clvl cks ccs)) key v := by
                  show treeEntriesL rcs ++ treeEntriesL (innerSplit cks ccs).2.2.2 =
                    kvUpdate (treeEntriesL ccs) key v
                  rw [hrent, hentsplit, kvUpdate_append_left hRkey]
                rw [hmid]
          · simp only [if_neg hfull]
            obtain ⟨rks, rcs, hreq, hrwf, hrlen, hrent⟩ := ih clvl cks ccs
              (lbound lo ks (firstGe key ks)) (ubound hi ks (firstGe key ks)) key v
              hcwf (lt_of_not_ge hfull) hklo' hkhi' (by omega)
            simp only [hreq]
            refine ⟨_, _, rfl, ?_, ?_, ?_⟩
            · refine Wf.inner _ _ _ _ _ h1 (by rw [List.length_set]; omega) ?_ ?_
              · intro cc hcc
                rcases List.mem_or_eq_of_mem_set hcc with hcc' | rfl
                · exact h3 cc hcc'
                · simpa [levelOf] using hclvl'
              · refine WfL_update_child h4 (default : K) hfle hc hrwf ?_
                intro x hx
                rw [treeKeys_inner] at hx ⊢
                show x ∈ treeKeysL rcs
                simp only [treeKeysL, hrent]
                exact mem_map_fst_kvUpdate.mpr (Or.inr hx)
            · rw [List.length_set]
              omega
            · rw [treeEntriesL_set hc, hrhsent]
              have hmid : treeEntries (BNode.inner clvl rks rcs) =
                  kvUpdate (treeEntries (BNode.inner clvl cks ccs)) key v := by
                show treeEntriesL rcs = kvUpdate (treeEntriesL ccs) key v
                exact hrent
              rw [hmid]

/-- Top-level correctness of one `Btree::put` at capacity ≥ 3: on a
well-formed tree state the operation succeeds, preserves well-formedness, and
the stored entries become the sorted insert-or-update of the old entries. -/
theorem put_spec {K V : Type} [LinearOrder K] [Inhabited K] [Inhabited V]
    {cap : ℕ} (hcap : 3 ≤ cap) {t : Option (BNode K V)} (key : K) (v : V)
    (hwf : WfT cap t) :
    ∃ n, Btree.put cap t key v = some (some n) ∧ Wf cap (none : Option K) none n ∧
      treeEntries n = kvUpdate (treeEntriesT t) key v := by
  cases t with
  | none =>
    refine ⟨.leaf [(key, v)], ?_, ?_, rfl⟩
    · have hins : leafInsert cap ([] : List (K × V)) key v = some [(key, v)] :=
        leafInsert_eq_kvUpdate v (by simp) (Or.inl (by simp only [List.length_nil]; omega))
      simp only [Btree.put, hins]
    · refine Wf.leaf _ _ _ (by simp) (by simp only [List.length_cons, List.length_nil]; omega)
        (by simp) ?_
      intro p hp
      simp only [List.mem_singleton] at hp
      subst hp
      exact ⟨oLt_none _, oLe_none _⟩
  | some n =>
    have hwf' : Wf cap (none : Option K) none n := hwf
    cases n with
    | leaf es =>
      by_cases hfull : cap ≤ es.length
      · by_cases hbr : (leafSplit es).2.1 < key
        · obtain ⟨hins, hclwf, hcrwf, hs1, hs2, hmemL, htrans, hentries⟩ :=
            leafSplit_step_right hcap v hwf' hfull (oLt_none key) (oLe_none key) hbr
          have hroot : innerInsertSplit cap ([] : List K) [BNode.leaf (leafSplit es).1]
              (leafSplit es).2.1 (BNode.leaf (kvUpdate (leafSplit es).2.2 key v)) =
              some ([(leafSplit es).2.1],
                [BNode.leaf (leafSplit es).1,
                 BNode.leaf (kvUpdate (leafSplit es).2.2 key v)]) := by
            simp only [innerInsertSplit]
            rw [if_neg (by simp only [List.length_cons, List.length_nil]; omega)]
            rfl
          refine ⟨.inner 1 [(leafSplit es).2.1]
            [BNode.leaf (leafSplit es).1,
             BNode.leaf (kvUpdate (leafSplit es).2.2 key v)], ?_, ?_, ?_⟩
          · simp only [Btree.put, if_pos hfull, if_pos hbr, hins, hroot]
          · refine Wf.inner _ _ _ _ _ (by omega)
              (by simp only [List.length_cons, List.length_nil]; omega) ?_ ?_
            · intro c hc
              rcases List.mem_cons.mp hc with rfl | hc'
              · rfl
              rcases List.mem_cons.mp hc' with rfl | hc''
              · rfl
              · simp at hc''
            · exact WfL.cons _ _ _ _ _ _ hs1 hs2 hmemL hclwf (WfL.single _ _ _ hcrwf)
          · simp only [treeEntries, treeEntriesL, treeEntriesT, List.append_nil]
            exact hentries
        · obtain ⟨hins, hclwf, hcrwf, hs1, hs2, hmemL, htrans, hentries⟩ :=
            leafSplit_step_left hcap v hwf' hfull (oLt_none key) (oLe_none key) hbr
          have hroot : innerInsertSplit cap ([] : List K)
              [BNode.leaf (kvUpdate (leafSplit es).1 key v)]
              (leafSplit es).2.1 (BNode.leaf (leafSplit es).2.2) =
              some ([(leafSplit es).2.1],
                [BNode.leaf (kvUpdate (leafSplit es).1 key v),
                 BNode.leaf (leafSplit es).2.2]) := by
            simp only [innerInsertSplit]
            rw [if_neg (by simp only [List.length_cons, List.length_nil]; omega)]
            rfl
          refine ⟨.inner 1 [(leafSplit es).2.1]
            [BNode.leaf (kvUpdate (leafSplit es).1 key v),
             BNode.leaf (leafSplit es).2.2], ?_, ?_, ?_⟩
          · simp only [Btree.put, if_pos hfull, if_neg hbr, hins, hroot]
          · refine Wf.inner _ _ _ _ _ (by omega)
              (by simp only [List.length_cons, List.length_nil]; omega) ?_ ?_
            · intro c hc
              rcases List.mem_cons.mp hc with rfl | hc'
              · rfl
              rcases List.mem_cons.mp hc' with rfl | hc''
              · rfl
              · simp at hc''
            · exact WfL.cons _ _ _ _ _ _ hs1 hs2 hmemL hclwf (WfL.single _ _ _ hcrwf)
          · simp only [treeEntries, treeEntriesL, treeEntriesT, List.append_nil]
            exact hentries
      · cases hwf' with
        | leaf _ _ _ hl1 hl2 hl3 hl4 =>
          have hins : leafInsert cap es key v = some (kvUpdate es key v) :=
            leafInsert_eq_kvUpdate v hl3 (Or.inl (by omega))
          refine ⟨.leaf (kvUpdate es key v), ?_, ?_, rfl⟩
          · simp only [Btree.put, if_neg hfull, hins]
          · refine Wf.leaf _ _ _ (List.length_pos.mpr (kvUpdate_ne_nil _ _ _)) ?_
              (pairwise_kvUpdate hl3) ?_
            · rw [length_kvUpdate hl3]
              split <;> omega
            · intro p hp
              rcases mem_of_mem_kvUpdate hp with hp' | hpeq
              · exact hl4 p hp'
              · subst hpeq
                exact ⟨oLt_none _, oLe_none _⟩
    | inner lvl ks cs =>
      by_cases hfull : cap ≤ cs.length
      · obtain ⟨hLwf, hRwf, hs1, hs2, hmemL, hLlt, hRlt, hentsplit, hkL, hkR⟩ :=
          innerSplit_step hcap hwf' hfull
        by_cases hbr : (innerSplit ks cs).2.1 < key
        · obtain ⟨rks, rcs, hreq, hrwf, hrlen, hrent⟩ := putDescend_spec hcap lvl lvl
            (innerSplit ks cs).2.2.1 (innerSplit ks cs).2.2.2
            (some (innerSplit ks cs).2.1) none key v hRwf hRlt (oLt_some.mpr hbr)
            (oLe_none key) le_rfl
          have hroot : innerInsertSplit cap ([] : List K)
              [BNode.inner lvl (innerSplit ks cs).1.1 (innerSplit ks cs).1.2]
              (innerSplit ks cs).2.1 (BNode.inner lvl rks rcs) =
              some ([(innerSplit ks cs).2.1],
                [BNode.inner lvl (innerSplit ks cs).1.1 (innerSplit ks cs).1.2,
                 BNode.inner lvl rks rcs]) := by
            simp only [innerInsertSplit]
            rw [if_neg (by simp only [List.length_cons, List.length_nil]; omega)]
            rfl
          refine ⟨.inner (lvl + 1) [(innerSplit ks cs).2.1]
            [BNode.inner lvl (innerSplit ks cs).1.1 (innerSplit ks cs).1.2,
             BNode.inner lvl rks rcs], ?_, ?_, ?_⟩
          · simp only [Btree.put, if_pos hfull, if_pos hbr, hreq, hroot]
          · refine Wf.inner _ _ _ _ _ (by omega)
              (by simp only [List.length_cons, List.length_nil]; omega) ?_ ?_
            · intro c hc
              rcases List.mem_cons.mp hc with rfl | hc'
              · rfl
              rcases List.mem_cons.mp hc' with rfl | hc''
              · rfl
              · simp at hc''
            · exact WfL.cons _ _ _ _ _ _ hs1 hs2 hmemL hLwf (WfL.single _ _ _ hrwf)
          · have hLkey : ∀ x ∈ (treeEntriesL (innerSplit ks cs).1.2).map Prod.fst,
                x < key := fun x hx => lt_of_le_of_lt (hkL x hx) hbr
            simp only [treeEntries, treeEntriesL, treeEntriesT, List.append_nil]
            rw [hrent, hentsplit, kvUpdate_append_right hLkey]
        · obtain ⟨rks, rcs, hreq, hrwf, hrlen, hrent⟩ := putDescend_spec hcap lvl lvl
            (innerSplit ks cs).1.1 (innerSplit ks cs).1.2 none
            (some (innerSplit ks cs).2.1) key v hLwf hLlt (oLt_none key)
            (oLe_some.mpr (not_lt.mp hbr)) le_rfl
          have hmem' : (innerSplit ks cs).2.1 ∈ treeKeys (BNode.inner lvl rks rcs) := by
            rw [treeKeys_inner] at hmemL ⊢
            have hmemL' : (innerSplit ks cs).2.1 ∈
                treeKeysL (innerSplit ks cs).1.2 := hmemL
            show (innerSplit ks cs).2.1 ∈ treeKeysL rcs
            simp only [treeKeysL, hrent]
            exact mem_map_fst_kvUpdate.mpr (Or.inr hmemL')
          have hroot : innerInsertSplit cap ([] : List K) [BNode.inner lvl rks rcs]
              (innerSplit ks cs).2.1
              (BNode.inner lvl (innerSplit ks cs).2.2.1 (innerSplit ks cs).2.2.2) =
              some ([(innerSplit ks cs).2.1],
                [BNode.inner lvl rks rcs,
                 BNode.inner lvl (innerSplit ks cs).2.2.1 (innerSplit ks cs).2.2.2]) := by
            simp only [innerInsertSplit]
            rw [if_neg (by simp only [List.length_cons, List.length_nil]; omega)]
            rfl
          refine ⟨.inner (lvl + 1) [(innerSplit ks cs).2.1]
            [BNode.inner lvl rks rcs,
             BNode.inner lvl (innerSplit ks cs).2.2.1 (innerSplit ks cs).2.2.2],
            ?_, ?_, ?_⟩
          · simp only [Btree.put, if_pos hfull, if_neg hbr, hreq, hroot]
          · refine Wf.inner _ _ _ _ _ (by omega)
              (by simp only [List.length_cons, List.length_nil]; omega) ?_ ?_
            · intro c hc
              rcases List.mem_cons.mp hc with rfl | hc'
              · rfl
              rcases List.mem_cons.mp hc' with rfl | hc''
              · rfl
              · simp at hc''
            · exact WfL.cons _ _ _ _ _ _ hs1 hs2 hmem' hrwf (WfL.single _ _ _ hRwf)
          · have hRkey : ∀ x ∈ (treeEntriesL (innerSplit ks cs).2.2.2).map Prod.fst,
                key < x := fun x hx => lt_of_le_of_lt (not_lt.mp hbr) (hkR x hx)
            simp only [treeEntries, treeEntriesL, treeEntriesT, List.append_nil]
            rw [hrent, hentsplit, kvUpdate_append_left hRkey]
      · obtain ⟨rks, rcs, hreq, hrwf, hrlen, hrent⟩ := putDescend_spec hcap lvl lvl
          ks cs none none key v hwf' (lt_of_not_ge hfull) (oLt_none key)
          (oLe_none key) le_rfl
        refine ⟨.inner lvl rks rcs, ?_, hrwf, ?_⟩
        · simp only [Btree.put, if_neg hfull, hreq]
        · show treeEntriesL rcs = kvUpdate (treeEntriesL cs) key v
          exact hrent

/-- The entry list described by the specification after a sequence of puts:
fold the sorted insert-or-update over the operations. -/
def specEntries {K V : Type} [LinearOrder K] (ops : List (K × V)) : List (K × V) :=
  ops.foldl (fun es p => kvUpdate es p.1 p.2) []

theorem putSeq_from {K V : Type} [LinearOrder K] [Inhabited K] [Inhabited V]
    {cap : ℕ} (hcap : 3 ≤ cap) :
    ∀ (ops : List (K × V)) (t : Option (BNode K V)), WfT cap t →
      ∃ t', ops.foldlM (fun t p => Btree.put cap t p.1 p.2) t = some t' ∧
        WfT cap t' ∧
        treeEntriesT t' = ops.foldl (fun es p => kvUpdate es p.1 p.2) (treeEntriesT t) := by
  intro ops
  induction ops with
  | nil =>
    intro t h
    exact ⟨t, rfl, h, rfl⟩
  | cons p rest ih =>
    intro t h
    obtain ⟨n, hput, hnwf, hnent⟩ := put_spec hcap p.1 p.2 h
    obtain ⟨t', hrest, hwf', hent'⟩ := ih (some n) hnwf
    refine ⟨t', ?_, hwf', ?_⟩
    · rw [List.foldlM_cons, hput]
      simpa using hrest
    · rw [List.foldl_cons, hent', show treeEntriesT (some n) = treeEntries n from rfl,
        hnent]

/-- Every put sequence at capacity ≥ 3 succeeds, produces a well-formed
state, and stores exactly the entries described by the specification. -/
theorem putSeq_spec {K V : Type} [LinearOrder K] [Inhabited K] [Inhabited V]
    {cap : ℕ} (hcap : 3 ≤ cap) (ops : List (K × V)) :
    ∃ t, Btree.putSeq cap ops = some t ∧ WfT cap t ∧
      treeEntriesT t = specEntries ops := by
  obtain ⟨t, h1, h2, h3⟩ := putSeq_from hcap ops none trivial
  exact ⟨t, h1, h2, h3⟩

theorem entriesLookup_foldl {K V : Type} [LinearOrder K] (q : K) :
    ∀ (ops : List (K × V)) (es : List (K × V)),
      entriesLookup (ops.foldl (fun es p => kvUpdate es p.1 p.2) es) q =
        ops.foldl (fun acc p => if p.1 = q then some p.2 else acc)
          (entriesLookup es q) := by
  intro ops
  induction ops with
  | nil => intro es; rfl
  | cons p rest ih =>
    intro es
    rw [List.foldl_cons, List.foldl_cons, ih]
    by_cases hpq : p.1 = q
    · rw [if_pos hpq, ← hpq, entriesLookup_kvUpdate_self]
    · rw [if_neg hpq, entriesLookup_kvUpdate_ne _ _ _ (Ne.symm hpq)]

theorem entriesLookup_specEntries {K V : Type} [LinearOrder K]
    (ops : List (K × V)) (q : K) :
    entriesLookup (specEntries ops) q = mostRecent ops q := by
  have h := entriesLookup_foldl q ops []
  simpa [specEntries, mostRecent, entriesLookup, List.find?] using h

theorem mostRecent_acc_some {K V : Type} [DecidableEq K] :
    ∀ (ops : List (K × V)) (k : K) (w : V),
      (ops.foldl (fun acc p => if p.1 = k then some p.2 else acc) (some w)).isSome := by
  intro ops
  induction ops with
  | nil => intro k w; rfl
  | cons p rest ih =>
    intro k w
    rw [List.foldl_cons]
    by_cases h : p.1 = k
    · rw [if_pos h]
      exact ih k p.2
    · rw [if_neg h]
      exact ih k w

theorem mostRecent_isSome_of_mem {K V : Type} [DecidableEq K] :
    ∀ (ops : List (K × V)) (k : K), k ∈ ops.map Prod.fst →
      (mostRecent ops k).isSome := by
  intro ops
  induction ops with
  | nil =>
    intro k h
    simp at h
  | cons p rest ih =>
    intro k h
    simp only [mostRecent, List.foldl_cons]
    by_cases hp : p.1 = k
    · rw [if_pos hp]
      exact mostRecent_acc_some rest k p.2
    · rw [if_neg hp]
      have h' : k ∈ rest.map Prod.fst := by
        simp only [List.map_cons, List.mem_cons] at h
        rcases h with h | h
        · exact absurd h.symm hp
        · exact h
      exact ih k h'

/-- Round trip at capacity ≥ 3: after any put sequence, a get observes the
most recent put for the key. -/
theorem putSeq_get {K V : Type} [LinearOrder K] [Inhabited K] [Inhabited V]
    {cap : ℕ} (hcap : 3 ≤ cap) (ops : List (K × V)) (q : K) :
    ∃ t, Btree.putSeq cap ops = some t ∧
      (Btree.get t q).1 = mostRecent ops q := by
  obtain ⟨t, h1, h2, h3⟩ := putSeq_spec hcap ops
  refine ⟨t, h1, ?_⟩
  rw [Btree.get_fst h2, h3, entriesLookup_specEntries]

/-! ## Shape preservation (all capacities) -/

theorem insertIdx_length_le {α : Type _} (l : List α) (i : ℕ) (x : α) :
    (l.insertIdx i x).length ≤ l.length + 1 := by
  by_cases h : i ≤ l.length
  · rw [length_insertIdx_of_le h]
  · rw [List.insertIdx_of_length_lt _ _ _ (by omega)]
    omega

theorem mem_of_mem_insertIdx_any {α : Type _} {l : List α} {i : ℕ} {a b : α}
    (h : a ∈ l.insertIdx i b) : a = b ∨ a ∈ l := by
  by_cases hi : i ≤ l.length
  · exact mem_of_mem_insertIdx hi h
  · rw [List.insertIdx_of_length_lt _ _ _ (by omega)] at h
    exact Or.inr h

theorem insertIdx_pair_length {α β : Type _} {ks : List α} {cs : List β}
    (hlen : cs.length = ks.length + 1) (i : ℕ) (s : α) (c : β) :
    (cs.insertIdx (i + 1) c).length = (ks.insertIdx i s).length + 1 := by
  by_cases h : i ≤ ks.length
  · rw [length_insertIdx_of_le h, length_insertIdx_of_le (by omega)]
    omega
  · rw [List.insertIdx_of_length_lt _ _ _ (by omega),
      List.insertIdx_of_length_lt _ _ _ (by omega)]
    exact hlen

theorem innerInsertSplit_shape {K V : Type} [LinearOrder K] [Inhabited K] {cap : ℕ}
    {ks : List K} {cs : List (BNode K V)} {key : K} {c : BNode K V}
    {p : List K × List (BNode K V)}
    (h : innerInsertSplit cap ks cs key c = some p)
    (hlen : cs.length = ks.length + 1) :
    p.2.length = p.1.length + 1 ∧ p.2.length ≤ cap ∧
      (∀ x ∈ p.2, x = c ∨ x ∈ cs) ∧ 1 ≤ cs.length ∧ cs.length < cap := by
  simp only [innerInsertSplit] at h
  split at h
  · exact Option.noConfusion h
  · rename_i hguard
    push_neg at hguard
    simp only [Option.some.injEq] at h
    subst h
    refine ⟨insertIdx_pair_length hlen _ _ _, ?_, ?_, by omega, by omega⟩
    · calc (cs.insertIdx (_ + 1) c).length ≤ cs.length + 1 := insertIdx_length_le _ _ _
        _ ≤ cap := by omega
    · intro x hx
      exact mem_of_mem_insertIdx_any hx

theorem leafInsert_shape {K V : Type} [LinearOrder K] [Inhabited K] [Inhabited V]
    {cap : ℕ} {es es' : List (K × V)} {key : K} {v : V}
    (h : leafInsert cap es key v = some es') (hlen : es.length ≤ cap) :
    es'.length ≤ cap := by
  simp only [leafInsert] at h
  split at h
  · simp only [Option.some.injEq] at h
    subst h
    rw [List.length_set]
    exact hlen
  · split at h
    · exact Option.noConfusion h
    · rename_i hcap'
      simp only [Option.some.injEq] at h
      subst h
      calc (es.insertIdx _ _).length ≤ es.length + 1 := insertIdx_length_le _ _ _
        _ ≤ cap := by omega

theorem putDescend_nil {K V : Type} [LinearOrder K] [Inhabited K] [Inhabited V]
    (cap fuel lvl : ℕ) (key : K) (v : V) :
    putDescend cap fuel (.inner lvl ([] : List K) ([] : List (BNode K V))) key v =
      none := by
  cases fuel with
  | zero => rfl
  | succ f => rfl

/-- The descent loop preserves the shape invariant at every capacity: if it
succeeds, the result is a node of the same level whose counts and levels
still satisfy `Shape`. -/
theorem putDescend_shape {K V : Type} [LinearOrder K] [Inhabited K] [Inhabited V]
    {cap : ℕ} :
    ∀ (fuel : ℕ) (n r : BNode K V) (key : K) (v : V), Shape cap n →
      putDescend cap fuel n key v = some r →
      levelOf r = levelOf n ∧ Shape cap r := by
  intro fuel
  induction fuel with
  | zero =>
    intro n r key v hs h
    exact Option.noConfusion h
  | succ fuel ih =>
    intro n r key v hs h
    cases n with
    | leaf es => exact Option.noConfusion h
    | inner lvl ks cs =>
      cases hs with
      | inner _ _ _ h1 h2 h3 h4 h5 =>
        simp only [putDescend] at h
        cases hget : cs.get? ((innerLowerBound ks cs.length key default).1) with
        | none =>
          rw [hget] at h
          exact Option.noConfusion h
        | some child =>
          rw [hget] at h
          simp only [] at h
          have hchild : child ∈ cs := List.get?_mem hget
          have hclvl : levelOf child + 1 = lvl := h4 child hchild
          have hcshape : Shape cap child := h5 child hchild
          by_cases hlvl1 : lvl = 1
          · rw [if_pos hlvl1] at h
            cases child with
            | inner _ _ _ => exact Option.noConfusion h
            | leaf es =>
              simp only [] at h
              cases hcshape with
              | leaf _ hesc =>
                by_cases hfull : cap ≤ es.length
                · rw [if_pos hfull] at h
                  by_cases hbr : (leafSplit es).2.1 < key
                  · rw [if_pos hbr] at h
                    cases hins : leafInsert cap (leafSplit es).2.2 key v with
                    | none =>
                      rw [hins] at h
                      exact Option.noConfusion h
                    | some es' =>
                      rw [hins] at h
                      simp only [] at h
                      cases hsplit : innerInsertSplit cap ks
                          (cs.set ((innerLowerBound ks cs.length key default).1)
                            (BNode.leaf (leafSplit es).1)) (leafSplit es).2.1
                          (BNode.leaf es') with
                      | none =>
                        rw [hsplit] at h
                        exact Option.noConfusion h
                      | some p =>
                        rw [hsplit] at h
                        simp only [Option.some.injEq] at h
                        subst h
                        obtain ⟨hp1, hp2, hp3, hp4, hp5⟩ :=
                          innerInsertSplit_shape hsplit (by rw [List.length_set]; exact h3)
                        refine ⟨rfl, Shape.inner _ _ _ h1 hp2 hp1 ?_ ?_⟩
                        · intro c hc
                          rcases hp3 c hc with rfl | hc'
                          · simp [levelOf, hlvl1]
                          · rcases List.mem_or_eq_of_mem_set hc' with hc'' | rfl
                            · exact h4 c hc''
                            · simp [levelOf, hlvl1]
                        · intro c hc
                          rcases hp3 c hc with rfl | hc'
                          · refine Shape.leaf _ (leafInsert_shape hins ?_)
                            simp only [leafSplit, List.length_drop]
                            omega
                          · rcases List.mem_or_eq_of_mem_set hc' with hc'' | rfl
                            · exact h5 c hc''
                            · refine Shape.leaf _ ?_
                              simp only [leafSplit, List.length_take]
                              omega
                  · rw [if_neg hbr] at h
                    cases hins : leafInsert cap (leafSplit es).1 key v with
                    | none =>
                      rw [hins] at h
                      exact Option.noConfusion h
                    | some es' =>
                      rw [hins] at h
                      simp only [] at h
                      cases hsplit : innerInsertSplit cap ks
                          (cs.set ((innerLowerBound ks cs.length key default).1)
                            (BNode.leaf es')) (leafSplit es).2.1
                          (BNode.leaf (leafSplit es).2.2) with
                      | none =>
                        rw [hsplit] at h
                        exact Option.noConfusion h
                      | some p =>
                        rw [hsplit] at h
                        simp only [Option.some.injEq] at h
                        subst h
                        obtain ⟨hp1, hp2, hp3, hp4, hp5⟩ :=
                          innerInsertSplit_shape hsplit (by rw [List.length_set]; exact h3)
                        refine ⟨rfl, Shape.inner _ _ _ h1 hp2 hp1 ?_ ?_⟩
                        · intro c hc
                          rcases hp3 c hc with rfl | hc'
                          · simp [levelOf, hlvl1]
                          · rcases List.mem_or_eq_of_mem_set hc' with hc'' | rfl
                            · exact h4 c hc''
                            · simp [levelOf, hlvl1]
                        · intro c hc
                          rcases hp3 c hc with rfl | hc'
                          · refine Shape.leaf _ ?_
                            simp only [leafSplit, List.length_drop]
                            omega
                          · rcases List.mem_or_eq_of_mem_set hc' with hc'' | rfl
                            · exact h5 c hc''
                            · refine Shape.leaf _ (leafInsert_shape hins ?_)
                              simp only [leafSplit, List.length_take]
                              omega
                · rw [if_neg hfull] at h
                  cases hins : leafInsert cap es key v with
                  | none =>
                    rw [hins] at h
                    exact Option.noConfusion h
                  | some es' =>
                    rw [hins] at h
                    simp only [Option.some.injEq] at h
                    subst h
                    refine ⟨rfl, Shape.inner _ _ _ h1 (by rw [List.length_set]; exact h2)
                      (by rw [List.length_set]; exact h3) ?_ ?_⟩
                    · intro c hc
                      rcases List.mem_or_eq_of_mem_set hc with hc' | rfl
                      · exact h4 c hc'
                      · simp [levelOf, hlvl1]
                    · intro c hc
                      rcases List.mem_or_eq_of_mem_set hc with hc' | rfl
                      · exact h5 c hc'
                      · exact Shape.leaf _ (leafInsert_shape hins hesc)
          · rw [if_neg hlvl1] at h
            cases child with
            | leaf _ => exact Option.noConfusion h
            | inner clvl cks ccs =>
              simp only [] at h
              cases hcshape with
              | inner _ _ _ hc1 hc2 hc3 hc4 hc5 =>
                have hclvl' : clvl + 1 = lvl := by simpa [levelOf] using hclvl
                by_cases hfull : cap ≤ ccs.length
                · rw [if_pos hfull] at h
                  have hccap : ccs.length = cap := le_antisymm hc2 hfull
                  have hLshape : Shape cap (.inner clvl
                      (innerSplit cks ccs).1.1 (innerSplit cks ccs).1.2) := by
                    refine Shape.inner _ _ _ hc1 ?_ ?_ ?_ ?_
                    · show (ccs.take _).length ≤ cap
                      simp only [List.length_take]
                      omega
                    · show (ccs.take ((ccs.length - 1) / 2 + 1)).length =
                        (cks.take ((ccs.length - 1) / 2)).length + 1
                      simp only [List.length_take]
                      omega
                    · intro c hc
                      exact hc4 c (List.mem_of_mem_take hc)
                    · intro c hc
                      exact hc5 c (List.mem_of_mem_take hc)
                  by_cases hbr : (innerSplit cks ccs).2.1 < key
                  · rw [if_pos hbr] at h
                    cases hrec : putDescend cap fuel (.inner clvl
                        (innerSplit cks ccs).2.2.1 (innerSplit cks ccs).2.2.2) key v with
                    | none =>
                      rw [hrec] at h
                      exact Option.noConfusion h
                    | some r' =>
                      by_cases hdeg : ccs.length < 2
                      · exfalso
                        obtain rfl : cks = [] := List.length_eq_zero.mp (by omega)
                        obtain ⟨c0, rfl⟩ : ∃ c0, ccs = [c0] :=
                          List.length_eq_one.mp (by omega)
                        have he1 : (innerSplit ([] : List K) [c0]).2.2.1 = [] := by
                          simp [innerSplit]
                        have he2 : (innerSplit ([] : List K) [c0]).2.2.2 = [] := by
                          simp [innerSplit]
                        rw [he1, he2, putDescend_nil] at hrec
                        exact Option.noConfusion hrec
                      · have hRshape : Shape cap (.inner clvl
                            (innerSplit cks ccs).2.2.1 (innerSplit cks ccs).2.2.2) := by
                          refine Shape.inner _ _ _ hc1 ?_ ?_ ?_ ?_
                          · show (ccs.drop _).length ≤ cap
                            simp only [List.length_drop]
                            omega
                          · show (ccs.drop ((ccs.length - 1) / 2 + 1)).length =
                              (cks.drop ((ccs.length - 1) / 2 + 1)).length + 1
                            simp only [List.length_drop]
                            omega
                          · intro c hc
                            exact hc4 c (List.mem_of_mem_drop hc)
                          · intro c hc
                            exact hc5 c (List.mem_of_mem_drop hc)
                        obtain ⟨hrl, hrs⟩ := ih _ r' key v hRshape hrec
                        rw [hrec] at h
                        simp only [] at h
                        cases hsplit : innerInsertSplit cap ks
                            (cs.set ((innerLowerBound ks cs.length key default).1)
                              (BNode.inner clvl (innerSplit cks ccs).1.1
                                (innerSplit cks ccs).1.2))
                            (innerSplit cks ccs).2.1 r' with
                        | none =>
                          rw [hsplit] at h
                          exact Option.noConfusion h
                        | some p =>
                          rw [hsplit] at h
                          simp only [Option.some.injEq] at h
                          subst h
                          obtain ⟨hp1, hp2, hp3, hp4, hp5⟩ := innerInsertSplit_shape
                            hsplit (by rw [List.length_set]; exact h3)
                          refine ⟨rfl, Shape.inner _ _ _ h1 hp2 hp1 ?_ ?_⟩
                          · intro c hc
                            rcases hp3 c hc with rfl | hc'
                            · rw [hrl]
                              simpa [levelOf] using hclvl'
                            · rcases List.mem_or_eq_of_mem_set hc' with hc'' | rfl
                              · exact h4 c hc''
                              · simpa [levelOf] using hclvl'
                          · intro c hc
                            rcases hp3 c hc with rfl | hc'
                            · exact hrs
                            · rcases List.mem_or_eq_of_mem_set hc' with hc'' | rfl
                              · exact h5 c hc''
                              · exact hLshape
                  · rw [if_neg hbr] at h
                    cases hrec : putDescend cap fuel (.inner clvl
                        (innerSplit cks ccs).1.1 (innerSplit cks ccs).1.2) key v with
                    | none =>
                      rw [hrec] at h
                      exact Option.noConfusion h
                    | some r' =>
                      obtain ⟨hrl, hrs⟩ := ih _ r' key v hLshape hrec
                      rw [hrec] at h
                      simp only [] at h
                      cases hsplit : innerInsertSplit cap ks
                          (cs.set ((innerLowerBound ks cs.length key default).1) r')
                          (innerSplit cks ccs).2.1
                          (BNode.inner clvl (innerSplit cks ccs).2.2.1
                            (innerSplit cks ccs).2.2.2) with
                      | none =>
                        rw [hsplit] at h
                        exact Option.noConfusion h
                      | some p =>
                        rw [hsplit] at h
                        simp only [Option.some.injEq] at h
                        subst h
                        obtain ⟨hp1, hp2, hp3, hp4, hp5⟩ := innerInsertSplit_shape
                          hsplit (by rw [List.length_set]; exact h3)
                        have hbig : 2 ≤ ccs.length := by
                          rw [List.length_set] at hp4 hp5
                          omega
                        have hRshape : Shape cap (.inner clvl
                            (innerSplit cks ccs).2.2.1 (innerSplit cks ccs).2.2.2) := by
                          refine Shape.inner _ _ _ hc1 ?_ ?_ ?_ ?_
                          · show (ccs.drop _).length ≤ cap
                            simp only [List.length_drop]
                            omega
                          · show (ccs.drop ((ccs.length - 1) / 2 + 1)).length =
                              (cks.drop ((ccs.length - 1) / 2 + 1)).length + 1
                            simp only [List.length_drop]
                            omega
                          · intro c hc
                            exact hc4 c (List.mem_of_mem_drop hc)
                          · intro c hc
                            exact hc5 c (List.mem_of_mem_drop hc)
                        refine ⟨rfl, Shape.inner _ _ _ h1 hp2 hp1 ?_ ?_⟩
                        · intro c hc
                          rcases hp3 c hc with rfl | hc'
                          · simpa [levelOf] using hclvl'
                          · rcases List.mem_or_eq_of_mem_set hc' with hc'' | rfl
                            · exact h4 c hc''
                            · rw [hrl]
                              simpa [levelOf] using hclvl'
                        · intro c hc
                          rcases hp3 c hc with rfl | hc'
                          · exact hRshape
                          · rcases List.mem_or_eq_of_mem_set hc' with hc'' | rfl
                            · exact h5 c hc''
                            · exact hrs
                · rw [if_neg hfull] at h
                  cases hrec : putDescend cap fuel (.inner clvl cks ccs) key v with
                  | none =>
                    rw [hrec] at h
                    exact Option.noConfusion h
                  | some r' =>
                    obtain ⟨hrl, hrs⟩ := ih _ r' key v
                      (Shape.inner _ _ _ hc1 hc2 hc3 hc4 hc5) hrec
                    rw [hrec] at h
                    simp only [Option.some.injEq] at h
                    subst h
                    refine ⟨rfl, Shape.inner _ _ _ h1 (by rw [List.length_set]; exact h2)
                      (by rw [List.length_set]; exact h3) ?_ ?_⟩
                    · intro c hc
                      rcases List.mem_or_eq_of_mem_set hc with hc' | rfl
                      · exact h4 c hc'
                      · rw [hrl]
                        simpa [levelOf] using hclvl'
                    · intro c hc
                      rcases List.mem_or_eq_of_mem_set hc with hc' | rfl
                      · exact h5 c hc'
                      · exact hrs

/-- One `Btree::put` preserves the shape invariant at every capacity. -/
theorem put_shape {K V : Type} [LinearOrder K] [Inhabited K] [Inhabited V] {cap : ℕ}
    {t t' : Option (BNode K V)} {key : K} {v : V}
    (hs : ShapeT cap t) (h : Btree.put cap t key v = some t') : ShapeT cap t' := by
  cases t with
  | none =>
    simp only [Btree.put] at h
    cases hins : leafInsert cap ([] : List (K × V)) key v with
    | none =>
      rw [hins] at h
      exact Option.noConfusion h
    | some es =>
      rw [hins] at h
      simp only [Option.some.injEq] at h
      subst h
      show Shape cap (.leaf es)
      exact Shape.leaf _ (leafInsert_shape hins (by simp))
  | some n =>
    have hs' : Shape cap n := hs
    cases n with
    | leaf es =>
      simp only [Btree.put] at h
      cases hs' with
      | leaf _ hesc =>
        by_cases hfull : cap ≤ es.length
        · rw [if_pos hfull] at h
          by_cases hbr : (leafSplit es).2.1 < key
          · rw [if_pos hbr] at h
            cases hins : leafInsert cap (leafSplit es).2.2 key v with
            | none =>
              rw [hins] at h
              exact Option.noConfusion h
            | some es' =>
              rw [hins] at h
              simp only [] at h
              cases hroot : innerInsertSplit cap ([] : List K)
                  [BNode.leaf (leafSplit es).1] (leafSplit es).2.1 (BNode.leaf es') with
              | none =>
                rw [hroot] at h
                exact Option.noConfusion h
              | some p =>
                rw [hroot] at h
                simp only [Option.some.injEq] at h
                subst h
                obtain ⟨hp1, hp2, hp3, hp4, hp5⟩ := innerInsertSplit_shape hroot (by simp)
                show Shape cap (.inner 1 p.1 p.2)
                refine Shape.inner _ _ _ (by omega) hp2 hp1 ?_ ?_
                · intro c hc
                  rcases hp3 c hc with rfl | hc'
                  · rfl
                  · simp only [List.mem_singleton] at hc'
                    subst hc'
                    rfl
                · intro c hc
                  rcases hp3 c hc with rfl | hc'
                  · refine Shape.leaf _ (leafInsert_shape hins ?_)
                    simp only [leafSplit, List.length_drop]
                    omega
                  · simp only [List.mem_singleton] at hc'
                    subst hc'
                    refine Shape.leaf _ ?_
                    simp only [leafSplit, List.length_take]
                    omega
          · rw [if_neg hbr] at h
            cases hins : leafInsert cap (leafSplit es).1 key v with
            | none =>
              rw [hins] at h
              exact Option.noConfusion h
            | some es' =>
              rw [hins] at h
              simp only [] at h
              cases hroot : innerInsertSplit cap ([] : List K)
                  [BNode.leaf es'] (leafSplit es).2.1
                  (BNode.leaf (leafSplit es).2.2) with
              | none =>
                rw [hroot] at h
                exact Option.noConfusion h
              | some p =>
                rw [hroot] at h
                simp only [Option.some.injEq] at h
                subst h
                obtain ⟨hp1, hp2, hp3, hp4, hp5⟩ := innerInsertSplit_shape hroot (by simp)
                show Shape cap (.inner 1 p.1 p.2)
                refine Shape.inner _ _ _ (by omega) hp2 hp1 ?_ ?_
                · intro c hc
                  rcases hp3 c hc with rfl | hc'
                  · rfl
                  · simp only [List.mem_singleton] at hc'
                    subst hc'
                    rfl
                · intro c hc
                  rcases hp3 c hc with rfl | hc'
                  · refine Shape.leaf _ ?_
                    simp only [leafSplit, List.length_drop]
                    omega
                  · simp only [List.mem_singleton] at hc'
                    subst hc'
                    refine Shape.leaf _ (leafInsert_shape hins ?_)
                    simp only [leafSplit, List.length_take]
                    omega
        · rw [if_neg hfull] at h
          cases hins : leafInsert cap es key v with
          | none =>
            rw [hins] at h
            exact Option.noConfusion h
          | some es' =>
            rw [hins] at h
            simp only [Option.some.injEq] at h
            subst h
            show Shape cap (.leaf es')
            exact Shape.leaf _ (leafInsert_shape hins hesc)
    | inner lvl ks cs =>
      simp only [Btree.put] at h
      cases hs' with
      | inner _ _ _ h1 h2 h3 h4 h5 =>
        by_cases hfull : cap ≤ cs.length
        · rw [if_pos hfull] at h
          have hLshape : Shape cap (.inner lvl
              (innerSplit ks cs).1.1 (innerSplit ks cs).1.2) := by
            refine Shape.inner _ _ _ h1 ?_ ?_ ?_ ?_
            · show (cs.take _).length ≤ cap
              simp only [List.length_take]
              omega
            · show (cs.take ((cs.length - 1) / 2 + 1)).length =
                (ks.take ((cs.length - 1) / 2)).length + 1
              simp only [List.length_take]
              omega
            · intro c hc
              exact h4 c (List.mem_of_mem_take hc)
            · intro c hc
              exact h5 c (List.mem_of_mem_take hc)
          by_cases hbr : (innerSplit ks cs).2.1 < key
          · rw [if_pos hbr] at h
            cases hrec : putDescend cap lvl (.inner lvl
                (innerSplit ks cs).2.2.1 (innerSplit ks cs).2.2.2) key v with
            | none =>
              rw [hrec] at h
              exact Option.noConfusion h
            | some r' =>
              by_cases hdeg : cs.length < 2
              · exfalso
                obtain rfl : ks = [] := List.length_eq_zero.mp (by omega)
                obtain ⟨c0, rfl⟩ : ∃ c0, cs = [c0] := List.length_eq_one.mp (by omega)
                have he1 : (innerSplit ([] : List K) [c0]).2.2.1 = [] := by
                  simp [innerSplit]
                have he2 : (innerSplit ([] : List K) [c0]).2.2.2 = [] := by
                  simp [innerSplit]
                rw [he1, he2, putDescend_nil] at hrec
                exact Option.noConfusion hrec
              · have hRshape : Shape cap (.inner lvl
                    (innerSplit ks cs).2.2.1 (innerSplit ks cs).2.2.2) := by
                  refine Shape.inner _ _ _ h1 ?_ ?_ ?_ ?_
                  · show (cs.drop _).length ≤ cap
                    simp only [List.length_drop]
                    omega
                  · show (cs.drop ((cs.length - 1) / 2 + 1)).length =
                      (ks.drop ((cs.length - 1) / 2 + 1)).length + 1
                    simp only [List.length_drop]
                    omega
                  · intro c hc
                    exact h4 c (List.mem_of_mem_drop hc)
                  · intro c hc
                    exact h5 c (List.mem_of_mem_drop hc)
                obtain ⟨hrl, hrs⟩ := putDescend_shape lvl _ r' key v hRshape hrec
                rw [hrec] at h
                simp only [] at h
                cases hroot : innerInsertSplit cap ([] : List K)
                    [BNode.inner lvl (innerSplit ks cs).1.1 (innerSplit ks cs).1.2]
                    (innerSplit ks cs).2.1 r' with
                | none =>
                  rw [hroot] at h
                  exact Option.noConfusion h
                | some p =>
                  rw [hroot] at h
                  simp only [Option.some.injEq] at h
                  subst h
                  obtain ⟨hp1, hp2, hp3, hp4, hp5⟩ :=
                    innerInsertSplit_shape hroot (by simp)
                  show Shape cap (.inner (lvl + 1) p.1 p.2)
                  refine Shape.inner _ _ _ (by omega) hp2 hp1 ?_ ?_
                  · intro c hc
                    rcases hp3 c hc with rfl | hc'
                    · rw [hrl]
                      rfl
                    · simp only [List.mem_singleton] at hc'
                      subst hc'
                      rfl
                  · intro c hc
                    rcases hp3 c hc with rfl | hc'
                    · exact hrs
                    · simp only [List.mem_singleton] at hc'
                      subst hc'
                      exact hLshape
          · rw [if_neg hbr] at h
            cases hrec : putDescend cap lvl (.inner lvl
                (innerSplit ks cs).1.1 (innerSplit ks cs).1.2) key v with
            | none =>
              rw [hrec] at h
              exact Option.noConfusion h
            | some r' =>
              obtain ⟨hrl, hrs⟩ := putDescend_shape lvl _ r' key v hLshape hrec
              rw [hrec] at h
              simp only [] at h
              cases hroot : innerInsertSplit cap ([] : List K) [r']
                  (innerSplit ks cs).2.1
                  (BNode.inner lvl (innerSplit ks cs).2.2.1
                    (innerSplit ks cs).2.2.2) with
              | none =>
                rw [hroot] at h
                exact Option.noConfusion h
              | some p =>
                rw [hroot] at h
                simp only [Option.some.injEq] at h
                subst h
                obtain ⟨hp1, hp2, hp3, hp4, hp5⟩ := innerInsertSplit_shape hroot (by simp)
                have hbig : 2 ≤ cs.length := by
                  have hcs1 : 1 ≤ cs.length := by omega
                  by_contra hlt
                  obtain rfl : ks = [] := List.length_eq_zero.mp (by omega)
                  obtain ⟨c0, rfl⟩ : ∃ c0, cs = [c0] := List.length_eq_one.mp (by omega)
                  omega
                have hRshape : Shape cap (.inner lvl
                    (innerSplit ks cs).2.2.1 (innerSplit ks cs).2.2.2) := by
                  refine Shape.inner _ _ _ h1 ?_ ?_ ?_ ?_
                  · show (cs.drop _).length ≤ cap
                    simp only [List.length_drop]
                    omega
                  · show (cs.drop ((cs.length - 1) / 2 + 1)).length =
                      (ks.drop ((cs.length - 1) / 2 + 1)).length + 1
                    simp only [List.length_drop]
                    omega
                  · intro c hc
                    exact h4 c (List.mem_of_mem_drop hc)
                  · intro c hc
                    exact h5 c (List.mem_of_mem_drop hc)
                show Shape cap (.inner (lvl + 1) p.1 p.2)
                refine Shape.inner _ _ _ (by omega) hp2 hp1 ?_ ?_
                · intro c hc
                  rcases hp3 c hc with rfl | hc'
                  · rfl
                  · simp only [List.mem_singleton] at hc'
                    subst hc'
                    rw [hrl]
                    rfl
                · intro c hc
                  rcases hp3 c hc with rfl | hc'
                  · exact hRshape
                  · simp only [List.mem_singleton] at hc'
                    subst hc'
                    exact hrs
        · rw [if_neg hfull] at h
          cases hrec : putDescend cap lvl (.inner lvl ks cs) key v with
          | none =>
            rw [hrec] at h
            exact Option.noConfusion h
          | some r' =>
            obtain ⟨hrl, hrs⟩ := putDescend_shape lvl _ r' key v
              (Shape.inner _ _ _ h1 h2 h3 h4 h5) hrec
            rw [hrec] at h
            simp only [Option.some.injEq] at h
            subst h
            exact hrs

theorem putSeq_shape_from {K V : Type} [LinearOrder K] [Inhabited K] [Inhabited V]
    (cap : ℕ) :
    ∀ (ops : List (K × V)) (t t' : Option (BNode K V)), ShapeT cap t →
      ops.foldlM (fun t p => Btree.put cap t p.1 p.2) t = some t' →
      ShapeT cap t' := by
  intro ops
  induction ops with
  | nil =>
    intro t t' hs h
    have ht : t = t' := Option.some.inj h
    subst ht
    exact hs
  | cons p rest ih =>
    intro t t' hs h
    rw [List.foldlM_cons] at h
    cases hput : Btree.put cap t p.1 p.2 with
    | none =>
      rw [hput] at h
      exact Option.noConfusion h
    | some u =>
      rw [hput] at h
      have h' : rest.foldlM (fun t p => Btree.put cap t p.1 p.2) u = some t' := by
        simpa using h
      exact ih u t' (put_shape hs hput) h'

/-- Every state produced by a put sequence (at any capacity) satisfies the
shape invariant: counts within capacity, inner `key_count` = number of
children = separators + 1, levels decreasing by one. -/
theorem putSeq_shape {K V : Type} [LinearOrder K] [Inhabited K] [Inhabited V]
    (cap : ℕ) (ops : List (K × V)) (t : Option (BNode K V))
    (h : Btree.putSeq cap ops = some t) : ShapeT cap t :=
  putSeq_shape_from cap ops none t trivial h

theorem Shape.levelInv {K V : Type} {cap : ℕ} {n : BNode K V} (h : Shape cap n) :
    LevelInv n := by
  induction h with
  | leaf es hlen => exact LevelInv.leaf es
  | inner lvl ks cs h1 h2 h3 h4 h5 ih => exact LevelInv.inner _ _ _ h1 h4 ih

/-! ## Ascending fill (for the split-correctness claim, capacity ≥ 2) -/

theorem kvUpdate_eq_append {K V : Type} [LinearOrder K] {l : List (K × V)} {key : K}
    {v : V} (h : ∀ x ∈ l.map Prod.fst, x < key) :
    kvUpdate l key v = l ++ [(key, v)] := by
  induction l with
  | nil => rfl
  | cons q t ih =>
    have hq : q.1 < key := h q.1 (by simp)
    simp only [kvUpdate, if_neg (not_lt.mpr (le_of_lt hq)), if_neg (ne_of_gt hq)]
    rw [ih (fun x hx => h x (by simp [hx])), List.cons_append]

theorem putSeq_asc_from {K V : Type} [LinearOrder K] [Inhabited K] [Inhabited V]
    (cap : ℕ) :
    ∀ (ops es : List (K × V)),
      ((es ++ ops).map Prod.fst).Pairwise (· < ·) →
      es.length + ops.length ≤ cap →
      ops.foldlM (fun t p => Btree.put cap t p.1 p.2) (some (.leaf es)) =
        some (some (.leaf (es ++ ops))) := by
  intro ops
  induction ops with
  | nil =>
    intro es hs hlen
    simp
  | cons p rest ih =>
    intro es hs hlen
    rw [List.foldlM_cons]
    have hs' := hs
    rw [List.map_append, List.pairwise_append] at hs'
    obtain ⟨hes, hrest, hcross⟩ := hs'
    have hkey : ∀ x ∈ es.map Prod.fst, x < p.1 := fun x hx =>
      hcross x hx p.1 (by simp)
    have hlen' : es.length + (rest.length + 1) ≤ cap := by
      simpa [List.length_cons] using hlen
    have hfull : ¬ cap ≤ es.length := by omega
    have hins : leafInsert cap es p.1 p.2 = some (kvUpdate es p.1 p.2) :=
      leafInsert_eq_kvUpdate p.2 hes (Or.inl (by omega))
    have hput : Btree.put cap (some (.leaf es)) p.1 p.2 =
        some (some (.leaf (es ++ [p]))) := by
      simp only [Btree.put, if_neg hfull, hins]
      rw [kvUpdate_eq_append hkey]
    rw [hput]
    have h2 := ih (es ++ [p]) (by simpa [List.append_assoc] using hs)
      (by rw [List.length_append, List.length_singleton]; omega)
    rw [List.append_assoc, List.singleton_append] at h2
    simpa using h2

theorem putSeq_ascending {K V : Type} [LinearOrder K] [Inhabited K] [Inhabited V]
    {cap : ℕ} (ops : List (K × V)) (hs : (ops.map Prod.fst).Pairwise (· < ·))
    (hne : 1 ≤ ops.length) (hle : ops.length ≤ cap) :
    Btree.putSeq cap ops = some (some (.leaf ops)) := by
  cases ops with
  | nil => simp at hne
  | cons p rest =>
    show (p :: rest).foldlM (fun t p => Btree.put cap t p.1 p.2) none = _
    rw [List.foldlM_cons]
    have hcap1 : 1 ≤ cap := by
      simp only [List.length_cons] at hle
      omega
    have hins : leafInsert cap ([] : List (K × V)) p.1 p.2 = some [(p.1, p.2)] :=
      leafInsert_eq_kvUpdate p.2 (by simp)
        (Or.inl (by simp only [List.length_nil]; omega))
    have hput : Btree.put cap (none : Option (BNode K V)) p.1 p.2 =
        some (some (.leaf [p])) := by
      simp only [Btree.put, hins]
    rw [hput]
    have h2 := putSeq_asc_from cap rest [p] (by simpa using hs)
      (by rw [List.length_singleton]; simp only [List.length_cons] at hle; omega)
    rw [List.singleton_append] at h2
    simpa using h2

theorem put_full_ascending {K V : Type} [LinearOrder K] [Inhabited K] [Inhabited V]
    {cap : ℕ} (hcap : 2 ≤ cap) {es : List (K × V)} (hlen : es.length = cap)
    (hs : (es.map Prod.fst).Pairwise (· < ·)) (k : K) (v : V)
    (hk : ∀ x ∈ es.map Prod.fst, x < k) :
    Btree.put cap (some (.leaf es)) k v =
      some (some (.inner 1 [(leafSplit es).2.1]
        [.leaf (leafSplit es).1, .leaf ((leafSplit es).2.2 ++ [(k, v)])])) := by
  have hfull : cap ≤ es.length := le_of_eq hlen.symm
  have hmid : es.length / 2 < es.length := by omega
  have hsep : (leafSplit es).2.1 ∈ es.map Prod.fst := by
    show (es.getD (es.length / 2) default).1 ∈ es.map Prod.fst
    refine List.mem_map_of_mem Prod.fst ?_
    rw [List.getD_eq_getElem _ _ hmid]
    exact List.getElem_mem _
  have hbr : (leafSplit es).2.1 < k := hk _ hsep
  have hRsort : ((leafSplit es).2.2.map Prod.fst).Pairwise (· < ·) := by
    show ((es.drop (es.length / 2 + 1)).map Prod.fst).Pairwise (· < ·)
    rw [List.map_drop]
    exact List.Pairwise.sublist (List.drop_sublist _ _) hs
  have hRlen : (leafSplit es).2.2.length < cap := by
    show (es.drop (es.length / 2 + 1)).length < cap
    rw [List.length_drop]
    omega
  have hRkeys : ∀ x ∈ (leafSplit es).2.2.map Prod.fst, x < k := by
    intro x hx
    apply hk
    have hx' : x ∈ (es.map Prod.fst).drop (es.length / 2 + 1) := by
      rw [← List.map_drop]
      exact hx
    exact List.mem_of_mem_drop hx'
  have hins : leafInsert cap (leafSplit es).2.2 k v =
      some ((leafSplit es).2.2 ++ [(k, v)]) := by
    rw [leafInsert_eq_kvUpdate v hRsort (Or.inl hRlen), kvUpdate_eq_append hRkeys]
  have hroot : innerInsertSplit cap ([] : List K) [BNode.leaf (leafSplit es).1]
      (leafSplit es).2.1 (BNode.leaf ((leafSplit es).2.2 ++ [(k, v)])) =
      some ([(leafSplit es).2.1],
        [BNode.leaf (leafSplit es).1,
         BNode.leaf ((leafSplit es).2.2 ++ [(k, v)])]) := by
    simp only [innerInsertSplit]
    rw [if_neg (by simp only [List.length_cons, List.length_nil]; omega)]
    rfl
  simp only [Btree.put, if_pos hfull, if_pos hbr, hins, hroot]

/-! ## Absent keys (no invariant needed) -/

theorem getNode_leaf_absent {K V : Type} [LinearOrder K] [Inhabited K] [Inhabited V]
    (fuel : ℕ) (es : List (K × V)) (k : K) (locks : ℕ)
    (hk : k ∉ es.map Prod.fst) : (getNode fuel (.leaf es) k locks).1 = none := by
  have hbody : ∀ m, (getNode m (.leaf es) k locks).1 = none := by
    intro m
    cases m with
    | zero =>
      simp only [getNode]
      by_cases hf : (leafLowerBound es k).2 = true
      · exfalso
        obtain ⟨hlt, heq⟩ := leafLowerBound_found hf
        apply hk
        rw [← heq]
        refine List.mem_map_of_mem Prod.fst ?_
        rw [List.getD_eq_getElem _ _ hlt]
        exact List.getElem_mem _
      · simp [hf]
    | succ m =>
      simp only [getNode]
      by_cases hf : (leafLowerBound es k).2 = true
      · exfalso
        obtain ⟨hlt, heq⟩ := leafLowerBound_found hf
        apply hk
        rw [← heq]
        refine List.mem_map_of_mem Prod.fst ?_
        rw [List.getD_eq_getElem _ _ hlt]
        exact List.getElem_mem _
      · simp [hf]
  exact hbody fuel

theorem getNode_absent {K V : Type} [LinearOrder K] [Inhabited K] [Inhabited V] :
    ∀ (fuel : ℕ) (n : BNode K V) (k : K) (locks : ℕ), k ∉ treeKeys n →
      (getNode fuel n k locks).1 = none := by
  intro fuel
  induction fuel with
  | zero =>
    intro n k locks hk
    cases n with
    | leaf es =>
      exact getNode_leaf_absent 0 es k locks (by rw [treeKeys_leaf] at hk; exact hk)
    | inner _ _ _ => rfl
  | succ fuel ih =>
    intro n k locks hk
    cases n with
    | leaf es =>
      exact getNode_leaf_absent (fuel + 1) es k locks
        (by rw [treeKeys_leaf] at hk; exact hk)
    | inner lvl ks cs =>
      cases hget : cs.get? ((innerLowerBound ks cs.length k (default : K)).1) with
      | none =>
        have hstep : getNode (fuel + 1) (.inner lvl ks cs) k locks =
            ((none : Option V), locks) := by
          simp only [getNode, hget]
        rw [hstep]
      | some c =>
        have hstep : getNode (fuel + 1) (.inner lvl ks cs) k locks =
            getNode fuel c k (locks + 1) := by
          simp only [getNode, hget]
        rw [hstep]
        apply ih
        intro hmem
        apply hk
        rw [treeKeys_inner]
        exact mem_treeKeysL_of_mem (List.get?_mem hget) hmem

/-- `Btree::get` on a key stored nowhere in the tree returns the absent
result, whatever the state. -/
theorem get_absent {K V : Type} [LinearOrder K] [Inhabited K] [Inhabited V]
    (t : Option (BNode K V)) (k : K) (hk : k ∉ treeKeysT t) :
    (Btree.get t k).1 = none := by
  cases t with
  | none => rfl
  | some root => exact getNode_absent (levelOf root) root k 1 hk

theorem c5_tree_wf {K V : Type} [LinearOrder K] [Inhabited K] [Inhabited V]
    {cap : ℕ} (hcap : 2 ≤ cap) {es : List (K × V)} (hlen : es.length = cap)
    (hs : (es.map Prod.fst).Pairwise (· < ·)) (k : K) (v : V)
    (hk : ∀ x ∈ es.map Prod.fst, x < k) :
    Wf cap (none : Option K) none (.inner 1 [(leafSplit es).2.1]
      [.leaf (leafSplit es).1, .leaf ((leafSplit es).2.2 ++ [(k, v)])]) := by
  have hmlt : es.length / 2 < es.length := by omega
  have hmaplen : (es.map Prod.fst).length = es.length := by simp
  have hsepeq : (leafSplit es).2.1 = (es.map Prod.fst).getD (es.length / 2) default :=
    getD_fst es (es.length / 2) default hmlt
  have hsep : (leafSplit es).2.1 ∈ es.map Prod.fst := by
    show (es.getD (es.length / 2) default).1 ∈ es.map Prod.fst
    refine List.mem_map_of_mem Prod.fst ?_
    rw [List.getD_eq_getElem _ _ hmlt]
    exact List.getElem_mem _
  have hbr : (leafSplit es).2.1 < k := hk _ hsep
  have hLwf : Wf cap (none : Option K) (some (leafSplit es).2.1)
      (.leaf (leafSplit es).1) := by
    refine Wf.leaf _ _ _ ?_ ?_ ?_ ?_
    · show 1 ≤ (es.take (es.length / 2 + 1)).length
      simp only [List.length_take]
      omega
    · show (es.take (es.length / 2 + 1)).length ≤ cap
      simp only [List.length_take]
      omega
    · show ((es.take (es.length / 2 + 1)).map Prod.fst).Pairwise (· < ·)
      rw [List.map_take]
      exact List.Pairwise.sublist (List.take_sublist _ _) hs
    · intro p hp
      refine ⟨oLt_none _, oLe_some.mpr ?_⟩
      rw [hsepeq]
      have hp1 : p.1 ∈ (es.map Prod.fst).take (es.length / 2 + 1) := by
        rw [← List.map_take]
        exact List.mem_map_of_mem Prod.fst hp
      exact sorted_take_le hs (by omega) default p.1 hp1
  have hRwf : Wf cap (some (leafSplit es).2.1) none
      (.leaf ((leafSplit es).2.2 ++ [(k, v)])) := by
    refine Wf.leaf _ _ _ ?_ ?_ ?_ ?_
    · rw [List.length_append, List.length_singleton]
      omega
    · show ((es.drop (es.length / 2 + 1)) ++ [(k, v)]).length ≤ cap
      rw [List.length_append, List.length_drop, List.length_singleton]
      omega
    · show (((es.drop (es.length / 2 + 1)) ++ [(k, v)]).map Prod.fst).Pairwise (· < ·)
      rw [List.map_append, List.pairwise_append]
      refine ⟨?_, by simp, ?_⟩
      · rw [List.map_drop]
        exact List.Pairwise.sublist (List.drop_sublist _ _) hs
      · intro x hx y hy
        simp only [List.map_cons, List.map_nil, List.mem_singleton] at hy
        subst hy
        apply hk
        have hx' : x ∈ (es.map Prod.fst).drop (es.length / 2 + 1) := by
          rw [← List.map_drop]
          exact hx
        exact List.mem_of_mem_drop hx'
    · intro p hp
      rcases List.mem_append.mp hp with hp' | hp'
      · refine ⟨?_, oLe_none _⟩
        refine oLt_some.mpr ?_
        rw [hsepeq]
        have hp1 : p.1 ∈ (es.map Prod.fst).drop (es.length / 2 + 1) := by
          rw [← List.map_drop]
          exact List.mem_map_of_mem Prod.fst hp'
        exact sorted_drop_gt hs (by omega) default p.1 hp1
      · simp only [List.mem_singleton] at hp'
        subst hp'
        exact ⟨oLt_some.mpr hbr, oLe_none _⟩
  refine Wf.inner _ _ _ _ _ le_rfl
    (by simp only [List.length_cons, List.length_nil]; omega) ?_ ?_
  · intro c hc
    rcases List.mem_cons.mp hc with rfl | hc'
    · rfl
    rcases List.mem_cons.mp hc' with rfl | hc''
    · rfl
    · simp at hc''
  · refine WfL.cons _ _ _ _ _ _ (oLt_none _) (oLtHi_none _) ?_ hLwf
      (WfL.single _ _ _ hRwf)
    rw [treeKeys_leaf]
    show (es.getD (es.length / 2) default).1 ∈
      (es.take (es.length / 2 + 1)).map Prod.fst
    exact List.mem_map_of_mem Prod.fst (getD_mem_take hmlt default)

theorem foldlM_put_append_single {K V : Type} [LinearOrder K] [Inhabited K]
    [Inhabited V] (cap : ℕ) (front : List (K × V)) (last : K × V)
    {u : Option (BNode K V)} (hfront : Btree.putSeq cap front = some u) :
    Btree.putSeq cap (front ++ [last]) = Btree.put cap u last.1 last.2 := by
  show (front ++ [last]).foldlM (fun t p => Btree.put cap t p.1 p.2) none = _
  rw [List.foldlM_append]
  have hfill' : front.foldlM (fun t p => Btree.put cap t p.1 p.2) none = some u :=
    hfront
  rw [hfill']
  simp [List.foldlM_cons, List.foldlM_nil]

/-! ## Claim theorems -/

/-- C1 (corrected: capacity ≥ 3 instead of ≥ 2).  For every capacity ≥ 3,
every finite single-threaded put sequence on a fresh tree succeeds, and for
every key put at least once in the sequence a subsequent get returns the
value of the most recent put for that key. -/
theorem claim_c1_roundtrip {K V : Type} [LinearOrder K] [Inhabited K] [Inhabited V]
    {cap : ℕ} (hcap : 3 ≤ cap) (ops : List (K × V)) (k : K)
    (hk : k ∈ ops.map Prod.fst) :
    ∃ t w, Btree.putSeq cap ops = some t ∧ mostRecent ops k = some w ∧
      (Btree.get t k).1 = some w := by
  obtain ⟨t, h1, h2⟩ := putSeq_get hcap ops k
  obtain ⟨w, hw⟩ := Option.isSome_iff_exists.mp (mostRecent_isSome_of_mem ops k hk)
  exact ⟨t, w, h1, hw, by rw [h2, hw]⟩

/-- C1 witness: the round-trip theorem applied at capacity 3 to the sequence
(1,5),(1,7) and key 1. -/
theorem claim_c1_roundtrip_witness :
    ∃ t w, Btree.putSeq 3 ([(1, 5), (1, 7)] : List (ℕ × ℕ)) = some t ∧
      mostRecent [(1, 5), (1, 7)] 1 = some w ∧ (Btree.get t 1).1 = some w :=
  claim_c1_roundtrip (by decide) [(1, 5), (1, 7)] 1 (by decide)

/-- C1 counterexample to the literal capacity-≥-2 claim: at capacity 2 the
put sequence (2,·),(3,·),(1,·) drives `LeafNode::insert` into an
out-of-bounds write — the full root leaf splits into a still-full left leaf
and an empty right sibling, and the new smaller key is then inserted into
the full left leaf — modelled as `none`, so no get can observe the most
recent put. -/
theorem claim_c1_counterexample :
    Btree.putSeq 2 ([(2, 0), (3, 0), (1, 0)] : List (ℕ × ℕ)) = none := by rfl

/-- C3: at capacity 2, `LeafNode::split` on a full leaf of two entries keeps
`count/2 + 1 = 2` entries in the left half and hands the right sibling zero
entries, contradicting the claim that both halves always hold at least one
entry for every capacity ≥ 2. -/
theorem claim_c3_split_empty_half :
    (leafSplit ([(1, 10), (2, 20)] : List (ℕ × ℕ))).1 = [(1, 10), (2, 20)] ∧
    (leafSplit ([(1, 10), (2, 20)] : List (ℕ × ℕ))).2.2 = [] := ⟨rfl, rfl⟩

/-- C4 (corrected: capacity ≥ 3 instead of ≥ 2).  At capacity ≥ 3 every put
sequence on a fresh tree succeeds and every node of the resulting state has
strictly ascending keys: leaf entry keys and inner separator keys.  (get
operations do not modify the tree, so sequences mixing gets preserve this as
well.) -/
theorem claim_c4_sorted {K V : Type} [LinearOrder K] [Inhabited K] [Inhabited V]
    {cap : ℕ} (hcap : 3 ≤ cap) (ops : List (K × V)) :
    ∃ t, Btree.putSeq cap ops = some t ∧ SortedNodesT t := by
  obtain ⟨t, h1, h2, _⟩ := putSeq_spec hcap ops
  refine ⟨t, h1, ?_⟩
  cases t with
  | none => trivial
  | some n => exact Wf.sortedNodes h2

/-- C4 witness: the sortedness theorem applied at capacity 3 to the
single-put sequence (1,0). -/
theorem claim_c4_sorted_witness :
    ∃ t, Btree.putSeq 3 ([(1, 0)] : List (ℕ × ℕ)) = some t ∧ SortedNodesT t :=
  claim_c4_sorted (by decide) [(1, 0)]

/-- C4 counterexample to the literal capacity-≥-2 claim: at capacity 2 the
descending sequence (3,·),(2,·),(1,·) reaches the out-of-bounds write in
`LeafNode::insert` after the degenerate split, so there is no defined
resulting state whose nodes could be sorted. -/
theorem claim_c4_counterexample :
    Btree.putSeq 2 ([(3, 0), (2, 0), (1, 0)] : List (ℕ × ℕ)) = none := by rfl

/-- C5: for every capacity ≥ 2, inserting capacity + 1 distinct strictly
increasing keys into a fresh tree produces exactly one inner root of level 1
with two leaf children, and get succeeds (returning the stored value) for
every one of the capacity + 1 inserted keys. -/
theorem claim_c5_split {K V : Type} [LinearOrder K] [Inhabited K] [Inhabited V]
    {cap : ℕ} (hcap : 2 ≤ cap) (ops : List (K × V))
    (hs : (ops.map Prod.fst).Pairwise (· < ·)) (hlen : ops.length = cap + 1) :
    ∃ sep L R, Btree.putSeq cap ops =
        some (some (.inner 1 [sep] [.leaf L, .leaf R])) ∧
      ∀ p ∈ ops, (Btree.get
        (some (BNode.inner 1 [sep] [.leaf L, .leaf R])) p.1).1 = some p.2 := by
  have hne : ops ≠ [] := by
    intro h
    rw [h] at hlen
    simp only [List.length_nil] at hlen
    omega
  obtain ⟨front, last, rfl⟩ : ∃ front last, ops = front ++ [last] :=
    ⟨ops.dropLast, ops.getLast hne, (List.dropLast_append_getLast hne).symm⟩
  have hsf := hs
  rw [List.map_append, List.pairwise_append] at hsf
  obtain ⟨hfront, hlast, hcross⟩ := hsf
  have hkfront : ∀ x ∈ front.map Prod.fst, x < last.1 := fun x hx =>
    hcross x hx last.1 (by simp)
  have hflen : front.length = cap := by
    rw [List.length_append, List.length_singleton] at hlen
    omega
  have hfill : Btree.putSeq cap front = some (some (.leaf front)) :=
    putSeq_ascending front hfront (by omega) (by omega)
  have hstep := put_full_ascending hcap hflen hfront last.1 last.2 hkfront
  have hput := foldlM_put_append_single cap front last hfill
  rw [hstep] at hput
  have hwf := c5_tree_wf hcap hflen hfront last.1 last.2 hkfront
  have hent : treeEntriesT (some (BNode.inner 1 [(leafSplit front).2.1]
      [.leaf (leafSplit front).1,
       .leaf ((leafSplit front).2.2 ++ [(last.1, last.2)])])) =
      front ++ [last] := by
    show treeEntriesL _ = _
    simp only [treeEntriesL, treeEntries, List.append_nil]
    rw [← List.append_assoc]
    show front.take (front.length / 2 + 1) ++ front.drop (front.length / 2 + 1) ++
      [(last.1, last.2)] = front ++ [last]
    rw [List.take_append_drop]
  refine ⟨(leafSplit front).2.1, (leafSplit front).1,
    (leafSplit front).2.2 ++ [(last.1, last.2)], hput, ?_⟩
  intro p hp
  rw [Btree.get_fst (show WfT cap (some _) from hwf), hent]
  exact entriesLookup_of_mem_sorted hs hp rfl

/-- C5 witness: the split theorem applied at capacity 2 to the ascending
sequence (1,10),(2,20),(3,30). -/
theorem claim_c5_split_witness :
    ∃ sep L R, Btree.putSeq 2 ([(1, 10), (2, 20), (3, 30)] : List (ℕ × ℕ)) =
        some (some (.inner 1 [sep] [.leaf L, .leaf R])) ∧
      ∀ p ∈ [(1, 10), (2, 20), (3, 30)], (Btree.get
        (some (BNode.inner 1 [sep] [.leaf L, .leaf R])) p.1).1 = some p.2 :=
  claim_c5_split (by decide) [(1, 10), (2, 20), (3, 30)] (by decide) (by decide)

/-- C6 (corrected: the entry is overwritten, but not always "in place" in the
same leaf).  At capacity ≥ 3, on any well-formed state, put(k,v1) then
put(k,v2) succeeds, a subsequent get(k) returns v2, and the tree stores
exactly one entry for k (the entry count for k does not grow).  The
containing-leaf part of the original claim is refuted separately: a
preemptive split between the two puts can move the entry to a different
leaf. -/
theorem claim_c6_update {K V : Type} [LinearOrder K] [Inhabited K] [Inhabited V]
    {cap : ℕ} (hcap : 3 ≤ cap) {t : Option (BNode K V)} (hwf : WfT cap t)
    (k : K) (v1 v2 : V) :
    ∃ n1 n2, Btree.put cap t k v1 = some (some n1) ∧
      Btree.put cap (some n1) k v2 = some (some n2) ∧
      (Btree.get (some n2) k).1 = some v2 ∧
      ((treeEntries n2).map Prod.fst).count k = 1 := by
  obtain ⟨n1, hp1, hw1, he1⟩ := put_spec hcap k v1 hwf
  obtain ⟨n2, hp2, hw2, he2⟩ := put_spec hcap k v2 (show WfT cap (some n1) from hw1)
  refine ⟨n1, n2, hp1, hp2, ?_, ?_⟩
  · rw [Btree.get_fst (show WfT cap (some n2) from hw2),
      show treeEntriesT (some n2) = treeEntries n2 from rfl, he2]
    exact entriesLookup_kvUpdate_self _ _ _
  · rw [he2]
    exact count_map_fst_kvUpdate (Wf.keys_pairwise hw1)

/-- C6 witness: the update theorem applied at capacity 3 on the empty tree
with key 1 and values 5 then 7. -/
theorem claim_c6_update_witness :
    ∃ n1 n2, Btree.put 3 (none : Option (BNode ℕ ℕ)) 1 5 = some (some n1) ∧
      Btree.put 3 (some n1) 1 7 = some (some n2) ∧
      (Btree.get (some n2) 1).1 = some 7 ∧
      ((treeEntries n2).map Prod.fst).count 1 = 1 :=
  @claim_c6_update ℕ ℕ _ _ _ 3 (by decide) none (by trivial) 1 5 7

/-- C6 counterexample to "overwrites in place / containing leaf unchanged":
at capacity 3, after puts (1,10),(2,20),(3,30) key 3 lives in the root leaf,
whose key_count is 3; the second put(3,31) splits that leaf preemptively and
the updated entry ends up in a fresh right leaf of key_count 1, so the
containing leaf and its key_count both change. -/
theorem claim_c6_counterexample :
    Btree.putSeq 3 ([(1, 10), (2, 20), (3, 30)] : List (ℕ × ℕ)) =
      some (some (.leaf [(1, 10), (2, 20), (3, 30)])) ∧
    Btree.putSeq 3 ([(1, 10), (2, 20), (3, 30), (3, 31)] : List (ℕ × ℕ)) =
      some (some (.inner 1 [2] [.leaf [(1, 10), (2, 20)], .leaf [(3, 31)]])) ∧
    treeLeafFor (some (.leaf [(1, 10), (2, 20), (3, 30)]) : Option (BNode ℕ ℕ)) 3 =
      some [(1, 10), (2, 20), (3, 30)] ∧
    treeLeafFor
      (some (.inner 1 [2] [.leaf [(1, 10), (2, 20)], .leaf [(3, 31)]]) :
        Option (BNode ℕ ℕ)) 3 =
      some [(3, 31)] := ⟨rfl, rfl, rfl, rfl⟩

/-- C7 (corrected: an inner node's `key_count` is its number of children,
i.e. separators + 1, not the number of separator keys; a leaf's `key_count`
is its number of entries; both are ≤ capacity).  `Shape` states exactly this
for every node of every state a put sequence can produce, at every
capacity. -/
theorem claim_c7_key_count {K V : Type} [LinearOrder K] [Inhabited K] [Inhabited V]
    (cap : ℕ) (ops : List (K × V)) (t : Option (BNode K V))
    (h : Btree.putSeq cap ops = some t) : ShapeT cap t :=
  putSeq_shape cap ops t h

/-- C7 witness: the shape theorem applied at capacity 2 to the single-put
sequence (1,0). -/
theorem claim_c7_key_count_witness :
    ShapeT 2 (some (.leaf [(1, 0)]) : Option (BNode ℕ ℕ)) :=
  claim_c7_key_count 2 [(1, 0)] (some (.leaf [(1, 0)])) rfl

/-- C7 counterexample to "key_count = number of separators" for inner nodes:
a reachable inner root stores one separator key but its `key_count`
(= number of children) is 2. -/
theorem claim_c7_counterexample :
    Btree.putSeq 3 ([(1, 10), (2, 20), (3, 30), (4, 40)] : List (ℕ × ℕ)) =
      some (some (.inner 1 [2] [.leaf [(1, 10), (2, 20)],
        .leaf [(3, 30), (4, 40)]])) ∧
    keyCountField
      (.inner 1 [2] [.leaf [(1, 10), (2, 20)], .leaf [(3, 30), (4, 40)]] :
        BNode ℕ ℕ) = 2 ∧
    numKeys
      (.inner 1 [2] [.leaf [(1, 10), (2, 20)], .leaf [(3, 30), (4, 40)]] :
        BNode ℕ ℕ) = 1 :=
  ⟨rfl, rfl, rfl⟩

/-- C8: every state a put sequence can produce, at every capacity, satisfies
the level invariant: leaves have level 0 (leaves are created with level 0 and
never relabelled), inner nodes have level ≥ 1, and every child's level is
exactly one less than its parent's. -/
theorem claim_c8_levels {K V : Type} [LinearOrder K] [Inhabited K] [Inhabited V]
    (cap : ℕ) (ops : List (K × V)) (t : Option (BNode K V))
    (h : Btree.putSeq cap ops = some t) : LevelInvT t := by
  have hshape := putSeq_shape cap ops t h
  cases t with
  | none => trivial
  | some n => exact Shape.levelInv hshape

/-- C8 witness: the level theorem applied at capacity 3 to the single-put
sequence (2,1). -/
theorem claim_c8_levels_witness :
    LevelInvT (some (.leaf [(2, 1)]) : Option (BNode ℕ ℕ)) :=
  claim_c8_levels 3 [(2, 1)] (some (.leaf [(2, 1)])) rfl

/-- C9: get on a key stored nowhere in the tree returns the absent optional —
for every tree state, with no invariant assumed — and on the empty tree get
returns not-found immediately, acquiring zero node locks. -/
theorem claim_c9_absent {K V : Type} [LinearOrder K] [Inhabited K] [Inhabited V]
    (t : Option (BNode K V)) (k : K) (hk : k ∉ treeKeysT t) :
    (Btree.get t k).1 = none ∧
      Btree.get (none : Option (BNode K V)) k = (none, 0) :=
  ⟨get_absent t k hk, rfl⟩

/-- C9 witness: the absence theorem applied to a one-entry leaf and the
missing key 2. -/
theorem claim_c9_absent_witness :
    (Btree.get (some (.leaf [(1, 5)]) : Option (BNode ℕ ℕ)) 2).1 = none ∧
      Btree.get (none : Option (BNode ℕ ℕ)) 2 = (none, 0) :=
  claim_c9_absent (some (.leaf [(1, 5)])) 2 (by decide)

/-- C10: at capacity ≥ 3, every separator key of every reachable state is
physically stored in the tree (the leaf split keeps the separator in the left
leaf, and the lower-bound routing sends a key equal to a separator into the
left half), so get on a separator key finds the retained entry, and put on it
overwrites that entry: afterwards get returns the new value and the tree
stores exactly one entry for that key. -/
theorem claim_c10_separator {K V : Type} [LinearOrder K] [Inhabited K] [Inhabited V]
    {cap : ℕ} (hcap : 3 ≤ cap) (ops : List (K × V)) (t : Option (BNode K V))
    (hreach : Btree.putSeq cap ops = some t) (s : K) (hs : s ∈ sepKeysT t) (v : V) :
    (Btree.get t s).1.isSome ∧
      ∃ n, Btree.put cap t s v = some (some n) ∧
        (Btree.get (some n) s).1 = some v ∧
        ((treeEntries n).map Prod.fst).count s = 1 := by
  obtain ⟨t', h1, hwf, hent⟩ := putSeq_spec hcap ops
  have ht : t' = t := Option.some.inj (h1.symm.trans hreach)
  subst ht
  cases t' with
  | none => simp [sepKeysT] at hs
  | some root =>
    have hroot : Wf cap (none : Option K) none root := hwf
    have hsk : s ∈ treeKeys root := Wf.seps_sub hroot s hs
    obtain ⟨p, hp, hps⟩ := List.mem_map.mp hsk
    have hlookup : entriesLookup (treeEntries root) s = some p.2 :=
      entriesLookup_of_mem_sorted (Wf.keys_pairwise hroot) hp hps
    constructor
    · rw [Btree.get_fst (show WfT cap (some root) from hroot),
        show treeEntriesT (some root) = treeEntries root from rfl, hlookup]
      rfl
    · obtain ⟨n, hp2, hw2, he2⟩ := put_spec hcap s v
        (show WfT cap (some root) from hroot)
      refine ⟨n, hp2, ?_, ?_⟩
      · rw [Btree.get_fst (show WfT cap (some n) from hw2),
          show treeEntriesT (some n) = treeEntries n from rfl, he2]
        exact entriesLookup_kvUpdate_self _ _ _
      · rw [he2]
        exact count_map_fst_kvUpdate (Wf.keys_pairwise hroot)

/-- C10 witness: the separator theorem applied at capacity 3 to the reachable
two-leaf tree whose separator 2 is stored in the left leaf, with new value
99. -/
theorem claim_c10_separator_witness :
    (Btree.get (some (.inner 1 [2] [.leaf [(1, 10), (2, 20)],
        .leaf [(3, 30), (4, 40)]]) : Option (BNode ℕ ℕ)) 2).1.isSome ∧
      ∃ n, Btree.put 3 (some (.inner 1 [2] [.leaf [(1, 10), (2, 20)],
          .leaf [(3, 30), (4, 40)]])) 2 99 = some (some n) ∧
        (Btree.get (some n) 2).1 = some 99 ∧
        ((treeEntries n).map Prod.fst).count 2 = 1 :=
  @claim_c10_separator ℕ ℕ _ _ _ 3 (by decide) [(1, 10), (2, 20), (3, 30), (4, 40)]
    (some (.inner 1 [2] [.leaf [(1, 10), (2, 20)], .leaf [(3, 30), (4, 40)]]))
    (by rfl) 2 (by decide) 99
